import Mathlib

/-!
Shallow embedding of the red-black-tree map from `src/Map/Map/RBT.h` and
`src/Map/Map/Map.h`, together with the later module revision of the same code
in `src/unnamed/part_000` (RBT) and `src/unnamed/part_001` (Map).

Modelling conventions, fixed once for the whole file:

* A `TreeNode*` heap cell is a constructor `Tr.nd id red key val left right`.
  The `id` field models the node's address: the C++ code compares raw node
  pointers (`node == parent->leftNode`, iterator equality, the re-checks in
  `InsertRepair` after recursive calls), and two distinct nodes with equal
  payload must stay distinguishable.  Fresh allocations draw ids from a
  counter kept in the tree state, so ids of live nodes are distinct.
* The shared `sentinelNode` is `Tr.nil`.  The sentinel is black and carries no
  payload; the only sentinel mutation the code performs whose value is ever
  read again is `TransplantRBT` setting the sentinel's parent, which in the
  zipper representation below is exactly the context of a `nil` focus, so no
  data is lost by this identification.
* Parent pointers are not stored; the zipper context `Ctx` carries the same
  information (for every reachable state the stored parent pointers agree
  with the actual tree shape, which is what the context records).
* Loops over node pointers become structural recursion where the loop
  descends (insert descent, find, min, max, lower_bound) and fuel-indexed
  recursion where it does not (`InsertRepair`, `EraseRepair`, iterator
  walks).  Fuel exhaustion returns the tree unchanged; all theorems below
  either hold for every fuel or supply a sufficient fuel explicitly.
* `size_t count` becomes a `Nat`.  `count--` is Nat subtraction; it is only
  executed when `find` just returned a real node.
* C++ exceptions (`std::out_of_range`) become `Except String` results with
  the exact message strings thrown by the source.
* Undefined behaviour the source could only reach from a malformed tree
  (e.g. reading a child of the sentinel) is modelled by a harmless default;
  every theorem below is about states the operations themselves build.
-/

namespace MapSpec

/-- A tree node (`RBT::TreeNode`): address id, `isRed`, key, value, left and
right subtrees.  `Tr.nil` is the shared sentinel. -/
inductive Tr (α β : Type) where
  | nil  : Tr α β
  | nd   : Nat → Bool → α → β → Tr α β → Tr α β → Tr α β
  deriving Repr, DecidableEq

namespace Tr

/-- `node->isRed`; the sentinel is black. -/
def isRedT : Tr α β → Bool
  | nil => false
  | nd _ r _ _ _ _ => r

/-- `node->leftNode` (sentinel's children are never real nodes). -/
def leftT : Tr α β → Tr α β
  | nil => nil
  | nd _ _ _ _ l _ => l

/-- `node->rightNode`. -/
def rightT : Tr α β → Tr α β
  | nil => nil
  | nd _ _ _ _ _ r => r

/-- The node's address; `none` for the sentinel. -/
def idT : Tr α β → Option Nat
  | nil => none
  | nd i _ _ _ _ _ => some i

/-- `node == sentinelNode`. -/
def isNil : Tr α β → Bool
  | nil => true
  | _ => false

/-- In-order key/value sequence of the tree (what `displayKeyValue` prints). -/
def inorder : Tr α β → List (α × β)
  | nil => []
  | nd _ _ k v l r => inorder l ++ (k, v) :: inorder r

/-- All node ids, in-order. -/
def ids : Tr α β → List Nat
  | nil => []
  | nd i _ _ _ l r => ids l ++ i :: ids r

/-- Number of real nodes. -/
def sizeT : Tr α β → Nat
  | nil => 0
  | nd _ _ _ _ l r => sizeT l + sizeT r + 1

end Tr

open Tr

/-- The chain of parent pointers above a focused subtree: `inl` means the
focus is the left child of a node with the recorded fields and right sibling,
`inr` the mirror.  `top` means the focus is the root (its parent is the
sentinel). -/
inductive Ctx (α β : Type) where
  | top : Ctx α β
  | inl : Nat → Bool → α → β → Tr α β → Ctx α β → Ctx α β
  | inr : Nat → Bool → α → β → Tr α β → Ctx α β → Ctx α β
  deriving Repr, DecidableEq

namespace Ctx

/-- Rebuild the whole tree from a context and a focused subtree. -/
def plug : Ctx α β → Tr α β → Tr α β
  | top, f => f
  | inl i r k v rsib up, f => plug up (Tr.nd i r k v f rsib)
  | inr i r k v lsib up, f => plug up (Tr.nd i r k v lsib f)

/-- Replace the `top` of the first context by a second context (used to place
a zipper computed inside a subtree into an enclosing position). -/
def comp : Ctx α β → Ctx α β → Ctx α β
  | top, c => c
  | inl i r k v s up, c => inl i r k v s (comp up c)
  | inr i r k v s up, c => inr i r k v s (comp up c)

end Ctx

open Ctx

/-- Follow pointers down from `t` to the node with address `x`, returning its
context and subtree (the zipper the parent pointers of the C++ state encode). -/
def locate : Tr α β → Nat → Ctx α β → Option (Ctx α β × Tr α β)
  | Tr.nil, _, _ => none
  | Tr.nd i r k v l rt, x, c =>
      if i = x then some (c, Tr.nd i r k v l rt)
      else
        match locate l x (Ctx.inl i r k v rt c) with
        | some z => some z
        | none => locate rt x (Ctx.inr i r k v l c)

/-- Read the node with address `x` (a pointer dereference). -/
def readNd (t : Tr α β) (x : Nat) : Option (Tr α β) :=
  (locate t x Ctx.top).map Prod.snd

/-- `node->rightNode`'s address, reading `node` by address `x`. -/
def readRightId (t : Tr α β) (x : Nat) : Option Nat :=
  match readNd t x with
  | some f => idT (rightT f)
  | none => none

/-- `node->leftNode`'s address, reading `node` by address `x`. -/
def readLeftId (t : Tr α β) (x : Nat) : Option Nat :=
  match readNd t x with
  | some f => idT (leftT f)
  | none => none

/-- `node->isRed = b` through a pointer with address `x`. -/
def setRedAt (t : Tr α β) (x : Nat) (b : Bool) : Tr α β :=
  match locate t x Ctx.top with
  | some (c, Tr.nd i _ k v l r) => Ctx.plug c (Tr.nd i b k v l r)
  | _ => t

/-- Net effect of `RBT::RotateLeft(node)` where `node` has address `x`: the
node's right child takes its place (the grandparent's child pointer or the
root pointer is the context plug); both nodes keep their colors.  The source
always calls this with a real right child. -/
def rotateLeftAt (t : Tr α β) (x : Nat) : Tr α β :=
  match locate t x Ctx.top with
  | some (c, Tr.nd i r k v a (Tr.nd i2 r2 k2 v2 b d)) =>
      Ctx.plug c (Tr.nd i2 r2 k2 v2 (Tr.nd i r k v a b) d)
  | _ => t

/-- Net effect of `RBT::RotateRight(node)`. -/
def rotateRightAt (t : Tr α β) (x : Nat) : Tr α β :=
  match locate t x Ctx.top with
  | some (c, Tr.nd i r k v (Tr.nd i2 r2 k2 v2 a b) d) =>
      Ctx.plug c (Tr.nd i2 r2 k2 v2 a (Tr.nd i r k v b d))
  | _ => t

/-- One parent frame of a context: the parent's address and color, the
focused child's sibling, whether the focus is the left child, and the rest of
the context. -/
def frameOf : Ctx α β → Option (Nat × Bool × Tr α β × Bool × Ctx α β)
  | Ctx.top => none
  | Ctx.inl i r _ _ s up => some (i, r, s, true, up)
  | Ctx.inr i r _ _ s up => some (i, r, s, false, up)

/-- `RBT::InsertRepair(node)` with `node` at address `x`.  Mirrors the source
case by case: `node == root` recolors the node black; a sentinel grandparent
recolors the parent (the root) black; a black parent returns; a red uncle
recolors parent, uncle and grandparent and recurses on the grandparent; the
black-uncle branch first normalizes a triangle by rotating at the parent and
recursing on it, and then its second `if` pair re-evaluates
`grandparent->rightNode == parent && parent->rightNode == node` (and the
mirror) through the stale local pointers on the tree produced so far — hence
the address-based re-reads on `t2`. -/
def insertRepair (fuel : Nat) (t : Tr α β) (x : Nat) : Tr α β :=
  match fuel with
  | 0 => t
  | fuel + 1 =>
    match locate t x Ctx.top with
    | none => t
    | some (ctx, foc) =>
      match frameOf ctx with
      | none => setRedAt t x false
      | some (p, pr, _, nodeIsLeft, up) =>
        match frameOf up with
        | none => setRedAt t p false
        | some (g, _, uncle, parentIsLeft, _) =>
          if !pr then t
          else if isRedT foc && pr && isRedT uncle then
            match idT uncle with
            | some u =>
                let t1 := setRedAt t p false
                let t2 := setRedAt t1 u false
                let t3 := setRedAt t2 g true
                insertRepair fuel t3 g
            | none => t
          else if isRedT foc && pr && !isRedT uncle then
            let t2 :=
              if !parentIsLeft && nodeIsLeft then
                insertRepair fuel (rotateRightAt t p) p
              else if parentIsLeft && !nodeIsLeft then
                insertRepair fuel (rotateLeftAt t p) p
              else t
            if readRightId t2 g = some p && readRightId t2 p = some x then
              let t3 := setRedAt t2 p false
              let t4 := setRedAt t3 g true
              insertRepair fuel (rotateLeftAt t4 g) p
            else if readLeftId t2 g = some p && readLeftId t2 p = some x then
              let t3 := setRedAt t2 p false
              let t4 := setRedAt t3 g true
              insertRepair fuel (rotateRightAt t4 g) p
            else t2
          else t

/-- The tree-owning state of `RBT`: root, running element count, and the
allocation counter that hands out node addresses. -/
structure St (α β : Type) where
  root : Tr α β
  count : Nat
  next : Nat
  deriving Repr, DecidableEq

/-- A freshly constructed tree (`RBT::RBT()`): root is the sentinel, count 0. -/
def emptySt : St α β := ⟨Tr.nil, 0, 0⟩

/-- Descent loop of `RBT::insert`: update the value in place on key equality,
otherwise descend by the comparator and attach a fresh red node (children
sentinel) where a sentinel child is reached.  Returns the rewritten tree and
the attached node's address, if a node was attached. -/
def insGo (lt : α → α → Bool) [DecidableEq α] (nx : Nat) (kv : α × β) :
    Tr α β → Tr α β × Option Nat
  | Tr.nil => (Tr.nil, none)
  | Tr.nd i r k v l rt =>
      if kv.1 = k then (Tr.nd i r k kv.2 l rt, none)
      else if lt k kv.1 then
        match rt with
        | Tr.nil => (Tr.nd i r k v l (Tr.nd nx true kv.1 kv.2 Tr.nil Tr.nil), some nx)
        | _ =>
            let z := insGo lt nx kv rt
            (Tr.nd i r k v l z.1, z.2)
      else
        match l with
        | Tr.nil => (Tr.nd i r k v (Tr.nd nx true kv.1 kv.2 Tr.nil Tr.nil) rt, some nx)
        | _ =>
            let z := insGo lt nx kv l
            (Tr.nd i r k v z.1 rt, z.2)

/-- `RBT::insert`: an empty tree gets a black root; otherwise run the descent
and, when a node was attached, `InsertRepair` it and increment the count. -/
def insertS (lt : α → α → Bool) [DecidableEq α] (s : St α β) (kv : α × β) : St α β :=
  match s.root with
  | Tr.nil => ⟨Tr.nd s.next false kv.1 kv.2 Tr.nil Tr.nil, s.count + 1, s.next + 1⟩
  | t =>
      match insGo lt s.next kv t with
      | (t2, none) => ⟨t2, s.count, s.next⟩
      | (t2, some x) =>
          ⟨insertRepair (t2.sizeT + 1) t2 x, s.count + 1, s.next + 1⟩

/-- `node->isRed = false` on the focused node (writing the sentinel is a
no-op: it is black already). -/
def blacken : Tr α β → Tr α β
  | Tr.nil => Tr.nil
  | Tr.nd i _ k v l r => Tr.nd i false k v l r

/-- `node->isRed = true` on a focused real node. -/
def redden : Tr α β → Tr α β
  | Tr.nil => Tr.nil
  | Tr.nd i _ k v l r => Tr.nd i true k v l r

/-- `RBT::EraseRepair(node)`, the doubly-black loop, on the zipper of the
node that replaced the erased one (possibly the sentinel: the C++ code
parks the sentinel at that position by writing its parent pointer, which the
context records here).  Each branch mirrors the corresponding source case;
case 1 rotates at the parent, refreshes the sibling and re-enters the loop;
case 2 recolors the sibling and moves the deficiency to the parent; case 3
rotates at the sibling and re-enters the loop (the source's `else if` chain
reaches case 4 on the next iteration); case 4 rotates at the parent, sets
`node = root` and the loop exits, after which `node->isRed = false`. -/
def eraseRepair (fuel : Nat) (ctx : Ctx α β) (foc : Tr α β) : Tr α β :=
  match fuel with
  | 0 => Ctx.plug ctx foc
  | fuel + 1 =>
    match ctx with
    | Ctx.top => blacken foc
    | Ctx.inl p pr pk pv sib up =>
      if isRedT foc then Ctx.plug ctx (blacken foc)
      else if isRedT sib then
        match sib with
        | Tr.nd s _ sk sv a b =>
            eraseRepair fuel (Ctx.inl p true pk pv a (Ctx.inl s false sk sv b up)) foc
        | Tr.nil => Ctx.plug ctx foc
      else if !isRedT (leftT sib) && !isRedT (rightT sib) then
        eraseRepair fuel up (Tr.nd p pr pk pv foc (redden sib))
      else if !isRedT (rightT sib) then
        match sib with
        | Tr.nd s _ sk sv (Tr.nd sl _ slk slv a b) c =>
            eraseRepair fuel
              (Ctx.inl p pr pk pv (Tr.nd sl false slk slv a (Tr.nd s true sk sv b c)) up) foc
        | _ => Ctx.plug ctx foc
      else
        match sib with
        | Tr.nd s _ sk sv a (Tr.nd sr _ srk srv c d) =>
            blacken (Ctx.plug up
              (Tr.nd s pr sk sv (Tr.nd p false pk pv foc a) (Tr.nd sr false srk srv c d)))
        | _ => Ctx.plug ctx foc
    | Ctx.inr p pr pk pv sib up =>
      if isRedT foc then Ctx.plug ctx (blacken foc)
      else if isRedT sib then
        match sib with
        | Tr.nd s _ sk sv a b =>
            eraseRepair fuel (Ctx.inr p true pk pv b (Ctx.inr s false sk sv a up)) foc
        | Tr.nil => Ctx.plug ctx foc
      else if !isRedT (rightT sib) && !isRedT (leftT sib) then
        eraseRepair fuel up (Tr.nd p pr pk pv (redden sib) foc)
      else if !isRedT (leftT sib) then
        match sib with
        | Tr.nd s _ sk sv a (Tr.nd sr _ srk srv b c) =>
            eraseRepair fuel
              (Ctx.inr p pr pk pv (Tr.nd sr false srk srv (Tr.nd s true sk sv a b) c) up) foc
        | _ => Ctx.plug ctx foc
      else
        match sib with
        | Tr.nd s _ sk sv (Tr.nd sl _ slk slv c d) b =>
            blacken (Ctx.plug up
              (Tr.nd s pr sk sv (Tr.nd sl false slk slv c d) (Tr.nd p false pk pv b foc)))
        | _ => Ctx.plug ctx foc

/-- Zipper of the leftmost real node of a subtree (the successor used by
`RBT::erase` on a node with two children). -/
def minZip : Tr α β → Ctx α β → Option (Ctx α β × Tr α β)
  | Tr.nil, _ => none
  | Tr.nd i r k v l rt, c =>
    match l with
    | Tr.nil => some (c, Tr.nd i r k v Tr.nil rt)
    | _ => minZip l (Ctx.inl i r k v rt c)

/-- `RBT::erase(nodeDeleted)` given the zipper of the node to delete.  The
three branches mirror the source: splice the other child over a node with at
most one real child; otherwise detach the in-order successor (minimum of the
right subtree), transplant it into the deleted position with the deleted
node's color, and remember the successor's original color.  `EraseRepair`
runs on the splice position exactly when the remembered color was black. -/
def erase (fuel : Nat) (ctx : Ctx α β) (foc : Tr α β) : Tr α β :=
  match foc with
  | Tr.nil => Ctx.plug ctx Tr.nil
  | Tr.nd _ dr dk dv a b =>
    match a with
    | Tr.nil =>
        if !dr then eraseRepair fuel ctx b else Ctx.plug ctx b
    | _ =>
      match b with
      | Tr.nil =>
          if !dr then eraseRepair fuel ctx a else Ctx.plug ctx a
      | _ =>
        match minZip b Ctx.top with
        | some (cB, Tr.nd s scol sk sv _ sr) =>
            match cB with
            | Ctx.top =>
                let ctx2 := Ctx.inr s dr sk sv a ctx
                if !scol then eraseRepair fuel ctx2 sr else Ctx.plug ctx2 sr
            | _ =>
                let ctx2 := Ctx.comp cB (Ctx.inr s dr sk sv a ctx)
                if !scol then eraseRepair fuel ctx2 sr else Ctx.plug ctx2 sr
        | _ => Ctx.plug ctx foc

/-- `RBT::find`'s descent, keeping the context (the returned pointer's
position, which `deleteKey` follows into `erase`): equal key returns the
node, otherwise descend right when `comparator(node.key, key)` holds, else
left. -/
def findZ (lt : α → α → Bool) [DecidableEq α] :
    Tr α β → α → Ctx α β → Option (Ctx α β × Tr α β)
  | Tr.nil, _, _ => none
  | Tr.nd i r k v l rt, key, c =>
      if key = k then some (c, Tr.nd i r k v l rt)
      else if lt k key then findZ lt rt key (Ctx.inr i r k v l c)
      else findZ lt l key (Ctx.inl i r k v rt c)

/-- `RBT::find(keySearch)` as the returned pointer: the found node's address,
or `none` for the `nullptr` returned when the key is absent. -/
def find (lt : α → α → Bool) [DecidableEq α] (t : Tr α β) (key : α) : Option Nat :=
  match findZ lt t key Ctx.top with
  | some (_, f) => idT f
  | none => none

/-- `RBT::deleteKey(keyDeleted)`: find the key; when the returned pointer is
non-null, erase that node and decrement the count, otherwise do nothing. -/
def deleteKey (lt : α → α → Bool) [DecidableEq α] (s : St α β) (key : α) : St α β :=
  match findZ lt s.root key Ctx.top with
  | none => s
  | some (c, f) => ⟨erase (s.root.sizeT * 3 + 3) c f, s.count - 1, s.next⟩

/-- `RBT::min(node)`: leftmost node's address, or `nullptr` on the sentinel. -/
def minNode : Tr α β → Option Nat
  | Tr.nil => none
  | Tr.nd i _ _ _ l _ =>
    match l with
    | Tr.nil => some i
    | _ => minNode l

/-- `RBT::max(node)`. -/
def maxNode : Tr α β → Option Nat
  | Tr.nil => none
  | Tr.nd i _ _ _ _ r =>
    match r with
    | Tr.nil => some i
    | _ => maxNode r

/-- The parent-climb of `RBT::successor`: first ancestor of which the walk
arrives from a left child; reaching the top returns `nullptr`. -/
def upLeft : Ctx α β → Option Nat
  | Ctx.top => none
  | Ctx.inl p _ _ _ _ _ => some p
  | Ctx.inr _ _ _ _ _ up => upLeft up

/-- The parent-climb of `RBT::predecessor`. -/
def upRight : Ctx α β → Option Nat
  | Ctx.top => none
  | Ctx.inr p _ _ _ _ _ => some p
  | Ctx.inl _ _ _ _ _ up => upRight up

/-- `RBT::successor(node)` for the node at address `x`: minimum of a real
right subtree, otherwise the parent climb. -/
def succOf (t : Tr α β) (x : Nat) : Option Nat :=
  match locate t x Ctx.top with
  | none => none
  | some (c, f) =>
    match rightT f with
    | Tr.nil => upLeft c
    | r => minNode r

/-- `RBT::predecessor(node)`. -/
def predOf (t : Tr α β) (x : Nat) : Option Nat :=
  match locate t x Ctx.top with
  | none => none
  | some (c, f) =>
    match leftT f with
    | Tr.nil => upRight c
    | l => maxNode l

/-- A node pointer as iterators store it: a real node's address, the
sentinel (`end`), or `nullptr` (what `min`/`max`/`successor`/`predecessor`
return on an empty tree or past the extremes). -/
inductive Pos where
  | sent : Pos
  | pnull : Pos
  | real : Nat → Pos
  deriving Repr, DecidableEq

/-- Convert a returned `TreeNode*` to a stored position. -/
def posOfPtr : Option Nat → Pos
  | none => Pos.pnull
  | some x => Pos.real x

/-- A `Map` object: its tree plus the map object's address `mid`, which the
iterators' `map` member points at (`Iterator::operator==` compares it). -/
structure Mp (α β : Type) where
  st : St α β
  mid : Nat
  deriving Repr, DecidableEq

/-- `Map::Iterator`: a (node pointer, map pointer) pair. -/
structure It where
  pos : Pos
  mid : Nat
  deriving Repr, DecidableEq

/-- `Map::end()`: an iterator on the sentinel. -/
def endIt (M : Mp α β) : It := ⟨Pos.sent, M.mid⟩

/-- `Map::begin()`: an iterator on `tree.min(tree.getRoot())` (that call
returns `nullptr` on an empty tree). -/
def beginIt (M : Mp α β) : It := ⟨posOfPtr (minNode M.st.root), M.mid⟩

/-- `Map::Iterator::operator++`: at `end()` return unchanged (no error);
otherwise step to the successor, or to the sentinel when there is none. -/
def iterInc (M : Mp α β) (it : It) : It :=
  if it = endIt M then it
  else
    match it.pos with
    | Pos.real x =>
        match succOf M.st.root x with
        | some s => ⟨Pos.real s, it.mid⟩
        | none => ⟨Pos.sent, it.mid⟩
    | _ => it

/-- `Map::Iterator::operator--`: at `begin()` throw; at `end()` move to the
maximum; otherwise move to the predecessor, throwing when it is null. -/
def iterDec (M : Mp α β) (it : It) : Except String It :=
  if it = beginIt M then
    Except.error ("Cannot decrement iterator past the beginning.")
  else if it = endIt M then
    Except.ok ⟨posOfPtr (maxNode M.st.root), it.mid⟩
  else
    match it.pos with
    | Pos.real x =>
        match predOf M.st.root x with
        | none => Except.error ("Cannot decrement iterator past the beginning.")
        | some p => Except.ok ⟨Pos.real p, it.mid⟩
    | _ => Except.ok it

/-- `Map::Iterator::next()`: at `end()` throw; from the maximum move to the
sentinel; otherwise move to the successor. -/
def iterNext (M : Mp α β) (it : It) : Except String It :=
  if it = endIt M then
    Except.error ("Cannot access next element from end().")
  else if it.pos = posOfPtr (maxNode M.st.root) then
    Except.ok ⟨Pos.sent, it.mid⟩
  else
    match it.pos with
    | Pos.real x => Except.ok ⟨posOfPtr (succOf M.st.root x), it.mid⟩
    | _ => Except.ok it

/-- `Map::Iterator::prev()`: at `begin()` throw; at `end()` move to the
maximum, else to the predecessor; then throw if the new node is null. -/
def iterPrev (M : Mp α β) (it : It) : Except String It :=
  if it = beginIt M then
    Except.error ("Cannot access previous element from the first element.")
  else
    let p2 : Pos :=
      if it = endIt M then posOfPtr (maxNode M.st.root)
      else
        match it.pos with
        | Pos.real x => posOfPtr (predOf M.st.root x)
        | p => p
    if p2 = Pos.pnull then
      Except.error ("Cannot access previous element from the first element.")
    else Except.ok ⟨p2, it.mid⟩

/-- `Map::Iterator::operator*`: throw on the sentinel, otherwise the node's
key/value pair (a null or dangling pointer would be undefined behaviour in
the source; it is mapped to an error value never reached by the theorems). -/
def iterDeref (M : Mp α β) (it : It) : Except String (α × β) :=
  if it.pos = Pos.sent then
    Except.error ("Cannot dereference end() iterator.")
  else
    match it.pos with
    | Pos.real x =>
        match readNd M.st.root x with
        | some (Tr.nd _ _ k v _ _) => Except.ok (k, v)
        | _ => Except.error ("invalid dereference")
    | _ => Except.error ("invalid dereference")

/-- `RBT::find` as the header revision returns it: `nullptr` when absent. -/
def findHdrP (lt : α → α → Bool) [DecidableEq α] (t : Tr α β) (key : α) : Pos :=
  match findZ lt t key Ctx.top with
  | some (_, f) => posOfPtr (idT f)
  | none => Pos.pnull

/-- `RBT::find` as the module revision (`src/unnamed/part_000`) returns it:
the sentinel when absent. -/
def findModP (lt : α → α → Bool) [DecidableEq α] (t : Tr α β) (key : α) : Pos :=
  match findZ lt t key Ctx.top with
  | some (_, f) => posOfPtr (idT f)
  | none => Pos.sent

/-- `Map::find` of the module revision (`src/unnamed/part_001`): wrap the
tree's result, turning the sentinel into `end()`. -/
def mapFindModIt (lt : α → α → Bool) [DecidableEq α] (M : Mp α β) (key : α) : It :=
  match findModP lt M.st.root key with
  | Pos.sent => endIt M
  | p => ⟨p, M.mid⟩

/-- `Map::count(key)` (header revision): `tree.find(key) ? 1 : 0`. -/
def countKey (lt : α → α → Bool) [DecidableEq α] (s : St α β) (key : α) : Nat :=
  if (find lt s.root key).isSome then 1 else 0

/-- `RBT::operator[]` of the header revision: when `find` returns null,
`insert({key, ValueType()})` — which already increments the count — and then
increment the count once more (the line `count++;` in `RBT.h`). -/
def opIndex (lt : α → α → Bool) [DecidableEq α] [Inhabited β]
    (s : St α β) (key : α) : St α β :=
  match find lt s.root key with
  | none =>
      let s2 := insertS lt s (key, (default : β))
      ⟨s2.root, s2.count + 1, s2.next⟩
  | some _ => s

/-- `RBT::clear()`: post-order deletion, root reset to the sentinel, count 0. -/
def clearSt (s : St α β) : St α β := ⟨Tr.nil, 0, s.next⟩

/-- `Map::operator==` loop of the header revision (`Map.h`): compares the
iterators themselves (`it1 != it2`), i.e. node addresses and map addresses,
not the key/value payloads. -/
def mapEqGoHdr (A B : Mp α β) : Nat → It → It → Bool
  | 0, _, _ => true
  | fuel + 1, it1, it2 =>
      if it1 = endIt A then true
      else if it1 ≠ it2 then false
      else mapEqGoHdr A B fuel (iterInc A it1) (iterInc B it2)

/-- `Map::operator==` of the header revision: size check, then the iterator
comparison loop. -/
def mapEqHdr (A B : Mp α β) : Bool :=
  if A.st.count ≠ B.st.count then false
  else mapEqGoHdr A B (A.st.root.sizeT + 1) (beginIt A) (beginIt B)

/-- `Map::operator==` loop of the module revision (`part_001`): compares the
dereferenced entries (`*it1 != *it2`).  A dereference that would throw in
the source (never reached from states with accurate sizes) yields `false`. -/
def mapEqGoMod [DecidableEq α] [DecidableEq β] (A B : Mp α β) :
    Nat → It → It → Bool
  | 0, _, _ => true
  | fuel + 1, it1, it2 =>
      if it1 = endIt A then true
      else
        match iterDeref A it1, iterDeref B it2 with
        | Except.ok kv1, Except.ok kv2 =>
            if kv1 ≠ kv2 then false
            else mapEqGoMod A B fuel (iterInc A it1) (iterInc B it2)
        | _, _ => false

/-- `Map::operator==` of the module revision. -/
def mapEqMod [DecidableEq α] [DecidableEq β] (A B : Mp α β) : Bool :=
  if A.st.count ≠ B.st.count then false
  else mapEqGoMod A B (A.st.root.sizeT + 1) (beginIt A) (beginIt B)

/-- The `mergeMaps` loop (both revisions): walk `mergeMap` with its
iterators and `tree.insert(*it)` each entry into the destination tree. -/
def mergeGo (lt : α → α → Bool) [DecidableEq α] (B : Mp α β) :
    Nat → It → St α β → St α β
  | 0, _, acc => acc
  | fuel + 1, it, acc =>
      if it = endIt B then acc
      else
        match iterDeref B it with
        | Except.ok kv => mergeGo lt B fuel (iterInc B it) (insertS lt acc kv)
        | Except.error _ => acc

/-- `Map::mergeMaps` of the header revision (`Map.h`): inserts every entry
of `B` into `A`; `B` is only read, never written. -/
def mergeMapsHdr (lt : α → α → Bool) [DecidableEq α] (A B : Mp α β) : Mp α β × Mp α β :=
  (⟨mergeGo lt B (B.st.root.sizeT + 1) (beginIt B) A.st, A.mid⟩, B)

/-- `Map::mergeMaps` of the module revision (`part_001`): the same loop
followed by `mergeMap.clear()`. -/
def mergeMapsMod (lt : α → α → Bool) [DecidableEq α] (A B : Mp α β) : Mp α β × Mp α β :=
  (⟨mergeGo lt B (B.st.root.sizeT + 1) (beginIt B) A.st, A.mid⟩, ⟨clearSt B.st, B.mid⟩)

/-- `Map::lower_bound` descent of the header revision (`Map.h`): an exactly
matching key returns its node; otherwise when `!comparator(key, node.key)`
(node.key ≤ key) the node is recorded and the walk goes left, else it goes
right. -/
def lowerBoundHdrGo (lt : α → α → Bool) [DecidableEq α] :
    Tr α β → α → Option Nat → Option Nat
  | Tr.nil, _, acc => acc
  | Tr.nd i _ k _ l r, key, acc =>
      if k = key then some i
      else if !(lt key k) then lowerBoundHdrGo lt l key (some i)
      else lowerBoundHdrGo lt r key acc

/-- `Map::lower_bound` of the header revision, as an iterator. -/
def lowerBoundHdr (lt : α → α → Bool) [DecidableEq α] (M : Mp α β) (key : α) : It :=
  match lowerBoundHdrGo lt M.st.root key none with
  | none => endIt M
  | some i => ⟨Pos.real i, M.mid⟩

/-- `Map::lower_bound` descent of the module revision (`part_001`): an
exactly matching key returns its node; otherwise when
`!comparator(node.key, key)` (node.key ≥ key) the node is recorded and the
walk goes left, else it goes right. -/
def lowerBoundModGo (lt : α → α → Bool) [DecidableEq α] :
    Tr α β → α → Option Nat → Option Nat
  | Tr.nil, _, acc => acc
  | Tr.nd i _ k _ l r, key, acc =>
      if k = key then some i
      else if !(lt k key) then lowerBoundModGo lt l key (some i)
      else lowerBoundModGo lt r key acc

/-- `Map::lower_bound` of the module revision, as an iterator. -/
def lowerBoundMod (lt : α → α → Bool) [DecidableEq α] (M : Mp α β) (key : α) : It :=
  match lowerBoundModGo lt M.st.root key none with
  | none => endIt M
  | some i => ⟨Pos.real i, M.mid⟩

/-- `Map::upper_bound` descent (identical in both revisions). -/
def upperBoundGo (lt : α → α → Bool) :
    Tr α β → α → Option Nat → Option Nat
  | Tr.nil, _, acc => acc
  | Tr.nd i _ k _ l r, key, acc =>
      if lt key k then upperBoundGo lt l key (some i)
      else upperBoundGo lt r key acc

/-- `Map::upper_bound`, as an iterator. -/
def upperBound (lt : α → α → Bool) (M : Mp α β) (key : α) : It :=
  match upperBoundGo lt M.st.root key none with
  | none => endIt M
  | some i => ⟨Pos.real i, M.mid⟩

/-- The insertion loop of `RBT(vector)` (RBT.h:470-471), taken on its own
from an empty state: every pair of the vector inserted in order.  This is
only the defined tail of the constructor body — see `fromVectorCtor` for the
whole body — and doubles as the proof-side builder of concrete states. -/
def fromVector (lt : α → α → Bool) [DecidableEq α] (l : List (α × β)) : St α β :=
  l.foldl (insertS lt) emptySt

/-- Fault raised when the program reads an object that was never given a
value: the result is indeterminate. -/
inductive CtorFault where
  | uninitRead : CtorFault
  deriving Repr, DecidableEq

/-- `RBT(vector)` (RBT.h:459-472), the whole body.  It begins with
`clear(root); delete sentinelNode;`, yet no mem-initializer list and no
default member initializer ever set `root` or `sentinelNode` before the
body runs, so the first statement traverses and the second deletes
indeterminate pointers — undefined behavior on every call, reached before
`count = 0`, the fresh sentinel and the insertion loop.  The model makes
the two indeterminate reads explicit faults; the defined remainder is the
fold of `insert` (`fromVector`).  `Map(vector)` (Map.h:136-139) merely
forwards to this constructor; the module revision drops it altogether. -/
def fromVectorCtor (lt : α → α → Bool) [DecidableEq α] (l : List (α × β)) :
    Except CtorFault (St α β) :=
  (Except.error CtorFault.uninitRead : Except CtorFault Nat).bind (fun _ =>
    (Except.error CtorFault.uninitRead : Except CtorFault Nat).bind (fun _ =>
      Except.ok (l.foldl (insertS lt) emptySt)))

/-- `RBT::CopySubtree`: fresh nodes with the source's key/value/color, in
allocation order node-left-right; the counter threads the new addresses. -/
def copyT : Tr α β → Nat → Tr α β × Nat
  | Tr.nil, n => (Tr.nil, n)
  | Tr.nd _ r k v l rt, n =>
      let zl := copyT l (n + 1)
      let zr := copyT rt zl.2
      (Tr.nd n r k v zl.1 zr.1, zr.2)

/-- `RBT::operator=` of the header revision: `clear()` the target, return it
as-is when the source is empty, otherwise deep-copy the source's tree and
take over its count. -/
def assignHdr (tgt src : St α β) : St α β :=
  let t1 : St α β := ⟨Tr.nil, 0, tgt.next⟩
  match src.root with
  | Tr.nil => t1
  | t =>
      let z := copyT t t1.next
      ⟨z.1, src.count, z.2⟩

/-- `RBT::RBT(const RBT&)` of the header revision: fresh sentinel, root set
to it, then `*this = other`. -/
def copyCtorHdr (src : St α β) : St α β := assignHdr emptySt src

/-- No red node has a red child. -/
def noRedRed : Tr α β → Bool
  | Tr.nil => true
  | Tr.nd _ r _ _ l rt =>
      (!(r && (isRedT l || isRedT rt))) && noRedRed l && noRedRed rt

/-- Black height when uniform over all root-to-sentinel paths. -/
def bhOf : Tr α β → Option Nat
  | Tr.nil => some 0
  | Tr.nd _ r _ _ l rt =>
      match bhOf l, bhOf rt with
      | some a, some b =>
          if a = b then some (a + (if r then 0 else 1)) else none
      | _, _ => none

/-- Strictly increasing under the comparator (hence duplicate-free for a
strict order). -/
def strictChain (lt : α → α → Bool) : List α → Bool
  | [] => true
  | [_] => true
  | a :: b :: r => lt a b && strictChain lt (b :: r)

/-- In-order key sequence. -/
def keysList (t : Tr α β) : List α := t.inorder.map Prod.fst

/-- The recursive red-black checker of the spec, independent of the
operations: black root, no red-red edge, uniform black height, strictly
sorted (hence duplicate-free) in-order keys. -/
def rbValid (lt : α → α → Bool) (t : Tr α β) : Bool :=
  !(isRedT t) && noRedRed t && (bhOf t).isSome && strictChain lt (keysList t)

/-! Proof-side definitions (not from the source): list views of contexts and
trees, the sorted-association-list model, and comparator lawfulness. -/

/-- In-order entries of the whole tree as a function of the focus entries:
`(plug c f).inorder = inorderC c f.inorder`. -/
def Ctx.inorderC : Ctx α β → List (α × β) → List (α × β)
  | Ctx.top, m => m
  | Ctx.inl _ _ k v rsib up, m => Ctx.inorderC up (m ++ (k, v) :: rsib.inorder)
  | Ctx.inr _ _ k v lsib up, m => Ctx.inorderC up (lsib.inorder ++ (k, v) :: m)

/-- In-order ids of the whole tree as a function of the focus ids. -/
def Ctx.idsC : Ctx α β → List Nat → List Nat
  | Ctx.top, m => m
  | Ctx.inl i _ _ _ rsib up, m => Ctx.idsC up (m ++ i :: rsib.ids)
  | Ctx.inr i _ _ _ lsib up, m => Ctx.idsC up (lsib.ids ++ i :: m)

/-- In-order (id, key) pairs. -/
def pairsIK : Tr α β → List (Nat × α)
  | Tr.nil => []
  | Tr.nd i _ k _ l r => pairsIK l ++ (i, k) :: pairsIK r

/-- In-order (id, key, value) triples: the node listing an iterator walk
visits. -/
def entriesI : Tr α β → List (Nat × α × β)
  | Tr.nil => []
  | Tr.nd i _ k v l r => entriesI l ++ (i, k, v) :: entriesI r

/-- Context analog of `entriesI`, mirroring `Ctx.inorderC`. -/
def Ctx.entriesC : Ctx α β → List (Nat × α × β) → List (Nat × α × β)
  | Ctx.top, m => m
  | Ctx.inl p _ k v rsib up, m => Ctx.entriesC up (m ++ (p, k, v) :: entriesI rsib)
  | Ctx.inr p _ k v lsib up, m => Ctx.entriesC up (entriesI lsib ++ (p, k, v) :: m)

/-- Upsert into an association list kept sorted by the comparator: the
model of `insert` at the level of in-order entry sequences. -/
def upsertL (lt : α → α → Bool) [DecidableEq α] (kv : α × β) :
    List (α × β) → List (α × β)
  | [] => [kv]
  | (k, v) :: l =>
      if kv.1 = k then (k, kv.2) :: l
      else if lt kv.1 k then kv :: (k, v) :: l
      else (k, v) :: upsertL lt kv l

/-- Lawfulness of the supplied comparator: a strict total order, the
contract `std::map` places on `Compare`. -/
structure LawfulLt (lt : α → α → Bool) : Prop where
  irrefl : ∀ a, lt a a = false
  trans : ∀ a b c, lt a b = true → lt b c = true → lt a c = true
  total : ∀ a b, a ≠ b → lt a b = true ∨ lt b a = true

/-- The keys of `t` are strictly sorted in-order (the working well-formedness
predicate; equivalent to the structural BST property for a lawful
comparator). -/
def SortedK (lt : α → α → Bool) (t : Tr α β) : Prop :=
  (keysList t).Pairwise (fun a b => lt a b = true)

/-- Well-formed tree state: distinct node ids below the allocation counter,
sorted keys, and an accurate element count. -/
def WFSt (lt : α → α → Bool) (s : St α β) : Prop :=
  s.root.ids.Nodup ∧ (∀ i ∈ s.root.ids, i < s.next) ∧
    SortedK lt s.root ∧ s.count = s.root.inorder.length

/-- All keys of the tree satisfy `p`. -/
def allB (p : α → Bool) : Tr α β → Bool
  | Tr.nil => true
  | Tr.nd _ _ k _ l r => p k && allB p l && allB p r

/-- Structural binary-search-tree ordering under the comparator. -/
def bstB (lt : α → α → Bool) : Tr α β → Bool
  | Tr.nil => true
  | Tr.nd _ _ k _ l r =>
      allB (fun a => lt a k) l && allB (fun a => lt k a) r && bstB lt l && bstB lt r

/-- The upsert of one pair into a sorted entry list, phrased by filtering:
entries with a key ordered before the new key, then the new pair, then
entries ordered after. -/
def sortedUpsert (lt : α → α → Bool) (kv : α × β) (l : List (α × β)) : List (α × β) :=
  l.filter (fun p => lt p.1 kv.1) ++ kv :: l.filter (fun p => lt kv.1 p.1)

/-- Entries with key `key` removed. -/
def removeKeyL [DecidableEq α] (key : α) (l : List (α × β)) : List (α × β) :=
  l.filter (fun p => decide (p.1 ≠ key))

/-- Depth of the focus: number of parent frames. -/
def ctxLen : Ctx α β → Nat
  | Ctx.top => 0
  | Ctx.inl _ _ _ _ _ up => ctxLen up + 1
  | Ctx.inr _ _ _ _ _ up => ctxLen up + 1

/-- Color of the root of `plug c f`, as a function of the focus color. -/
def headColor : Ctx α β → Bool → Bool
  | Ctx.top, v => v
  | Ctx.inl _ pr _ _ _ up, _ => headColor up pr
  | Ctx.inr _ pr _ _ _ up, _ => headColor up pr

/-- Red-red freedom of the part of the tree the context holds, given the
color of the subtree to be plugged in: no red frame node with a red child
(plugged subtree or recorded sibling) and red-red free siblings. -/
def noRRCtxF : Ctx α β → Bool → Bool
  | Ctx.top, _ => true
  | Ctx.inl _ pr _ _ sib up, fr =>
      !(pr && fr) && !(pr && isRedT sib) && noRedRed sib && noRRCtxF up pr
  | Ctx.inr _ pr _ _ sib up, fr =>
      !(pr && fr) && !(pr && isRedT sib) && noRedRed sib && noRRCtxF up pr

/-- Black height of the root of `plug c f` when the focus is assigned black
height `n`: `none` when some sibling mismatches. -/
def ctxBH : Ctx α β → Nat → Option Nat
  | Ctx.top, n => some n
  | Ctx.inl _ pr _ _ sib up, n =>
      match bhOf sib with
      | some m => if m = n then ctxBH up (n + (if pr then 0 else 1)) else none
      | none => none
  | Ctx.inr _ pr _ _ sib up, n =>
      match bhOf sib with
      | some m => if m = n then ctxBH up (n + (if pr then 0 else 1)) else none
      | none => none

/-- One map operation of the claimed sequences: an insert or an erase. -/
inductive Op (α β : Type) where
  | ins : α → β → Op α β
  | del : α → Op α β

/-- Apply one operation to the tree state. -/
def applyOp (lt : α → α → Bool) [DecidableEq α] (s : St α β) : Op α β → St α β
  | Op.ins k v => insertS lt s (k, v)
  | Op.del k => deleteKey lt s k

/-! Concrete instances used by witnesses and counterexamples. -/

/-- The comparator of all concrete instances: `std::less<Nat>`. -/
def ltN : Nat → Nat → Bool := fun a b => decide (a < b)

/-- A map with keys 10, 20, 30 built from a vector; map object address 0. -/
def mapABC : Mp Nat Nat := ⟨fromVector ltN [(10, 1), (20, 2), (30, 3)], 0⟩

/-! Context and locate lemmas. -/

theorem comp_assoc (a b c : Ctx α β) :
    Ctx.comp (Ctx.comp a b) c = Ctx.comp a (Ctx.comp b c) := by
  induction a <;> simp [Ctx.comp, *]

theorem plug_comp (a b : Ctx α β) (f : Tr α β) :
    Ctx.plug (Ctx.comp a b) f = Ctx.plug b (Ctx.plug a f) := by
  induction a generalizing f <;> simp [Ctx.comp, Ctx.plug, *]

theorem inorder_plug (c : Ctx α β) (f : Tr α β) :
    (Ctx.plug c f).inorder = Ctx.inorderC c f.inorder := by
  induction c generalizing f <;> simp [Ctx.plug, Ctx.inorderC, Tr.inorder, *]

theorem ids_plug (c : Ctx α β) (f : Tr α β) :
    (Ctx.plug c f).ids = Ctx.idsC c f.ids := by
  induction c generalizing f <;> simp [Ctx.plug, Ctx.idsC, Tr.ids, *]

theorem inorderC_congr {c : Ctx α β} {m1 m2 : List (α × β)} (h : m1 = m2) :
    Ctx.inorderC c m1 = Ctx.inorderC c m2 := by rw [h]

theorem idsC_congr {c : Ctx α β} {m1 m2 : List Nat} (h : m1 = m2) :
    Ctx.idsC c m1 = Ctx.idsC c m2 := by rw [h]

theorem locate_ctx (t : Tr α β) (x : Nat) (c : Ctx α β) :
    locate t x c =
      (locate t x Ctx.top).map (fun z => (Ctx.comp z.1 c, z.2)) := by
  induction t generalizing c with
  | nil => simp [locate]
  | nd i r k v l rt ihl ihr =>
      by_cases hix : i = x
      · simp [locate, hix, Ctx.comp]
      · rw [locate, locate]
        simp only [hix, if_false]
        rw [ihl (Ctx.inl i r k v rt c), ihl (Ctx.inl i r k v rt Ctx.top)]
        cases hl : locate l x Ctx.top with
        | some z =>
            simp [Option.map, comp_assoc, Ctx.comp]
        | none =>
            simp only [Option.map_none']
            rw [ihr (Ctx.inr i r k v l c), ihr (Ctx.inr i r k v l Ctx.top)]
            cases hr : locate rt x Ctx.top <;>
              simp [Option.map, comp_assoc, Ctx.comp]

theorem locate_eq_plug {t : Tr α β} {x : Nat} {c : Ctx α β} {f : Tr α β}
    (h : locate t x Ctx.top = some (c, f)) : Ctx.plug c f = t := by
  induction t generalizing c f with
  | nil => simp [locate] at h
  | nd i r k v l rt ihl ihr =>
      by_cases hix : i = x
      · subst hix
        rw [locate] at h
        simp [Ctx.plug] at h
        rw [← h.1, ← h.2]
        rfl
      · rw [locate] at h
        simp only [hix, if_false] at h
        rw [locate_ctx l x (Ctx.inl i r k v rt Ctx.top)] at h
        cases hl : locate l x Ctx.top with
        | some z =>
            rw [hl] at h
            simp [Option.map] at h
            obtain ⟨hc, hf⟩ := h
            have := ihl (c := z.1) (f := f) (by rw [hl, ← hf])
            rw [← hc, plug_comp]
            simp [Ctx.plug, this]
        | none =>
            rw [hl] at h
            simp [Option.map] at h
            rw [locate_ctx rt x (Ctx.inr i r k v l Ctx.top)] at h
            cases hr : locate rt x Ctx.top with
            | some z =>
                rw [hr] at h
                simp [Option.map] at h
                obtain ⟨hc, hf⟩ := h
                have := ihr (c := z.1) (f := f) (by rw [hr, ← hf])
                rw [← hc, plug_comp]
                simp [Ctx.plug, this]
            | none => rw [hr] at h; simp at h

/-! Preservation of the in-order entries by the repair primitives. -/

theorem setRedAt_inorder (t : Tr α β) (x : Nat) (b : Bool) :
    (setRedAt t x b).inorder = t.inorder := by
  rw [setRedAt]
  cases h : locate t x Ctx.top with
  | none => rfl
  | some z =>
      obtain ⟨c, f⟩ := z
      cases f with
      | nil => rfl
      | nd i r k v l rt =>
          rw [← locate_eq_plug h, inorder_plug, inorder_plug]
          rfl

theorem setRedAt_ids (t : Tr α β) (x : Nat) (b : Bool) :
    (setRedAt t x b).ids = t.ids := by
  rw [setRedAt]
  cases h : locate t x Ctx.top with
  | none => rfl
  | some z =>
      obtain ⟨c, f⟩ := z
      cases f with
      | nil => rfl
      | nd i r k v l rt =>
          rw [← locate_eq_plug h, ids_plug, ids_plug]
          rfl

theorem rotateLeftAt_inorder (t : Tr α β) (x : Nat) :
    (rotateLeftAt t x).inorder = t.inorder := by
  rw [rotateLeftAt]
  cases h : locate t x Ctx.top with
  | none => rfl
  | some z =>
      obtain ⟨c, f⟩ := z
      match f with
      | Tr.nil => rfl
      | Tr.nd i r k v a Tr.nil => rfl
      | Tr.nd i r k v a (Tr.nd i2 r2 k2 v2 b d) =>
          rw [← locate_eq_plug h, inorder_plug, inorder_plug]
          exact inorderC_congr (by simp [Tr.inorder])

theorem rotateLeftAt_ids (t : Tr α β) (x : Nat) :
    (rotateLeftAt t x).ids = t.ids := by
  rw [rotateLeftAt]
  cases h : locate t x Ctx.top with
  | none => rfl
  | some z =>
      obtain ⟨c, f⟩ := z
      match f with
      | Tr.nil => rfl
      | Tr.nd i r k v a Tr.nil => rfl
      | Tr.nd i r k v a (Tr.nd i2 r2 k2 v2 b d) =>
          rw [← locate_eq_plug h, ids_plug, ids_plug]
          congr 1
          simp [Tr.ids]

theorem rotateRightAt_inorder (t : Tr α β) (x : Nat) :
    (rotateRightAt t x).inorder = t.inorder := by
  rw [rotateRightAt]
  cases h : locate t x Ctx.top with
  | none => rfl
  | some z =>
      obtain ⟨c, f⟩ := z
      match f with
      | Tr.nil => rfl
      | Tr.nd i r k v Tr.nil d => rfl
      | Tr.nd i r k v (Tr.nd i2 r2 k2 v2 a b) d =>
          rw [← locate_eq_plug h, inorder_plug, inorder_plug]
          exact inorderC_congr (by simp [Tr.inorder])

theorem rotateRightAt_ids (t : Tr α β) (x : Nat) :
    (rotateRightAt t x).ids = t.ids := by
  rw [rotateRightAt]
  cases h : locate t x Ctx.top with
  | none => rfl
  | some z =>
      obtain ⟨c, f⟩ := z
      match f with
      | Tr.nil => rfl
      | Tr.nd i r k v Tr.nil d => rfl
      | Tr.nd i r k v (Tr.nd i2 r2 k2 v2 a b) d =>
          rw [← locate_eq_plug h, ids_plug, ids_plug]
          congr 1
          simp [Tr.ids]

theorem insertRepair_pres (fuel : Nat) (t : Tr α β) (x : Nat) :
    (insertRepair fuel t x).inorder = t.inorder ∧
      (insertRepair fuel t x).ids = t.ids := by
  induction fuel generalizing t x with
  | zero => exact ⟨rfl, rfl⟩
  | succ fuel ih =>
      have ih1 : ∀ (t : Tr α β) (x : Nat),
          (insertRepair fuel t x).inorder = t.inorder := fun t x => (ih t x).1
      have ih2 : ∀ (t : Tr α β) (x : Nat),
          (insertRepair fuel t x).ids = t.ids := fun t x => (ih t x).2
      cases hloc : locate t x Ctx.top with
      | none => rw [insertRepair, hloc]; exact ⟨rfl, rfl⟩
      | some z =>
          obtain ⟨ctx, foc⟩ := z
          rw [insertRepair, hloc]
          dsimp only
          cases hfr : frameOf ctx with
          | none =>
              dsimp only
              exact ⟨setRedAt_inorder t x false, setRedAt_ids t x false⟩
          | some w =>
              obtain ⟨p, pr, psib, nodeIsLeft, up⟩ := w
              dsimp only
              cases hfr2 : frameOf up with
              | none =>
                  dsimp only
                  exact ⟨setRedAt_inorder t p false, setRedAt_ids t p false⟩
              | some w2 =>
                  obtain ⟨g, gr, uncle, parentIsLeft, up2⟩ := w2
                  dsimp only
                  by_cases hpr : (!pr) = true
                  · rw [if_pos hpr]
                    exact ⟨rfl, rfl⟩
                  · rw [if_neg hpr]
                    by_cases hred : (isRedT foc && pr && isRedT uncle) = true
                    · rw [if_pos hred]
                      cases hu : idT uncle with
                      | none => exact ⟨rfl, rfl⟩
                      | some u =>
                          dsimp only
                          exact ⟨by rw [ih1, setRedAt_inorder, setRedAt_inorder,
                                    setRedAt_inorder],
                                 by rw [ih2, setRedAt_ids, setRedAt_ids, setRedAt_ids]⟩
                    · rw [if_neg hred]
                      by_cases hblk : (isRedT foc && pr && !isRedT uncle) = true
                      · rw [if_pos hblk]
                        have ht2 : ∀ t2 : Tr α β,
                            t2.inorder = t.inorder → t2.ids = t.ids →
                            ((if readRightId t2 g = some p && readRightId t2 p = some x then
                                insertRepair fuel
                                  (rotateLeftAt (setRedAt (setRedAt t2 p false) g true) g) p
                              else if readLeftId t2 g = some p && readLeftId t2 p = some x then
                                insertRepair fuel
                                  (rotateRightAt (setRedAt (setRedAt t2 p false) g true) g) p
                              else t2).inorder = t.inorder ∧
                             (if readRightId t2 g = some p && readRightId t2 p = some x then
                                insertRepair fuel
                                  (rotateLeftAt (setRedAt (setRedAt t2 p false) g true) g) p
                              else if readLeftId t2 g = some p && readLeftId t2 p = some x then
                                insertRepair fuel
                                  (rotateRightAt (setRedAt (setRedAt t2 p false) g true) g) p
                              else t2).ids = t.ids) := by
                          intro t2 h2a h2b
                          by_cases hc1 :
                              (readRightId t2 g = some p && readRightId t2 p = some x) = true
                          · rw [if_pos hc1]
                            exact ⟨by rw [ih1, rotateLeftAt_inorder, setRedAt_inorder,
                                      setRedAt_inorder, h2a],
                                   by rw [ih2, rotateLeftAt_ids, setRedAt_ids,
                                      setRedAt_ids, h2b]⟩
                          · rw [if_neg hc1]
                            by_cases hc2 :
                                (readLeftId t2 g = some p && readLeftId t2 p = some x) = true
                            · rw [if_pos hc2]
                              exact ⟨by rw [ih1, rotateRightAt_inorder, setRedAt_inorder,
                                        setRedAt_inorder, h2a],
                                     by rw [ih2, rotateRightAt_ids, setRedAt_ids,
                                        setRedAt_ids, h2b]⟩
                            · rw [if_neg hc2]
                              exact ⟨h2a, h2b⟩
                        by_cases hta : (!parentIsLeft && nodeIsLeft) = true
                        · rw [if_pos hta]
                          exact ht2 _ (by rw [ih1, rotateRightAt_inorder])
                            (by rw [ih2, rotateRightAt_ids])
                        · rw [if_neg hta]
                          by_cases htb : (parentIsLeft && !nodeIsLeft) = true
                          · rw [if_pos htb]
                            exact ht2 _ (by rw [ih1, rotateLeftAt_inorder])
                              (by rw [ih2, rotateLeftAt_ids])
                          · rw [if_neg htb]
                            exact ht2 t rfl rfl
                      · rw [if_neg hblk]
                        exact ⟨rfl, rfl⟩

theorem blacken_inorder (f : Tr α β) : (blacken f).inorder = f.inorder := by
  cases f <;> rfl

theorem blacken_ids (f : Tr α β) : (blacken f).ids = f.ids := by
  cases f <;> rfl

theorem redden_inorder (f : Tr α β) : (redden f).inorder = f.inorder := by
  cases f <;> rfl

theorem redden_ids (f : Tr α β) : (redden f).ids = f.ids := by
  cases f <;> rfl

theorem eraseRepair_pres (fuel : Nat) (ctx : Ctx α β) (foc : Tr α β) :
    (eraseRepair fuel ctx foc).inorder = (Ctx.plug ctx foc).inorder ∧
      (eraseRepair fuel ctx foc).ids = (Ctx.plug ctx foc).ids := by
  induction fuel generalizing ctx foc with
  | zero => exact ⟨rfl, rfl⟩
  | succ fuel ih =>
      have ih1 : ∀ (c : Ctx α β) (f : Tr α β),
          (eraseRepair fuel c f).inorder = (Ctx.plug c f).inorder :=
        fun c f => (ih c f).1
      have ih2 : ∀ (c : Ctx α β) (f : Tr α β),
          (eraseRepair fuel c f).ids = (Ctx.plug c f).ids :=
        fun c f => (ih c f).2
      cases ctx with
      | top =>
          rw [eraseRepair.eq_def]
          exact ⟨blacken_inorder foc, blacken_ids foc⟩
      | inl p pr pk pv sib up =>
          rw [eraseRepair.eq_def]
          dsimp only
          by_cases hfr : isRedT foc = true
          · rw [if_pos hfr]
            constructor
            · rw [inorder_plug, inorder_plug, blacken_inorder]
            · rw [ids_plug, ids_plug, blacken_ids]
          · rw [if_neg hfr]
            by_cases hsr : isRedT sib = true
            · rw [if_pos hsr]
              cases sib with
              | nil => simp [isRedT] at hsr
              | nd s scol sk sv a b =>
                  dsimp only
                  constructor
                  · rw [ih1, inorder_plug, inorder_plug]
                    simp [Ctx.inorderC, Tr.inorder]
                  · rw [ih2, ids_plug, ids_plug]
                    simp [Ctx.idsC, Tr.ids]
            · rw [if_neg hsr]
              by_cases h2 : (!isRedT (leftT sib) && !isRedT (rightT sib)) = true
              · rw [if_pos h2]
                constructor
                · rw [ih1, inorder_plug, inorder_plug]
                  simp [Ctx.inorderC, Tr.inorder, redden_inorder]
                · rw [ih2, ids_plug, ids_plug]
                  simp [Ctx.idsC, Tr.ids, redden_ids]
              · rw [if_neg h2]
                by_cases h3 : (!isRedT (rightT sib)) = true
                · rw [if_pos h3]
                  cases sib with
                  | nil => exact ⟨rfl, rfl⟩
                  | nd s scol sk sv sl c =>
                      cases sl with
                      | nil => exact ⟨rfl, rfl⟩
                      | nd l2 r2 k2 v2 a b =>
                          dsimp only
                          constructor
                          · rw [ih1, inorder_plug, inorder_plug]
                            simp [Ctx.inorderC, Tr.inorder]
                          · rw [ih2, ids_plug, ids_plug]
                            simp [Ctx.idsC, Tr.ids]
                · rw [if_neg h3]
                  cases sib with
                  | nil => exact ⟨rfl, rfl⟩
                  | nd s scol sk sv sl c =>
                      cases c with
                      | nil => exact ⟨rfl, rfl⟩
                      | nd sr r2 srk srv cc d =>
                          dsimp only
                          constructor
                          · rw [blacken_inorder, inorder_plug, inorder_plug]
                            simp [Ctx.inorderC, Tr.inorder]
                          · rw [blacken_ids, ids_plug, ids_plug]
                            simp [Ctx.idsC, Tr.ids]
      | inr p pr pk pv sib up =>
          rw [eraseRepair.eq_def]
          dsimp only
          by_cases hfr : isRedT foc = true
          · rw [if_pos hfr]
            constructor
            · rw [inorder_plug, inorder_plug, blacken_inorder]
            · rw [ids_plug, ids_plug, blacken_ids]
          · rw [if_neg hfr]
            by_cases hsr : isRedT sib = true
            · rw [if_pos hsr]
              cases sib with
              | nil => simp [isRedT] at hsr
              | nd s scol sk sv a b =>
                  dsimp only
                  constructor
                  · rw [ih1, inorder_plug, inorder_plug]
                    simp [Ctx.inorderC, Tr.inorder]
                  · rw [ih2, ids_plug, ids_plug]
                    simp [Ctx.idsC, Tr.ids]
            · rw [if_neg hsr]
              by_cases h2 : (!isRedT (rightT sib) && !isRedT (leftT sib)) = true
              · rw [if_pos h2]
                constructor
                · rw [ih1, inorder_plug, inorder_plug]
                  simp [Ctx.inorderC, Tr.inorder, redden_inorder]
                · rw [ih2, ids_plug, ids_plug]
                  simp [Ctx.idsC, Tr.ids, redden_ids]
              · rw [if_neg h2]
                by_cases h3 : (!isRedT (leftT sib)) = true
                · rw [if_pos h3]
                  cases sib with
                  | nil => exact ⟨rfl, rfl⟩
                  | nd s scol sk sv sl c =>
                      cases c with
                      | nil => exact ⟨rfl, rfl⟩
                      | nd sr r2 srk srv b cc =>
                          dsimp only
                          constructor
                          · rw [ih1, inorder_plug, inorder_plug]
                            simp [Ctx.inorderC, Tr.inorder]
                          · rw [ih2, ids_plug, ids_plug]
                            simp [Ctx.idsC, Tr.ids]
                · rw [if_neg h3]
                  cases sib with
                  | nil => exact ⟨rfl, rfl⟩
                  | nd s scol sk sv sl c =>
                      cases sl with
                      | nil => exact ⟨rfl, rfl⟩
                      | nd l2 r2 k2 v2 cc d =>
                          dsimp only
                          constructor
                          · rw [blacken_inorder, inorder_plug, inorder_plug]
                            simp [Ctx.inorderC, Tr.inorder]
                          · rw [blacken_ids, ids_plug, ids_plug]
                            simp [Ctx.idsC, Tr.ids]

theorem minZip_ctx (t : Tr α β) (c : Ctx α β) :
    minZip t c = (minZip t Ctx.top).map (fun z => (Ctx.comp z.1 c, z.2)) := by
  induction t generalizing c with
  | nil => simp [minZip]
  | nd i r k v l rt ihl ihr =>
      cases l with
      | nil => simp [minZip, Ctx.comp]
      | nd li lr lk lv ll lrt =>
          show minZip (Tr.nd li lr lk lv ll lrt) (Ctx.inl i r k v rt c)
              = (minZip (Tr.nd li lr lk lv ll lrt) (Ctx.inl i r k v rt Ctx.top)).map
                  (fun z => (Ctx.comp z.1 c, z.2))
          rw [ihl (Ctx.inl i r k v rt c), ihl (Ctx.inl i r k v rt Ctx.top)]
          cases hl : minZip (Tr.nd li lr lk lv ll lrt) Ctx.top <;>
            simp [Option.map, comp_assoc, Ctx.comp]

theorem minZip_spec (t : Tr α β) (h : t ≠ Tr.nil) :
    ∃ c2 i r k v sr R Ri,
      minZip t Ctx.top = some (c2, Tr.nd i r k v Tr.nil sr) ∧
      (∀ g : Tr α β, (Ctx.plug c2 g).inorder = g.inorder ++ R) ∧
      (∀ g : Tr α β, (Ctx.plug c2 g).ids = g.ids ++ Ri) ∧
      t.inorder = ((k, v) :: sr.inorder) ++ R ∧
      t.ids = (i :: sr.ids) ++ Ri := by
  induction t with
  | nil => exact absurd rfl h
  | nd i r k v l rt ihl ihr =>
      cases l with
      | nil =>
          refine ⟨Ctx.top, i, r, k, v, rt, [], [], ?_, ?_, ?_, ?_, ?_⟩ <;>
            simp [minZip, Ctx.plug, Tr.inorder, Tr.ids]
      | nd li lr lk lv ll lrt =>
          obtain ⟨c2, i2, r2, k2, v2, sr, R, Ri, hm, hpi, hpd, hio, hid⟩ :=
            ihl (by simp)
          refine ⟨Ctx.comp c2 (Ctx.inl i r k v rt Ctx.top), i2, r2, k2, v2, sr,
            R ++ (k, v) :: rt.inorder, Ri ++ i :: rt.ids, ?_, ?_, ?_, ?_, ?_⟩
          · show minZip (Tr.nd li lr lk lv ll lrt) (Ctx.inl i r k v rt Ctx.top)
                = some (Ctx.comp c2 (Ctx.inl i r k v rt Ctx.top), Tr.nd i2 r2 k2 v2 Tr.nil sr)
            rw [minZip_ctx, hm]
            rfl
          · intro g
            rw [plug_comp]
            simp [Ctx.plug, Tr.inorder, hpi g]
          · intro g
            rw [plug_comp]
            simp [Ctx.plug, Tr.ids, hpd g]
          · show (Tr.nd li lr lk lv ll lrt).inorder ++ (k, v) :: rt.inorder
                = ((k2, v2) :: sr.inorder) ++ (R ++ (k, v) :: rt.inorder)
            rw [hio]
            simp
          · show (Tr.nd li lr lk lv ll lrt).ids ++ i :: rt.ids
                = (i2 :: sr.ids) ++ (Ri ++ i :: rt.ids)
            rw [hid]
            simp

theorem erase_pres (fuel : Nat) (ctx : Ctx α β) (j : Nat) (dr : Bool)
    (dk : α) (dv : β) (a b : Tr α β) :
    (erase fuel ctx (Tr.nd j dr dk dv a b)).inorder
        = Ctx.inorderC ctx (a.inorder ++ b.inorder) ∧
      (erase fuel ctx (Tr.nd j dr dk dv a b)).ids
        = Ctx.idsC ctx (a.ids ++ b.ids) := by
  cases a with
  | nil =>
      rw [erase.eq_def]
      dsimp only
      by_cases hdr : (!dr) = true
      · rw [if_pos hdr]
        have := eraseRepair_pres fuel ctx b
        rw [this.1, this.2, inorder_plug, ids_plug]
        exact ⟨by simp [Tr.inorder], by simp [Tr.ids]⟩
      · rw [if_neg hdr]
        rw [inorder_plug, ids_plug]
        exact ⟨by simp [Tr.inorder], by simp [Tr.ids]⟩
  | nd ai ar ak av al art =>
      cases b with
      | nil =>
          rw [erase.eq_def]
          dsimp only
          by_cases hdr : (!dr) = true
          · rw [if_pos hdr]
            have := eraseRepair_pres fuel ctx (Tr.nd ai ar ak av al art)
            rw [this.1, this.2, inorder_plug, ids_plug]
            exact ⟨by simp [Tr.inorder], by simp [Tr.ids]⟩
          · rw [if_neg hdr]
            rw [inorder_plug, ids_plug]
            exact ⟨by simp [Tr.inorder], by simp [Tr.ids]⟩
      | nd bi br bk bv bl brt =>
          obtain ⟨c2, i2, r2, k2, v2, sr, R, Ri, hm, hpi, hpd, hio, hid⟩ :=
            minZip_spec (Tr.nd bi br bk bv bl brt) (by simp)
          rw [erase.eq_def]
          dsimp only
          rw [hm]
          dsimp only
          have key1 : ∀ c0 : Ctx α β,
              (∀ g : Tr α β, (Ctx.plug c0 g).inorder = g.inorder ++ R) →
              (∀ g : Tr α β, (Ctx.plug c0 g).ids = g.ids ++ Ri) →
              ((if (!r2) = true then
                  eraseRepair fuel (Ctx.comp c0 (Ctx.inr i2 dr k2 v2 (Tr.nd ai ar ak av al art) ctx)) sr
                else
                  Ctx.plug (Ctx.comp c0 (Ctx.inr i2 dr k2 v2 (Tr.nd ai ar ak av al art) ctx)) sr).inorder
                = Ctx.inorderC ctx ((Tr.nd ai ar ak av al art).inorder
                    ++ (Tr.nd bi br bk bv bl brt).inorder) ∧
               (if (!r2) = true then
                  eraseRepair fuel (Ctx.comp c0 (Ctx.inr i2 dr k2 v2 (Tr.nd ai ar ak av al art) ctx)) sr
                else
                  Ctx.plug (Ctx.comp c0 (Ctx.inr i2 dr k2 v2 (Tr.nd ai ar ak av al art) ctx)) sr).ids
                = Ctx.idsC ctx ((Tr.nd ai ar ak av al art).ids
                    ++ (Tr.nd bi br bk bv bl brt).ids)) := by
            intro c0 hpi0 hpd0
            have hred : ∀ u : Tr α β,
                (Ctx.plug (Ctx.comp c0 (Ctx.inr i2 dr k2 v2 (Tr.nd ai ar ak av al art) ctx)) u)
                  = Ctx.plug ctx (Tr.nd i2 dr k2 v2 (Tr.nd ai ar ak av al art) (Ctx.plug c0 u)) := by
              intro u
              rw [plug_comp]
              rfl
            have hi : (Ctx.plug (Ctx.comp c0 (Ctx.inr i2 dr k2 v2 (Tr.nd ai ar ak av al art) ctx)) sr).inorder
                = Ctx.inorderC ctx ((Tr.nd ai ar ak av al art).inorder
                    ++ (Tr.nd bi br bk bv bl brt).inorder) := by
              rw [hred, inorder_plug]
              refine inorderC_congr ?_
              rw [hio]
              simp [Tr.inorder, hpi0 sr]
            have hd : (Ctx.plug (Ctx.comp c0 (Ctx.inr i2 dr k2 v2 (Tr.nd ai ar ak av al art) ctx)) sr).ids
                = Ctx.idsC ctx ((Tr.nd ai ar ak av al art).ids
                    ++ (Tr.nd bi br bk bv bl brt).ids) := by
              rw [hred, ids_plug]
              refine idsC_congr ?_
              rw [hid]
              simp [Tr.ids, hpd0 sr]
            by_cases h2 : (!r2) = true
            · rw [if_pos h2]
              have := eraseRepair_pres fuel
                (Ctx.comp c0 (Ctx.inr i2 dr k2 v2 (Tr.nd ai ar ak av al art) ctx)) sr
              rw [this.1, this.2]
              exact ⟨hi, hd⟩
            · rw [if_neg h2]
              exact ⟨hi, hd⟩
          cases c2 with
          | top => exact key1 Ctx.top hpi hpd
          | inl q1 q2 q3 q4 q5 q6 => exact key1 (Ctx.inl q1 q2 q3 q4 q5 q6) hpi hpd
          | inr q1 q2 q3 q4 q5 q6 => exact key1 (Ctx.inr q1 q2 q3 q4 q5 q6) hpi hpd

/-! Sorted-tree and search lemmas. -/

theorem keysList_nd (i : Nat) (r : Bool) (k : α) (v : β) (l rt : Tr α β) :
    keysList (Tr.nd i r k v l rt) = keysList l ++ k :: keysList rt := by
  simp [keysList, Tr.inorder]

theorem mem_keysList_of_mem {t : Tr α β} {k : α} {v : β}
    (h : (k, v) ∈ t.inorder) : k ∈ keysList t :=
  List.mem_map_of_mem Prod.fst h

theorem allB_iff (p : α → Bool) (t : Tr α β) :
    allB p t = true ↔ ∀ a ∈ keysList t, p a = true := by
  induction t with
  | nil => simp [allB, keysList, Tr.inorder]
  | nd i r k v l rt ihl ihr =>
      simp only [allB, Bool.and_eq_true, ihl, ihr, keysList_nd]
      constructor
      · rintro ⟨⟨hk, hll⟩, hrr⟩ a ha
        rcases List.mem_append.1 ha with ha | ha
        · exact hll a ha
        · rcases List.mem_cons.1 ha with rfl | ha
          · exact hk
          · exact hrr a ha
      · intro h
        refine ⟨⟨h k (by simp), fun a ha => h a (by simp [ha])⟩,
          fun a ha => h a (by simp [ha])⟩

theorem bstB_iff_sorted (lt : α → α → Bool) (hl : LawfulLt lt) (t : Tr α β) :
    bstB lt t = true ↔ SortedK lt t := by
  induction t with
  | nil =>
      simp [bstB, SortedK, keysList, Tr.inorder]
  | nd i r k v l rt ihl ihr =>
      rw [SortedK, keysList_nd, List.pairwise_append]
      simp only [bstB, Bool.and_eq_true, ihl, ihr, allB_iff, List.pairwise_cons,
        List.mem_cons]
      constructor
      · rintro ⟨⟨⟨hlk, hkr⟩, hbl⟩, hbr⟩
        refine ⟨hbl, ⟨fun b hb => hkr b hb, hbr⟩, ?_⟩
        intro a ha b hb
        rcases hb with rfl | hb
        · exact hlk a ha
        · exact hl.trans a k b (hlk a ha) (hkr b hb)
      · rintro ⟨hsl, ⟨hkr, hsr⟩, hcross⟩
        exact ⟨⟨⟨fun a ha => hcross a ha k (Or.inl rfl),
          fun b hb => hkr b hb⟩, hsl⟩, hsr⟩

theorem findZ_ctx (lt : α → α → Bool) [DecidableEq α] (t : Tr α β) (key : α)
    (c : Ctx α β) :
    findZ lt t key c =
      (findZ lt t key Ctx.top).map (fun z => (Ctx.comp z.1 c, z.2)) := by
  induction t generalizing c with
  | nil => simp [findZ]
  | nd i r k v l rt ihl ihr =>
      by_cases hk : key = k
      · simp [findZ, hk, Ctx.comp]
      · by_cases hlt : lt k key = true
        · rw [findZ, if_neg hk, if_pos hlt, findZ, if_neg hk, if_pos hlt]
          rw [ihr (Ctx.inr i r k v l c), ihr (Ctx.inr i r k v l Ctx.top)]
          cases findZ lt rt key Ctx.top <;> simp [comp_assoc, Ctx.comp]
        · rw [findZ, if_neg hk, if_neg hlt, findZ, if_neg hk, if_neg hlt]
          rw [ihl (Ctx.inl i r k v rt c), ihl (Ctx.inl i r k v rt Ctx.top)]
          cases findZ lt l key Ctx.top <;> simp [comp_assoc, Ctx.comp]

theorem findZ_eq_plug (lt : α → α → Bool) [DecidableEq α] {t : Tr α β}
    {key : α} {c : Ctx α β} {f : Tr α β}
    (h : findZ lt t key Ctx.top = some (c, f)) : Ctx.plug c f = t := by
  induction t generalizing c f with
  | nil => simp [findZ] at h
  | nd i r k v l rt ihl ihr =>
      by_cases hk : key = k
      · rw [findZ, if_pos hk] at h
        simp at h
        rw [← h.1, ← h.2]
        rfl
      · by_cases hlt : lt k key = true
        · rw [findZ, if_neg hk, if_pos hlt,
            findZ_ctx lt rt key (Ctx.inr i r k v l Ctx.top)] at h
          cases hr : findZ lt rt key Ctx.top with
          | none => rw [hr] at h; simp at h
          | some z =>
              rw [hr] at h
              simp [Option.map] at h
              obtain ⟨hc, hf⟩ := h
              have := ihr (c := z.1) (f := f) (by rw [hr, ← hf])
              rw [← hc, plug_comp]
              simp [Ctx.plug, this]
        · rw [findZ, if_neg hk, if_neg hlt,
            findZ_ctx lt l key (Ctx.inl i r k v rt Ctx.top)] at h
          cases hlf : findZ lt l key Ctx.top with
          | none => rw [hlf] at h; simp at h
          | some z =>
              rw [hlf] at h
              simp [Option.map] at h
              obtain ⟨hc, hf⟩ := h
              have := ihl (c := z.1) (f := f) (by rw [hlf, ← hf])
              rw [← hc, plug_comp]
              simp [Ctx.plug, this]

theorem findZ_not_mem (lt : α → α → Bool) [DecidableEq α] {t : Tr α β}
    {key : α} (h : key ∉ keysList t) (c : Ctx α β) :
    findZ lt t key c = none := by
  induction t generalizing c with
  | nil => rfl
  | nd i r k v l rt ihl ihr =>
      rw [keysList_nd] at h
      simp only [List.mem_append, List.mem_cons, not_or] at h
      obtain ⟨hL, hk, hR⟩ := h
      rw [findZ, if_neg hk]
      by_cases hlt : lt k key = true
      · rw [if_pos hlt]
        exact ihr hR _
      · rw [if_neg hlt]
        exact ihl hL _

theorem findZ_mem (lt : α → α → Bool) [DecidableEq α] (hl : LawfulLt lt)
    {t : Tr α β} {key : α} {v : β}
    (hb : bstB lt t = true) (hmem : (key, v) ∈ t.inorder) (c : Ctx α β) :
    ∃ c2 i r li rt, findZ lt t key c = some (c2, Tr.nd i r key v li rt) := by
  induction t generalizing c with
  | nil => simp [Tr.inorder] at hmem
  | nd i r k v0 l rt ihl ihr =>
      simp only [bstB, Bool.and_eq_true] at hb
      obtain ⟨⟨⟨hlk, hkr⟩, hbl⟩, hbr⟩ := hb
      by_cases hk : key = k
      · subst hk
        have hv : v = v0 := by
          simp only [Tr.inorder, List.mem_append, List.mem_cons] at hmem
          rcases hmem with hmem | hmem | hmem
          · have := (allB_iff _ _).1 hlk key (mem_keysList_of_mem hmem)
            rw [hl.irrefl key] at this
            cases this
          · exact congrArg Prod.snd hmem
          · have := (allB_iff _ _).1 hkr key (mem_keysList_of_mem hmem)
            rw [hl.irrefl key] at this
            cases this
        subst hv
        exact ⟨c, i, r, l, rt, by rw [findZ, if_pos rfl]⟩
      · simp only [Tr.inorder, List.mem_append, List.mem_cons] at hmem
        rcases hmem with hmem | hmem | hmem
        · have hkl : lt key k = true :=
            (allB_iff _ _).1 hlk key (mem_keysList_of_mem hmem)
          have hnlt : ¬ lt k key = true := by
            intro hx
            have := hl.trans k key k hx hkl
            rw [hl.irrefl k] at this
            cases this
          rw [findZ, if_neg hk, if_neg hnlt]
          exact ihl hbl hmem _
        · exact absurd (congrArg Prod.fst hmem) hk
        · have hkl : lt k key = true :=
            (allB_iff _ _).1 hkr key (mem_keysList_of_mem hmem)
          rw [findZ, if_neg hk, if_pos hkl]
          exact ihr hbr hmem _

theorem inorderC_decomp (c : Ctx α β) :
    ∃ L R, ∀ m : List (α × β), Ctx.inorderC c m = L ++ m ++ R := by
  induction c with
  | top => exact ⟨[], [], by simp [Ctx.inorderC]⟩
  | inl i r k v rsib up ih =>
      obtain ⟨L, R, hLR⟩ := ih
      refine ⟨L, (k, v) :: rsib.inorder ++ R, fun m => ?_⟩
      rw [Ctx.inorderC, hLR]
      simp
  | inr i r k v lsib up ih =>
      obtain ⟨L, R, hLR⟩ := ih
      refine ⟨L ++ lsib.inorder ++ [(k, v)], R, fun m => ?_⟩
      rw [Ctx.inorderC, hLR]
      simp

theorem idsC_decomp (c : Ctx α β) :
    ∃ L R, ∀ m : List Nat, Ctx.idsC c m = L ++ m ++ R := by
  induction c with
  | top => exact ⟨[], [], by simp [Ctx.idsC]⟩
  | inl i r k v rsib up ih =>
      obtain ⟨L, R, hLR⟩ := ih
      refine ⟨L, i :: rsib.ids ++ R, fun m => ?_⟩
      rw [Ctx.idsC, hLR]
      simp
  | inr i r k v lsib up ih =>
      obtain ⟨L, R, hLR⟩ := ih
      refine ⟨L ++ lsib.ids ++ [i], R, fun m => ?_⟩
      rw [Ctx.idsC, hLR]
      simp

/-! Comparator consequences. -/

theorem lawful_asymm {lt : α → α → Bool} (hl : LawfulLt lt) {a b : α}
    (h : lt a b = true) : lt b a = false := by
  by_contra hx
  rw [Bool.not_eq_false] at hx
  have := hl.trans a b a h hx
  rw [hl.irrefl a] at this
  cases this

theorem lawful_ne {lt : α → α → Bool} (hl : LawfulLt lt) {a b : α}
    (h : lt a b = true) : a ≠ b := by
  rintro rfl
  rw [hl.irrefl a] at h
  cases h

/-! The descent loop of `insert`: its in-order, found/attached and id
effects, by structural induction along the search path. -/

theorem insGo_spec (lt : α → α → Bool) [DecidableEq α] (hl : LawfulLt lt)
    (nx : Nat) (k1 : α) (v1 : β) :
    ∀ {t : Tr α β}, bstB lt t = true → t ≠ Tr.nil →
    (insGo lt nx (k1, v1) t).1.inorder = sortedUpsert lt (k1, v1) t.inorder ∧
    ((insGo lt nx (k1, v1) t).2
        = if k1 ∈ keysList t then none else some nx) ∧
    List.Perm (insGo lt nx (k1, v1) t).1.ids
      (if k1 ∈ keysList t then t.ids else nx :: t.ids) := by
  intro t
  induction t with
  | nil => exact fun _ h => absurd rfl h
  | nd i r k v0 l rt ihl ihr =>
      intro hb _
      simp only [bstB, Bool.and_eq_true] at hb
      obtain ⟨⟨⟨hlk, hkr⟩, hbl⟩, hbr⟩ := hb
      have hKl : ∀ a ∈ keysList l, lt a k = true := (allB_iff _ _).1 hlk
      have hKr : ∀ a ∈ keysList rt, lt k a = true := (allB_iff _ _).1 hkr
      by_cases hk : k1 = k
      · subst hk
        have hmem : k1 ∈ keysList (Tr.nd i r k1 v0 l rt) := by
          simp [keysList_nd]
        rw [insGo.eq_def]
        dsimp only
        rw [if_pos rfl]
        refine ⟨?_, by simp [hmem], by simp [hmem, Tr.ids]⟩
        have hfA : l.inorder.filter (fun p => lt p.1 k1) = l.inorder :=
          List.filter_eq_self.mpr fun p hp => hKl p.1 (mem_keysList_of_mem hp)
        have hfB : rt.inorder.filter (fun p => lt p.1 k1) = [] :=
          List.filter_eq_nil_iff.mpr fun p hp => by
            rw [lawful_asymm hl (hKr p.1 (mem_keysList_of_mem hp))]
            simp
        have hgA : l.inorder.filter (fun p => lt k1 p.1) = [] :=
          List.filter_eq_nil_iff.mpr fun p hp => by
            rw [lawful_asymm hl (hKl p.1 (mem_keysList_of_mem hp))]
            simp
        have hgB : rt.inorder.filter (fun p => lt k1 p.1) = rt.inorder :=
          List.filter_eq_self.mpr fun p hp => hKr p.1 (mem_keysList_of_mem hp)
        simp only [sortedUpsert, Tr.inorder, List.filter_append, List.filter_cons,
          hfA, hfB, hgA, hgB, hl.irrefl k1, if_false]
        simp
      · by_cases hlt : lt k k1 = true
        · have hnotl : k1 ∉ keysList l := by
            intro hx
            have h1 := hKl k1 hx
            have := hl.trans k k1 k hlt h1
            rw [hl.irrefl k] at this
            cases this
          have hmemiff : (k1 ∈ keysList (Tr.nd i r k v0 l rt)) ↔ k1 ∈ keysList rt := by
            simp [keysList_nd, hnotl, hk]
          have hfA : l.inorder.filter (fun p => lt p.1 k1) = l.inorder :=
            List.filter_eq_self.mpr fun p hp =>
              hl.trans _ k _ (hKl p.1 (mem_keysList_of_mem hp)) hlt
          have hgA : l.inorder.filter (fun p => lt k1 p.1) = [] :=
            List.filter_eq_nil_iff.mpr fun p hp => by
              rw [lawful_asymm hl
                (hl.trans _ k _ (hKl p.1 (mem_keysList_of_mem hp)) hlt)]
              simp
          cases rt with
          | nil =>
              rw [insGo.eq_def]
              dsimp only
              rw [if_neg hk, if_pos hlt]
              have hmem : k1 ∉ keysList (Tr.nd i r k v0 l Tr.nil) := by
                rw [keysList_nd]
                simp only [List.mem_append, List.mem_cons, not_or]
                exact ⟨hnotl, hk, by simp [keysList, Tr.inorder]⟩
              refine ⟨?_, by simp [hmem], ?_⟩
              · simp only [sortedUpsert, Tr.inorder, List.filter_append,
                  List.filter_cons, hfA, hgA, hlt,
                  lawful_asymm hl hlt, if_true, if_false]
                simp
              · rw [if_neg hmem]
                simp only [Tr.ids]
                have := List.perm_append_singleton nx (l.ids ++ [i])
                simpa using this
          | nd ri rr rk rv rl rrt =>
              have hIH := ihr hbr (by simp)
              rw [insGo.eq_def]
              dsimp only
              rw [if_neg hk, if_pos hlt]
              dsimp only
              constructor
              · simp only [Tr.inorder, hIH.1]
                simp only [sortedUpsert, Tr.inorder, List.filter_append,
                  List.filter_cons, hfA, hgA, hlt, lawful_asymm hl hlt,
                  if_true, if_false]
                simp
              constructor
              · rw [hIH.2.1]
                by_cases hm : k1 ∈ keysList (Tr.nd ri rr rk rv rl rrt)
                · rw [if_pos hm, if_pos (hmemiff.mpr hm)]
                · rw [if_neg hm, if_neg (fun hx => hm (hmemiff.mp hx))]
              · have hperm := hIH.2.2
                by_cases hm : k1 ∈ keysList (Tr.nd ri rr rk rv rl rrt)
                · rw [if_pos hm] at hperm
                  rw [if_pos (hmemiff.mpr hm)]
                  simp only [Tr.ids]
                  exact ((hperm.cons i).append_left l.ids)
                · rw [if_neg hm] at hperm
                  rw [if_neg (fun hx => hm (hmemiff.mp hx))]
                  simp only [Tr.ids]
                  refine ((hperm.cons i).append_left l.ids).trans ?_
                  refine (((List.Perm.swap nx i _).append_left l.ids)).trans ?_
                  exact List.perm_middle
        · have hk1k : lt k1 k = true := by
            rcases hl.total k1 k hk with h1 | h1
            · exact h1
            · exact absurd h1 hlt
          have hnotr : k1 ∉ keysList rt := by
            intro hx
            exact hlt (hKr k1 hx)
          have hmemiff : (k1 ∈ keysList (Tr.nd i r k v0 l rt)) ↔ k1 ∈ keysList l := by
            simp [keysList_nd, hnotr, hk]
          have hltfalse : lt k k1 = false := by
            rw [← Bool.not_eq_true]
            exact hlt
          have hfB : rt.inorder.filter (fun p => lt p.1 k1) = [] :=
            List.filter_eq_nil_iff.mpr fun p hp => by
              rw [lawful_asymm hl
                (hl.trans k1 k _ hk1k (hKr p.1 (mem_keysList_of_mem hp)))]
              simp
          have hgB : rt.inorder.filter (fun p => lt k1 p.1) = rt.inorder :=
            List.filter_eq_self.mpr fun p hp =>
              hl.trans k1 k _ hk1k (hKr p.1 (mem_keysList_of_mem hp))
          cases l with
          | nil =>
              rw [insGo.eq_def]
              dsimp only
              rw [if_neg hk, if_neg hlt]
              have hmem : k1 ∉ keysList (Tr.nd i r k v0 Tr.nil rt) := by
                rw [keysList_nd]
                simp only [List.mem_append, List.mem_cons, not_or]
                exact ⟨by simp [keysList, Tr.inorder], hk, hnotr⟩
              refine ⟨?_, by simp [hmem], ?_⟩
              · simp only [sortedUpsert, Tr.inorder, List.filter_append,
                  List.filter_cons, hfB, hgB, hk1k, hltfalse, if_true, if_false]
                simp
              · rw [if_neg hmem]
                simp [Tr.ids]
          | nd li lr lk lv ll lrt =>
              have hIH := ihl hbl (by simp)
              rw [insGo.eq_def]
              dsimp only
              rw [if_neg hk, if_neg hlt]
              dsimp only
              constructor
              · simp only [Tr.inorder, hIH.1]
                simp only [sortedUpsert, Tr.inorder, List.filter_append,
                  List.filter_cons, hfB, hgB, hk1k, hltfalse, if_true, if_false]
                simp
              constructor
              · rw [hIH.2.1]
                by_cases hm : k1 ∈ keysList (Tr.nd li lr lk lv ll lrt)
                · rw [if_pos hm, if_pos (hmemiff.mpr hm)]
                · rw [if_neg hm, if_neg (fun hx => hm (hmemiff.mp hx))]
              · have hperm := hIH.2.2
                by_cases hm : k1 ∈ keysList (Tr.nd li lr lk lv ll lrt)
                · rw [if_pos hm] at hperm
                  rw [if_pos (hmemiff.mpr hm)]
                  simp only [Tr.ids]
                  exact hperm.append_right _
                · rw [if_neg hm] at hperm
                  rw [if_neg (fun hx => hm (hmemiff.mp hx))]
                  simp only [Tr.ids]
                  have := hperm.append_right (i :: rt.ids)
                  simpa [Tr.ids] using this

/-! State-level effect of `insert`. -/

theorem insertS_spec (lt : α → α → Bool) [DecidableEq α] (hl : LawfulLt lt)
    (s : St α β) (k1 : α) (v1 : β) (hb : bstB lt s.root = true) :
    (insertS lt s (k1, v1)).root.inorder = sortedUpsert lt (k1, v1) s.root.inorder ∧
      (insertS lt s (k1, v1)).count
        = (if k1 ∈ keysList s.root then s.count else s.count + 1) ∧
      (insertS lt s (k1, v1)).next
        = (if k1 ∈ keysList s.root then s.next else s.next + 1) ∧
      List.Perm (insertS lt s (k1, v1)).root.ids
        (if k1 ∈ keysList s.root then s.root.ids else s.next :: s.root.ids) := by
  obtain ⟨root, count, next⟩ := s
  cases root with
  | nil =>
      refine ⟨?_, ?_, ?_, ?_⟩ <;>
        simp [insertS, Tr.inorder, Tr.ids, sortedUpsert, keysList]
  | nd i r k v0 l rt =>
      have hspec := insGo_spec lt hl next k1 v1
        (t := Tr.nd i r k v0 l rt) hb (by simp)
      dsimp only [insertS]
      cases hz : insGo lt next (k1, v1) (Tr.nd i r k v0 l rt) with
      | mk t2 j =>
          rw [hz] at hspec
          dsimp only at hspec ⊢
          obtain ⟨hio, hjj, hperm⟩ := hspec
          by_cases hm : k1 ∈ keysList (Tr.nd i r k v0 l rt)
          · rw [if_pos hm] at hjj hperm
            subst hjj
            dsimp only
            exact ⟨hio, by rw [if_pos hm], by rw [if_pos hm],
              by rw [if_pos hm]; exact hperm⟩
          · rw [if_neg hm] at hjj hperm
            subst hjj
            dsimp only
            have hrep := insertRepair_pres (t2.sizeT + 1) t2 next
            refine ⟨?_, by rw [if_neg hm], by rw [if_neg hm], ?_⟩
            · rw [hrep.1, hio]
            · rw [if_neg hm]
              rw [hrep.2]
              exact hperm

/-! Sortedness, length and membership of the upsert. -/

theorem sorted_keys_nodup {lt : α → α → Bool} (hl : LawfulLt lt)
    {ks : List α} (hs : ks.Pairwise (fun a b => lt a b = true)) : ks.Nodup :=
  hs.imp fun h => lawful_ne hl h

theorem mem_sortedUpsert {lt : α → α → Bool} [DecidableEq α] (hl : LawfulLt lt)
    (k1 : α) (v1 : β) (l : List (α × β)) (k : α) (v : β) :
    ((k, v) ∈ sortedUpsert lt (k1, v1) l)
      ↔ ((k = k1 ∧ v = v1) ∨ ((k, v) ∈ l ∧ k ≠ k1)) := by
  simp only [sortedUpsert, List.mem_append, List.mem_cons, List.mem_filter]
  constructor
  · rintro (⟨hm, hlt⟩ | h | ⟨hm, hlt⟩)
    · exact Or.inr ⟨hm, lawful_ne hl hlt⟩
    · rcases Prod.mk.injEq .. ▸ h with ⟨rfl, rfl⟩
      exact Or.inl ⟨rfl, rfl⟩
    · exact Or.inr ⟨hm, (lawful_ne hl hlt).symm⟩
  · rintro (⟨rfl, rfl⟩ | ⟨hm, hne⟩)
    · exact Or.inr (Or.inl rfl)
    · rcases hl.total k k1 hne with hlt | hlt
      · exact Or.inl ⟨hm, hlt⟩
      · exact Or.inr (Or.inr ⟨hm, hlt⟩)

theorem sortedUpsert_sorted {lt : α → α → Bool} [DecidableEq α] (hl : LawfulLt lt)
    (k1 : α) (v1 : β) (l : List (α × β))
    (hs : (l.map Prod.fst).Pairwise (fun a b => lt a b = true)) :
    ((sortedUpsert lt (k1, v1) l).map Prod.fst).Pairwise
      (fun a b => lt a b = true) := by
  have hsubl : ∀ p : α × β → Bool,
      ((l.filter p).map Prod.fst).Pairwise (fun a b => lt a b = true) :=
    fun p => hs.sublist ((List.filter_sublist l).map Prod.fst)
  rw [sortedUpsert, List.map_append, List.map_cons, List.pairwise_append]
  refine ⟨hsubl _, ?_, ?_⟩
  · rw [List.pairwise_cons]
    refine ⟨?_, hsubl _⟩
    intro a ha
    simp only [List.mem_map, List.mem_filter] at ha
    obtain ⟨p, ⟨_, hp⟩, rfl⟩ := ha
    exact hp
  · intro a ha b hb
    simp only [List.mem_map, List.mem_filter] at ha
    obtain ⟨p, ⟨_, hp⟩, rfl⟩ := ha
    simp only [List.mem_cons, List.mem_map, List.mem_filter] at hb
    rcases hb with rfl | hb
    · exact hp
    · obtain ⟨q, ⟨_, hq⟩, rfl⟩ := hb
      exact hl.trans _ k1 _ hp hq

theorem unique_key_value {l : List (α × β)} (hn : (l.map Prod.fst).Nodup)
    {k : α} {v v' : β} (h1 : (k, v) ∈ l) (h2 : (k, v') ∈ l) : v = v' := by
  induction l with
  | nil => cases h1
  | cons a l ih =>
      rw [List.map_cons, List.nodup_cons] at hn
      rcases List.mem_cons.mp h1 with h1 | h1 <;>
        rcases List.mem_cons.mp h2 with h2 | h2
      · rw [← h1] at h2
        exact (congrArg Prod.snd h2).symm
      · exfalso
        have hak : k = a.1 := congrArg Prod.fst h1
        apply hn.1
        rw [← hak]
        exact List.mem_map_of_mem Prod.fst h2
      · exfalso
        have hak : k = a.1 := congrArg Prod.fst h2
        apply hn.1
        rw [← hak]
        exact List.mem_map_of_mem Prod.fst h1
      · exact ih hn.2 h1 h2

theorem removeKeyL_mem [DecidableEq α] (key : α) (l : List (α × β)) (p : α × β) :
    p ∈ removeKeyL key l ↔ (p ∈ l ∧ p.1 ≠ key) := by
  simp [removeKeyL]

theorem removeKeyL_nodup [DecidableEq α] (key : α) (l : List (α × β))
    (hn : l.Nodup) : (removeKeyL key l).Nodup :=
  hn.sublist (List.filter_sublist l)

theorem sortedUpsert_perm {lt : α → α → Bool} [DecidableEq α] (hl : LawfulLt lt)
    (k1 : α) (v1 : β) (l : List (α × β))
    (hs : (l.map Prod.fst).Pairwise (fun a b => lt a b = true)) :
    List.Perm (sortedUpsert lt (k1, v1) l) ((k1, v1) :: removeKeyL k1 l) := by
  have hkn : (l.map Prod.fst).Nodup := sorted_keys_nodup hl hs
  have hln : l.Nodup := hkn.of_map
  have d1 : (sortedUpsert lt (k1, v1) l).Nodup :=
    ((sorted_keys_nodup hl (sortedUpsert_sorted hl k1 v1 l hs))).of_map
  have d2 : ((k1, v1) :: removeKeyL k1 l).Nodup := by
    refine List.nodup_cons.mpr ⟨?_, removeKeyL_nodup k1 l hln⟩
    intro hx
    exact absurd rfl ((removeKeyL_mem k1 l _).mp hx).2
  refine (List.perm_ext_iff_of_nodup d1 d2).mpr ?_
  rintro ⟨k, v⟩
  rw [mem_sortedUpsert hl, List.mem_cons, removeKeyL_mem]
  constructor
  · rintro (⟨rfl, rfl⟩ | ⟨hm, hne⟩)
    · exact Or.inl rfl
    · exact Or.inr ⟨hm, hne⟩
  · rintro (h | ⟨hm, hne⟩)
    · rcases Prod.mk.injEq .. ▸ h with ⟨rfl, rfl⟩
      exact Or.inl ⟨rfl, rfl⟩
    · exact Or.inr ⟨hm, hne⟩

theorem removeKeyL_length [DecidableEq α] {l : List (α × β)}
    (hn : (l.map Prod.fst).Nodup) (k1 : α) :
    (removeKeyL k1 l).length
      = if k1 ∈ l.map Prod.fst then l.length - 1 else l.length := by
  by_cases hm : k1 ∈ l.map Prod.fst
  · rw [if_pos hm]
    obtain ⟨p, hp0, hpk⟩ := List.mem_map.mp hm
    have hp : (k1, p.2) ∈ l := by
      rw [← hpk]
      simpa using hp0
    have hperm : List.Perm l ((k1, p.2) :: removeKeyL k1 l) := by
      refine (List.perm_ext_iff_of_nodup hn.of_map
        (List.nodup_cons.mpr ⟨fun hx => absurd rfl ((removeKeyL_mem k1 l _).mp hx).2,
          removeKeyL_nodup k1 l hn.of_map⟩)).mpr ?_
      rintro ⟨k, v⟩
      rw [List.mem_cons, removeKeyL_mem]
      constructor
      · intro hkv
        by_cases hk : k = k1
        · subst hk
          exact Or.inl (by rw [unique_key_value hn hkv hp])
        · exact Or.inr ⟨hkv, hk⟩
      · rintro (h | ⟨hkv, _⟩)
        · rcases Prod.mk.injEq .. ▸ h with ⟨rfl, rfl⟩
          exact hp
        · exact hkv
    have := hperm.length_eq
    rw [List.length_cons] at this
    omega
  · rw [if_neg hm]
    rw [removeKeyL]
    refine congrArg List.length (List.filter_eq_self.mpr ?_)
    intro p hp
    simp only [decide_eq_true_eq]
    intro hx
    exact hm (hx ▸ List.mem_map_of_mem Prod.fst hp)

theorem sortedUpsert_length {lt : α → α → Bool} [DecidableEq α] (hl : LawfulLt lt)
    (k1 : α) (v1 : β) (l : List (α × β))
    (hs : (l.map Prod.fst).Pairwise (fun a b => lt a b = true)) :
    (sortedUpsert lt (k1, v1) l).length
      = if k1 ∈ l.map Prod.fst then l.length else l.length + 1 := by
  have hkn : (l.map Prod.fst).Nodup := sorted_keys_nodup hl hs
  have hlen := (sortedUpsert_perm hl k1 v1 l hs).length_eq
  rw [List.length_cons, removeKeyL_length hkn k1] at hlen
  by_cases hm : k1 ∈ l.map Prod.fst
  · rw [if_pos hm] at hlen ⊢
    have : 0 < l.length := List.length_pos.mpr (by
      rintro rfl
      simp at hm)
    omega
  · rw [if_neg hm] at hlen ⊢
    omega

theorem keysList_insertS_mem (lt : α → α → Bool) [DecidableEq α]
    (hl : LawfulLt lt) (s : St α β) (k1 : α) (v1 : β)
    (hb : bstB lt s.root = true) (a : α) :
    a ∈ keysList (insertS lt s (k1, v1)).root
      ↔ (a ∈ keysList s.root ∨ a = k1) := by
  have hio := (insertS_spec lt hl s k1 v1 hb).1
  constructor
  · intro ha
    rw [keysList, hio] at ha
    rcases List.mem_map.mp ha with ⟨p, hp, rfl⟩
    obtain ⟨pk, pv⟩ := p
    rw [mem_sortedUpsert hl] at hp
    rcases hp with ⟨h1, _⟩ | ⟨hm, _⟩
    · exact Or.inr h1
    · exact Or.inl (List.mem_map_of_mem Prod.fst hm)
  · intro h
    rw [keysList, hio]
    rcases h with ha | rfl
    · rcases List.mem_map.mp (by rwa [keysList] at ha) with ⟨p, hp, rfl⟩
      obtain ⟨pk, pv⟩ := p
      by_cases hpk : pk = k1
      · subst hpk
        show pk ∈ List.map Prod.fst (sortedUpsert lt (pk, v1) s.root.inorder)
        exact List.mem_map_of_mem Prod.fst
          ((mem_sortedUpsert hl pk v1 _ pk v1).mpr (Or.inl ⟨rfl, rfl⟩))
      · exact List.mem_map_of_mem Prod.fst
          ((mem_sortedUpsert hl k1 v1 _ pk pv).mpr (Or.inr ⟨hp, hpk⟩))
    · exact List.mem_map_of_mem Prod.fst
        ((mem_sortedUpsert hl a v1 _ a v1).mpr (Or.inl ⟨rfl, rfl⟩))

/-! Well-formedness is preserved by `insert`. -/

theorem insertS_WF (lt : α → α → Bool) [DecidableEq α] (hl : LawfulLt lt)
    (s : St α β) (k1 : α) (v1 : β) (hw : WFSt lt s) :
    WFSt lt (insertS lt s (k1, v1)) := by
  obtain ⟨hnd, hbound, hsort, hcount⟩ := hw
  have hb : bstB lt s.root = true := (bstB_iff_sorted lt hl s.root).mpr hsort
  obtain ⟨hio, hcnt, hnext, hperm⟩ := insertS_spec lt hl s k1 v1 hb
  have hkeysnd : (s.root.inorder.map Prod.fst).Nodup := sorted_keys_nodup hl hsort
  refine ⟨?_, ?_, ?_, ?_⟩
  · refine hperm.nodup_iff.mpr ?_
    by_cases hm : k1 ∈ keysList s.root
    · rw [if_pos hm]; exact hnd
    · rw [if_neg hm]
      refine List.nodup_cons.mpr ⟨?_, hnd⟩
      intro hx
      exact absurd (hbound s.next hx) (by omega)
  · intro i hi
    have hi2 := hperm.mem_iff.mp hi
    by_cases hm : k1 ∈ keysList s.root
    · rw [if_pos hm] at hi2
      rw [hnext, if_pos hm]
      exact hbound i hi2
    · rw [if_neg hm] at hi2
      rw [hnext, if_neg hm]
      rcases List.mem_cons.mp hi2 with rfl | hi2
      · omega
      · have := hbound i hi2
        omega
  · rw [SortedK, keysList, hio]
    exact sortedUpsert_sorted hl k1 v1 s.root.inorder hsort
  · rw [hcnt, hio, sortedUpsert_length hl k1 v1 s.root.inorder hsort]
    rw [hcount]
    by_cases hm : k1 ∈ keysList s.root
    · rw [if_pos hm, if_pos (by rwa [keysList] at hm)]
    · rw [if_neg hm, if_neg (by rwa [keysList] at hm)]

/-! State-level effect of `deleteKey`. -/

theorem removeKeyL_mid {key : α} [DecidableEq α] (L A B R : List (α × β)) (v : β)
    (hn : ((L ++ (A ++ (key, v) :: B) ++ R).map Prod.fst).Nodup) :
    removeKeyL key (L ++ (A ++ (key, v) :: B) ++ R) = L ++ (A ++ B) ++ R := by
  have hkey : ∀ X : List (α × β),
      (∀ p ∈ X, p.1 ≠ key) → removeKeyL key X = X := by
    intro X hX
    refine List.filter_eq_self.mpr ?_
    intro p hp
    simpa using hX p hp
  simp only [List.map_append, List.map_cons] at hn
  rw [List.nodup_append] at hn
  obtain ⟨hnLM, hnR, hdisjR⟩ := hn
  rw [List.nodup_append] at hnLM
  obtain ⟨hnL, hnM, hdisjL⟩ := hnLM
  rw [List.nodup_append] at hnM
  obtain ⟨hnA, hnKB, hdisjA⟩ := hnM
  rw [List.nodup_cons] at hnKB
  have hL : ∀ p ∈ L, p.1 ≠ key := by
    intro p hp he
    exact hdisjL (he ▸ List.mem_map_of_mem Prod.fst hp) (by simp)
  have hA : ∀ p ∈ A, p.1 ≠ key := by
    intro p hp he
    exact hdisjA (he ▸ List.mem_map_of_mem Prod.fst hp) (by simp)
  have hB : ∀ p ∈ B, p.1 ≠ key := by
    intro p hp he
    exact hnKB.1 (he ▸ List.mem_map_of_mem Prod.fst hp)
  have hR : ∀ p ∈ R, p.1 ≠ key := by
    intro p hp he
    exact hdisjR (by simp) (he ▸ List.mem_map_of_mem Prod.fst hp)
  rw [removeKeyL] at *
  simp only [List.filter_append, List.filter_cons]
  rw [List.filter_eq_self.mpr (fun p hp => by simpa using hL p hp),
    List.filter_eq_self.mpr (fun p hp => by simpa using hA p hp),
    List.filter_eq_self.mpr (fun p hp => by simpa using hB p hp),
    List.filter_eq_self.mpr (fun p hp => by simpa using hR p hp)]
  simp

theorem deleteKey_spec (lt : α → α → Bool) [DecidableEq α] (hl : LawfulLt lt)
    (s : St α β) (key : α) (hw : WFSt lt s) :
    (deleteKey lt s key).root.inorder = removeKeyL key s.root.inorder ∧
      (deleteKey lt s key).count
        = (if key ∈ keysList s.root then s.count - 1 else s.count) ∧
      (deleteKey lt s key).next = s.next ∧
      List.Sublist (deleteKey lt s key).root.ids s.root.ids := by
  obtain ⟨hnd, hbound, hsort, hcount⟩ := hw
  have hb : bstB lt s.root = true := (bstB_iff_sorted lt hl s.root).mpr hsort
  by_cases hm : key ∈ keysList s.root
  · obtain ⟨p, hp0, hpk⟩ := List.mem_map.mp (by rwa [keysList] at hm)
    have hp : (key, p.2) ∈ s.root.inorder := by
      rw [← hpk]
      simpa using hp0
    obtain ⟨c2, i2, r2, li2, rt2, hfz⟩ := findZ_mem lt hl hb hp Ctx.top
    have hplug : Ctx.plug c2 (Tr.nd i2 r2 key p.2 li2 rt2) = s.root :=
      findZ_eq_plug lt hfz
    rw [deleteKey.eq_def, hfz]
    dsimp only
    have hep := erase_pres (s.root.sizeT * 3 + 3) c2 i2 r2 key p.2 li2 rt2
    obtain ⟨L, R, hLR⟩ := inorderC_decomp c2
    obtain ⟨Li, Ri, hLRi⟩ := idsC_decomp c2
    have hroot_io : s.root.inorder = L ++ (li2.inorder ++ (key, p.2) :: rt2.inorder) ++ R := by
      rw [← hplug, inorder_plug, hLR]
      rfl
    have hroot_ids : s.root.ids = Li ++ (li2.ids ++ i2 :: rt2.ids) ++ Ri := by
      rw [← hplug, ids_plug, hLRi]
      rfl
    refine ⟨?_, by rw [if_pos hm], rfl, ?_⟩
    · rw [hep.1, hLR, hroot_io]
      rw [removeKeyL_mid L li2.inorder rt2.inorder R p.2
        (by rw [← hroot_io]; exact sorted_keys_nodup hl hsort)]
    · rw [hep.2, hLRi, hroot_ids]
      exact (((List.sublist_cons_self i2 rt2.ids).append_left
        li2.ids).append_left Li).append_right Ri
  · have hfz := findZ_not_mem lt (by rwa [keysList] at hm) (t := s.root) Ctx.top
    rw [deleteKey.eq_def, hfz]
    dsimp only
    refine ⟨?_, by rw [if_neg hm], rfl, List.Sublist.refl _⟩
    rw [removeKeyL]
    refine (List.filter_eq_self.mpr ?_).symm
    intro p hp
    simp only [decide_eq_true_eq]
    intro he
    exact hm (by rw [keysList, ← he]; exact List.mem_map_of_mem Prod.fst hp)

theorem deleteKey_WF (lt : α → α → Bool) [DecidableEq α] (hl : LawfulLt lt)
    (s : St α β) (key : α) (hw : WFSt lt s) : WFSt lt (deleteKey lt s key) := by
  obtain ⟨hio, hcnt, hnext, hsub⟩ := deleteKey_spec lt hl s key hw
  obtain ⟨hnd, hbound, hsort, hcount⟩ := hw
  refine ⟨hnd.sublist hsub, ?_, ?_, ?_⟩
  · intro i hi
    rw [hnext]
    exact hbound i (hsub.mem hi)
  · rw [SortedK, keysList, hio, removeKeyL]
    exact hsort.sublist ((List.filter_sublist _).map Prod.fst)
  · rw [hcnt, hio, removeKeyL_length (sorted_keys_nodup hl hsort) key]
    rw [hcount]
    by_cases hm : key ∈ keysList s.root
    · rw [if_pos hm, if_pos (by rwa [keysList] at hm)]
    · rw [if_neg hm, if_neg (by rwa [keysList] at hm)]

theorem emptySt_WF (lt : α → α → Bool) : WFSt lt (emptySt : St α β) := by
  refine ⟨by simp [emptySt, Tr.ids], by simp [emptySt, Tr.ids], ?_, by simp [emptySt, Tr.inorder]⟩
  simp [emptySt, SortedK, keysList, Tr.inorder]

/-- Counting after a fold of inserts of fresh, pairwise-distinct keys. -/
theorem foldl_insert_count (lt : α → α → Bool) [DecidableEq α] (hl : LawfulLt lt) :
    ∀ (l : List (α × β)) (s : St α β), WFSt lt s →
      (l.map Prod.fst).Nodup → (∀ k ∈ l.map Prod.fst, k ∉ keysList s.root) →
      (l.foldl (insertS lt) s).count = s.count + l.length := by
  intro l
  induction l with
  | nil => intro s _ _ _; simp
  | cons a l ih =>
      intro s hw hnd hfresh
      obtain ⟨k1, v1⟩ := a
      rw [List.map_cons, List.nodup_cons] at hnd
      have hb := (bstB_iff_sorted lt hl s.root).mpr hw.2.2.1
      have habs : k1 ∉ keysList s.root := hfresh k1 (by simp)
      have hcnt := (insertS_spec lt hl s k1 v1 hb).2.1
      rw [if_neg habs] at hcnt
      rw [List.foldl_cons,
        ih (insertS lt s (k1, v1)) (insertS_WF lt hl s k1 v1 hw) hnd.2 ?fresh,
        hcnt, List.length_cons]
      · omega
      case fresh =>
        intro k hk hmem
        rcases (keysList_insertS_mem lt hl s k1 v1 hb k).mp hmem with h | rfl
        · exact hfresh k (by simp [hk]) h
        · exact hnd.1 hk

/-- Key-set and entry-set of a fold of inserts, with well-formedness. -/
theorem foldl_insert_model (lt : α → α → Bool) [DecidableEq α] (hl : LawfulLt lt) :
    ∀ (l : List (α × β)) (s : St α β), WFSt lt s →
      WFSt lt (l.foldl (insertS lt) s) ∧
      (∀ k, k ∈ keysList (l.foldl (insertS lt) s).root
          ↔ (k ∈ keysList s.root ∨ k ∈ l.map Prod.fst)) ∧
      (∀ k v, ((k, v) ∈ (l.foldl (insertS lt) s).root.inorder
          ↔ (match l.reverse.find? (fun p => decide (p.1 = k)) with
             | some q => q = (k, v)
             | none => (k, v) ∈ s.root.inorder))) := by
  intro l
  induction l with
  | nil =>
      intro s hw
      refine ⟨hw, by simp, ?_⟩
      intro k v
      simp [List.find?]
  | cons a l ih =>
      intro s hw
      obtain ⟨k1, v1⟩ := a
      have hb := (bstB_iff_sorted lt hl s.root).mpr hw.2.2.1
      have hw2 := insertS_WF lt hl s k1 v1 hw
      obtain ⟨ihw, ihkeys, ihmem⟩ := ih (insertS lt s (k1, v1)) hw2
      rw [List.foldl_cons]
      refine ⟨ihw, ?_, ?_⟩
      · intro k
        rw [ihkeys k, keysList_insertS_mem lt hl s k1 v1 hb k]
        simp only [List.map_cons, List.mem_cons]
        tauto
      · intro k v
        rw [ihmem k v]
        have hfind : (k1, v1) :: (l : List (α × β)) = [(k1,v1)] ++ l := rfl
        rw [List.reverse_cons, List.find?_append]
        cases hfl : l.reverse.find? (fun p => decide (p.1 = k)) with
        | some q => simp
        | none =>
            simp only [Option.none_or]
            have hmem := (insertS_spec lt hl s k1 v1 hb).1
            by_cases hk : k1 = k
            · have hone : List.find? (fun p => decide (p.1 = k)) [(k1, v1)]
                  = some (k1, v1) := by
                simp [List.find?, hk]
              rw [hone, hmem, mem_sortedUpsert hl]
              constructor
              · rintro (⟨h1, rfl⟩ | ⟨_, hne⟩)
                · rw [hk]
                · exact absurd hk.symm hne
              · intro h
                exact Or.inl ⟨(congrArg Prod.fst h).symm, (congrArg Prod.snd h).symm⟩
            · have hone : List.find? (fun p => decide (p.1 = k)) [(k1, v1)]
                  = none := by
                simp [List.find?, hk]
              rw [hone, hmem, mem_sortedUpsert hl]
              constructor
              · rintro (⟨rfl, _⟩ | ⟨hm, _⟩)
                · exact absurd rfl hk
                · exact hm
              · intro hm
                exact Or.inr ⟨hm, fun hx => hk hx.symm⟩

/-! Id/key pair views of the tree and pointer lookup of a listed pair:
machinery for the lower-bound descents, which return node addresses. -/

theorem pairsIK_fst (t : Tr α β) : (pairsIK t).map Prod.fst = t.ids := by
  induction t with
  | nil => rfl
  | nd i r k v l rt ihl ihr => simp [pairsIK, Tr.ids, ihl, ihr]

theorem pairsIK_snd (t : Tr α β) : (pairsIK t).map Prod.snd = keysList t := by
  induction t with
  | nil => rfl
  | nd i r k v l rt ihl ihr => simp [pairsIK, keysList_nd, ihl, ihr]

theorem locate_not_mem {t : Tr α β} {x : Nat} (h : x ∉ t.ids) (c : Ctx α β) :
    locate t x c = none := by
  induction t generalizing c with
  | nil => rfl
  | nd i r k v l rt ihl ihr =>
      rw [show (Tr.nd i r k v l rt).ids = l.ids ++ i :: rt.ids from rfl] at h
      have hi : i ≠ x := by
        rintro rfl
        exact h (by simp)
      have hxl : x ∉ l.ids := fun hm => h (by simp [hm])
      have hxr : x ∉ rt.ids := fun hm => h (by simp [hm])
      rw [locate, if_neg hi, ihl hxl]
      exact ihr hxr (Ctx.inr i r k v l c)

theorem locate_pairs {t : Tr α β} (hnd : t.ids.Nodup) {i : Nat} {k : α}
    (hp : (i, k) ∈ pairsIK t) :
    ∃ c rb v li rt, locate t i Ctx.top = some (c, Tr.nd i rb k v li rt) := by
  induction t with
  | nil => cases hp
  | nd j r kk vv l rt ihl ihr =>
      rw [show pairsIK (Tr.nd j r kk vv l rt)
          = pairsIK l ++ (j, kk) :: pairsIK rt from rfl] at hp
      rw [show (Tr.nd j r kk vv l rt).ids = l.ids ++ j :: rt.ids from rfl,
        List.nodup_append] at hnd
      obtain ⟨hnl, hnjr, hdis⟩ := hnd
      rw [List.nodup_cons] at hnjr
      obtain ⟨hjr, hnr⟩ := hnjr
      rcases List.mem_append.1 hp with hpl | hpc
      · have hil : i ∈ l.ids := by
          rw [← pairsIK_fst]
          exact List.mem_map_of_mem Prod.fst hpl
        have hji : j ≠ i := by
          rintro rfl
          exact hdis hil (List.mem_cons_self _ _)
        obtain ⟨c, rb, v2, li, rti, hc⟩ := ihl hnl hpl
        refine ⟨Ctx.comp c (Ctx.inl j r kk vv rt Ctx.top), rb, v2, li, rti, ?_⟩
        rw [locate, if_neg hji, locate_ctx l i (Ctx.inl j r kk vv rt Ctx.top), hc]
        rfl
      · rcases List.mem_cons.1 hpc with heq | hpr
        · injection heq with h1 h2
          subst h1
          subst h2
          exact ⟨Ctx.top, r, vv, l, rt, by rw [locate, if_pos rfl]⟩
        · have hir : i ∈ rt.ids := by
            rw [← pairsIK_fst]
            exact List.mem_map_of_mem Prod.fst hpr
          have hji : j ≠ i := by
            rintro rfl
            exact hjr hir
          have hnli : i ∉ l.ids := fun hx => hdis hx (List.mem_cons_of_mem _ hir)
          obtain ⟨c, rb, v2, li, rti, hc⟩ := ihr hnr hpr
          refine ⟨Ctx.comp c (Ctx.inr j r kk vv l Ctx.top), rb, v2, li, rti, ?_⟩
          rw [locate, if_neg hji, locate_not_mem hnli]
          rw [locate_ctx rt i (Ctx.inr j r kk vv l Ctx.top), hc]
          rfl

/-- The module lower-bound descent computes exactly the first in-order
id/key pair whose key is not below the target, falling back to the
accumulator. -/
theorem lowerBoundModGo_spec (lt : α → α → Bool) [DecidableEq α]
    (hl : LawfulLt lt) (key : α) :
    ∀ (t : Tr α β), bstB lt t = true → ∀ acc : Option Nat,
      lowerBoundModGo lt t key acc
        = (((pairsIK t).find? (fun p => !(lt p.2 key))).map Prod.fst).or acc := by
  intro t
  induction t with
  | nil => intro _ _; rfl
  | nd i r k v l rt ihl ihr =>
      intro hb acc
      rw [show bstB lt (Tr.nd i r k v l rt)
          = (allB (fun a => lt a k) l && allB (fun a => lt k a) rt
              && bstB lt l && bstB lt rt) from rfl] at hb
      simp only [Bool.and_eq_true] at hb
      obtain ⟨⟨⟨hal, har⟩, hbl⟩, hbr⟩ := hb
      have hmeml : ∀ p ∈ pairsIK l, lt p.2 k = true := by
        intro p hp
        refine (allB_iff _ l).1 hal p.2 ?_
        rw [← pairsIK_snd]
        exact List.mem_map_of_mem Prod.snd hp
      by_cases hk : k = key
      · show (if k = key then some i
            else if !(lt k key) then lowerBoundModGo lt l key (some i)
            else lowerBoundModGo lt rt key acc)
          = (((pairsIK (Tr.nd i r k v l rt)).find?
              (fun p => !(lt p.2 key))).map Prod.fst).or acc
        rw [if_pos hk]
        have hfl : (pairsIK l).find? (fun p => !(lt p.2 key)) = none := by
          rw [List.find?_eq_none]
          intro p hp
          have h1 := hmeml p hp
          rw [hk] at h1
          simp [h1]
        have hfc : ((i, k) :: pairsIK rt).find? (fun p => !(lt p.2 key))
            = some (i, k) := by
          apply List.find?_cons_of_pos
          simp [hk, hl.irrefl key]
        rw [show pairsIK (Tr.nd i r k v l rt)
            = pairsIK l ++ (i, k) :: pairsIK rt from rfl,
          List.find?_append, hfl, hfc]
        rfl
      · by_cases hlt : lt k key = true
        · show (if k = key then some i
              else if !(lt k key) then lowerBoundModGo lt l key (some i)
              else lowerBoundModGo lt rt key acc)
            = (((pairsIK (Tr.nd i r k v l rt)).find?
                (fun p => !(lt p.2 key))).map Prod.fst).or acc
          rw [if_neg hk, if_neg (by simp [hlt])]
          rw [ihr hbr acc]
          have hfl : (pairsIK l).find? (fun p => !(lt p.2 key)) = none := by
            rw [List.find?_eq_none]
            intro p hp
            have h2 := hl.trans p.2 k key (hmeml p hp) hlt
            simp [h2]
          have hfc : ((i, k) :: pairsIK rt).find? (fun p => !(lt p.2 key))
              = (pairsIK rt).find? (fun p => !(lt p.2 key)) := by
            apply List.find?_cons_of_neg
            simp [hlt]
          rw [show pairsIK (Tr.nd i r k v l rt)
              = pairsIK l ++ (i, k) :: pairsIK rt from rfl,
            List.find?_append, hfl, hfc]
          rfl
        · rw [Bool.not_eq_true] at hlt
          show (if k = key then some i
              else if !(lt k key) then lowerBoundModGo lt l key (some i)
              else lowerBoundModGo lt rt key acc)
            = (((pairsIK (Tr.nd i r k v l rt)).find?
                (fun p => !(lt p.2 key))).map Prod.fst).or acc
          rw [if_neg hk, if_pos (by simp [hlt])]
          rw [ihl hbl (some i)]
          have hfc : ((i, k) :: pairsIK rt).find? (fun p => !(lt p.2 key))
              = some (i, k) := by
            apply List.find?_cons_of_pos
            simp [hlt]
          rw [show pairsIK (Tr.nd i r k v l rt)
              = pairsIK l ++ (i, k) :: pairsIK rt from rfl,
            List.find?_append, hfc]
          cases hfl2 : (pairsIK l).find? (fun p => !(lt p.2 key)) with
          | none => rfl
          | some q => rfl

/-! Iterator traversal: the successor chain visits the in-order node
listing.  Machinery for `mergeMaps`, which walks the source map with
`begin()`/`operator++` and inserts every dereferenced entry. -/

theorem entriesI_fst (t : Tr α β) : (entriesI t).map (fun e => e.1) = t.ids := by
  induction t with
  | nil => rfl
  | nd i r k v l rt ihl ihr => simp [entriesI, Tr.ids, ihl, ihr]

theorem entriesI_snd (t : Tr α β) : (entriesI t).map (fun e => e.2) = t.inorder := by
  induction t with
  | nil => rfl
  | nd i r k v l rt ihl ihr => simp [entriesI, Tr.inorder, ihl, ihr]

theorem entriesI_length (t : Tr α β) : (entriesI t).length = t.sizeT := by
  induction t with
  | nil => rfl
  | nd i r k v l rt ihl ihr => simp [entriesI, Tr.sizeT, ihl, ihr]; omega

theorem entriesI_eq_nil {t : Tr α β} (h : entriesI t = []) : t = Tr.nil := by
  cases t with
  | nil => rfl
  | nd i r k v l rt => simp [entriesI] at h

theorem head?_append_left {γ : Type} {xs : List γ} (ys : List γ) (h : xs ≠ []) :
    (xs ++ ys).head? = xs.head? := by
  cases xs with
  | nil => exact absurd rfl h
  | cons a l => rfl

theorem entries_plug (c : Ctx α β) (f : Tr α β) :
    entriesI (Ctx.plug c f) = Ctx.entriesC c (entriesI f) := by
  induction c generalizing f <;> simp [Ctx.plug, Ctx.entriesC, entriesI, *]

theorem locate_entries {t : Tr α β} (hnd : t.ids.Nodup) {i : Nat} {k : α} {v : β}
    (hp : (i, k, v) ∈ entriesI t) :
    ∃ c rb li rt, locate t i Ctx.top = some (c, Tr.nd i rb k v li rt) := by
  induction t with
  | nil => cases hp
  | nd j r kk vv l rt ihl ihr =>
      rw [show entriesI (Tr.nd j r kk vv l rt)
          = entriesI l ++ (j, kk, vv) :: entriesI rt from rfl] at hp
      rw [show (Tr.nd j r kk vv l rt).ids = l.ids ++ j :: rt.ids from rfl,
        List.nodup_append] at hnd
      obtain ⟨hnl, hnjr, hdis⟩ := hnd
      rw [List.nodup_cons] at hnjr
      obtain ⟨hjr, hnr⟩ := hnjr
      rcases List.mem_append.1 hp with hpl | hpc
      · have hil : i ∈ l.ids := by
          rw [← entriesI_fst]
          exact List.mem_map_of_mem _ hpl
        have hji : j ≠ i := by
          rintro rfl
          exact hdis hil (List.mem_cons_self _ _)
        obtain ⟨c, rb, li, rti, hc⟩ := ihl hnl hpl
        refine ⟨Ctx.comp c (Ctx.inl j r kk vv rt Ctx.top), rb, li, rti, ?_⟩
        rw [locate, if_neg hji, locate_ctx l i (Ctx.inl j r kk vv rt Ctx.top), hc]
        rfl
      · rcases List.mem_cons.1 hpc with heq | hpr
        · injection heq with h1 h2
          injection h2 with h2 h3
          subst h1
          subst h2
          subst h3
          exact ⟨Ctx.top, r, l, rt, by rw [locate, if_pos rfl]⟩
        · have hir : i ∈ rt.ids := by
            rw [← entriesI_fst]
            exact List.mem_map_of_mem _ hpr
          have hji : j ≠ i := by
            rintro rfl
            exact hjr hir
          have hnli : i ∉ l.ids := fun hx => hdis hx (List.mem_cons_of_mem _ hir)
          obtain ⟨c, rb, li, rti, hc⟩ := ihr hnr hpr
          refine ⟨Ctx.comp c (Ctx.inr j r kk vv l Ctx.top), rb, li, rti, ?_⟩
          rw [locate, if_neg hji, locate_not_mem hnli]
          rw [locate_ctx rt i (Ctx.inr j r kk vv l Ctx.top), hc]
          rfl

theorem minNode_entries (t : Tr α β) :
    minNode t = ((entriesI t).head?).map (fun e => e.1) := by
  induction t with
  | nil => rfl
  | nd i r k v l rt ihl ihr =>
      cases l with
      | nil => rfl
      | nd a ab ak av al ar =>
          show minNode (Tr.nd a ab ak av al ar)
            = ((entriesI (Tr.nd i r k v (Tr.nd a ab ak av al ar) rt)).head?).map
                (fun e => e.1)
          rw [ihl]
          rw [show entriesI (Tr.nd i r k v (Tr.nd a ab ak av al ar) rt)
              = entriesI (Tr.nd a ab ak av al ar)
                  ++ (i, k, v) :: entriesI rt from rfl]
          rw [head?_append_left _ (by simp [entriesI])]

theorem upLeft_entriesC (c : Ctx α β) :
    ∃ L R, (∀ m : List (Nat × α × β), Ctx.entriesC c m = L ++ m ++ R)
      ∧ upLeft c = R.head?.map (fun e => e.1) := by
  induction c with
  | top => exact ⟨[], [], by simp [Ctx.entriesC], rfl⟩
  | inl p rb k v rsib up ih =>
      obtain ⟨L, R, hLR, _⟩ := ih
      refine ⟨L, (p, k, v) :: (entriesI rsib ++ R), fun m => ?_, rfl⟩
      rw [Ctx.entriesC, hLR]
      simp
  | inr p rb k v lsib up ih =>
      obtain ⟨L, R, hLR, hup⟩ := ih
      refine ⟨L ++ entriesI lsib ++ [(p, k, v)], R, fun m => ?_, ?_⟩
      · rw [Ctx.entriesC, hLR]
        simp
      · rw [show upLeft (Ctx.inr p rb k v lsib up) = upLeft up from rfl, hup]

theorem nodup_mid_unique {γ : Type} {f : γ → Nat} :
    ∀ {E1 : List γ} {E2 D1 D2 : List γ} {e : γ},
      ((E1 ++ e :: E2).map f).Nodup → E1 ++ e :: E2 = D1 ++ e :: D2 →
      E1 = D1 ∧ E2 = D2 := by
  intro E1
  induction E1 with
  | nil =>
      intro E2 D1 D2 e hnd heq
      cases D1 with
      | nil =>
          refine ⟨rfl, ?_⟩
          simpa using heq
      | cons d D1 =>
          exfalso
          rw [List.nil_append, List.cons_append] at heq
          injection heq with h1 h2
          simp only [List.nil_append, List.map_cons, List.nodup_cons] at hnd
          refine hnd.1 ?_
          rw [h2]
          exact List.mem_map_of_mem f (by simp)
  | cons a E1 ih =>
      intro E2 D1 D2 e hnd heq
      cases D1 with
      | nil =>
          exfalso
          rw [List.nil_append, List.cons_append] at heq
          injection heq with h1 h2
          simp only [List.cons_append, List.map_cons, List.nodup_cons] at hnd
          refine hnd.1 ?_
          rw [h1]
          exact List.mem_map_of_mem f (by simp)
      | cons d D1 =>
          rw [List.cons_append, List.cons_append] at heq
          injection heq with h1 h2
          simp only [List.cons_append, List.map_cons, List.nodup_cons] at hnd
          obtain ⟨hE, hD⟩ := ih hnd.2 h2
          exact ⟨by rw [h1, hE], hD⟩

/-- `RBT::successor` steps through the in-order node listing: at the entry
with a given left part and right part, it returns the head of the right
part (none past the maximum). -/
theorem succOf_split {t : Tr α β} (hnd : t.ids.Nodup) {E1 E2 : List (Nat × α × β)}
    {e : Nat × α × β} (h : entriesI t = E1 ++ e :: E2) :
    succOf t e.1 = E2.head?.map (fun x => x.1) := by
  obtain ⟨ei, ek, ev⟩ := e
  have hmem : (ei, ek, ev) ∈ entriesI t := by
    rw [h]
    exact List.mem_append_right _ (List.mem_cons_self _ _)
  obtain ⟨c, rb, li, rt, hc⟩ := locate_entries hnd hmem
  have hplug := locate_eq_plug hc
  obtain ⟨L, R, hLR, hup⟩ := upLeft_entriesC c
  have hdec : entriesI t
      = (L ++ entriesI li) ++ (ei, ek, ev) :: (entriesI rt ++ R) := by
    rw [← hplug, entries_plug, hLR]
    rw [show entriesI (Tr.nd ei rb ek ev li rt)
        = entriesI li ++ (ei, ek, ev) :: entriesI rt from rfl]
    simp
  have hndm : ((entriesI t).map (fun x => x.1)).Nodup := by
    rw [entriesI_fst]
    exact hnd
  rw [h] at hndm
  have heq : E1 ++ (ei, ek, ev) :: E2
      = (L ++ entriesI li) ++ (ei, ek, ev) :: (entriesI rt ++ R) := by
    rw [← h]
    exact hdec
  obtain ⟨hE1, hE2⟩ := nodup_mid_unique (f := fun x => x.1) hndm heq
  subst hE2
  rw [succOf, hc]
  cases rt with
  | nil =>
      show upLeft c = ((entriesI (Tr.nil : Tr α β) ++ R).head?).map (fun x => x.1)
      rw [hup]
      rfl
  | nd q qb qk qv ql qr =>
      show minNode (Tr.nd q qb qk qv ql qr)
        = ((entriesI (Tr.nd q qb qk qv ql qr) ++ R).head?).map (fun x => x.1)
      rw [minNode_entries, head?_append_left _ (by simp [entriesI])]

/-- The `mergeMaps` loop, started anywhere in the in-order walk of the
source map with enough fuel, folds `insert` over the remaining entries. -/
theorem mergeGo_steps (lt : α → α → Bool) [DecidableEq α] (B : Mp α β)
    (hnd : B.st.root.ids.Nodup) :
    ∀ (rest E1 : List (Nat × α × β)) (fuel : Nat) (acc : St α β),
      entriesI B.st.root = E1 ++ rest → rest.length < fuel →
      mergeGo lt B fuel
          (match rest with
            | [] => endIt B
            | e :: _ => ⟨Pos.real e.1, B.mid⟩) acc
        = (rest.map (fun e => e.2)).foldl (insertS lt) acc := by
  intro rest
  induction rest with
  | nil =>
      intro E1 fuel acc _ hfuel
      obtain ⟨f, rfl⟩ : ∃ f, fuel = f + 1 := ⟨fuel - 1, by omega⟩
      simp [mergeGo]
  | cons e rest' ih =>
      intro E1 fuel acc hdec hfuel
      obtain ⟨f, rfl⟩ : ∃ f, fuel = f + 1 := ⟨fuel - 1, by omega⟩
      obtain ⟨ei, ek, ev⟩ := e
      have hmem : (ei, ek, ev) ∈ entriesI B.st.root := by
        rw [hdec]
        exact List.mem_append_right _ (List.mem_cons_self _ _)
      obtain ⟨c, rb, li, rt, hc⟩ := locate_entries hnd hmem
      have hread : readNd B.st.root ei = some (Tr.nd ei rb ek ev li rt) := by
        rw [readNd, hc]
        rfl
      have hne : (⟨Pos.real ei, B.mid⟩ : It) ≠ endIt B := by
        intro hx
        rw [endIt] at hx
        injection hx with h1 h2
        exact Pos.noConfusion h1
      have hsucc := succOf_split hnd (show entriesI B.st.root
          = E1 ++ (ei, ek, ev) :: rest' from hdec)
      have hderef : iterDeref B ⟨Pos.real ei, B.mid⟩ = Except.ok (ek, ev) := by
        rw [iterDeref, if_neg (by simp)]
        dsimp only
        rw [hread]
      show mergeGo lt B (f + 1) ⟨Pos.real ei, B.mid⟩ acc
        = (((ei, ek, ev) :: rest').map (fun e => e.2)).foldl (insertS lt) acc
      rw [mergeGo, if_neg hne, hderef]
      dsimp only
      cases rest' with
      | nil =>
          have hinc : iterInc B ⟨Pos.real ei, B.mid⟩ = endIt B := by
            rw [iterInc, if_neg hne]
            dsimp only
            rw [hsucc]
            rfl
          rw [hinc]
          exact ih (E1 ++ [(ei, ek, ev)]) f (insertS lt acc (ek, ev))
            (by rw [hdec]; simp)
            (by simp only [List.length_cons, List.length_nil] at hfuel ⊢; omega)
      | cons e2 r2 =>
          have hinc : iterInc B ⟨Pos.real ei, B.mid⟩
              = (⟨Pos.real e2.1, B.mid⟩ : It) := by
            rw [iterInc, if_neg hne]
            dsimp only
            rw [hsucc]
            rfl
          rw [hinc]
          exact ih (E1 ++ [(ei, ek, ev)]) f (insertS lt acc (ek, ev))
            (by rw [hdec]; simp)
            (by simp only [List.length_cons] at hfuel ⊢; omega)

/-- The `mergeMaps` loop from `begin()` with the fuel the code's element
count provides, on any source with distinct node addresses: it folds
`insert` over the full in-order entry sequence of the source. -/
theorem mergeGo_inorder (lt : α → α → Bool) [DecidableEq α] (B : Mp α β)
    (hnd : B.st.root.ids.Nodup) (acc : St α β) :
    mergeGo lt B (B.st.root.sizeT + 1) (beginIt B) acc
      = B.st.root.inorder.foldl (insertS lt) acc := by
  cases hE : entriesI B.st.root with
  | nil =>
      have hroot : B.st.root = Tr.nil := entriesI_eq_nil hE
      have hbeg : beginIt B = ⟨Pos.pnull, B.mid⟩ := by
        rw [beginIt, hroot]
        rfl
      rw [hbeg, hroot]
      show mergeGo lt B 1 ⟨Pos.pnull, B.mid⟩ acc = acc
      rw [mergeGo, if_neg (by
        intro hx
        rw [endIt] at hx
        injection hx with h1 h2
        exact Pos.noConfusion h1)]
      rfl
  | cons e rest =>
      have hbeg : beginIt B = ⟨Pos.real e.1, B.mid⟩ := by
        rw [beginIt, minNode_entries, hE]
        rfl
      have hlen : ((e :: rest) : List (Nat × α × β)).length < B.st.root.sizeT + 1 := by
        rw [← entriesI_length, hE]
        omega
      have h := mergeGo_steps lt B hnd (e :: rest) [] (B.st.root.sizeT + 1) acc
        (by rw [hE]; rfl) hlen
      rw [hbeg]
      rw [show B.st.root.inorder = ((e :: rest).map (fun x => x.2)) from by
        rw [← entriesI_snd, hE]]
      exact h

/-- On a list with duplicate-free keys, `find?` by a present key returns
exactly the entry carrying it. -/
theorem find?_key_of_nodup [DecidableEq α] {l : List (α × β)}
    (hnd : (l.map Prod.fst).Nodup) {k : α} {v : β} (h : (k, v) ∈ l) :
    l.find? (fun p => decide (p.1 = k)) = some (k, v) := by
  induction l with
  | nil => cases h
  | cons a l ih =>
      rw [List.map_cons, List.nodup_cons] at hnd
      by_cases hk : a.1 = k
      · have hav : a = (k, v) := by
          rcases List.mem_cons.mp h with h | h
          · exact h.symm
          · exfalso
            refine hnd.1 ?_
            rw [hk]
            exact List.mem_map_of_mem Prod.fst h
        rw [List.find?_cons_of_pos _ (by simp [hk]), hav]
      · have hmem : (k, v) ∈ l := by
          rcases List.mem_cons.mp h with h | h
          · exact absurd (congrArg Prod.fst h).symm hk
          · exact h
        rw [List.find?_cons_of_neg _ (by simp [hk])]
        exact ih hnd.2 hmem

/-- Reversed variant: the model `find?` the fold characterization uses. -/
theorem find?_reverse_key [DecidableEq α] {l : List (α × β)}
    (hnd : (l.map Prod.fst).Nodup) {k : α} {v : β} (h : (k, v) ∈ l) :
    l.reverse.find? (fun p => decide (p.1 = k)) = some (k, v) :=
  find?_key_of_nodup
    (by rw [List.map_reverse]; exact List.nodup_reverse.mpr hnd)
    (List.mem_reverse.mpr h)

/-! Red-black bookkeeping through the zipper: how the root color, the
red-red freedom and the black height of `plug c f` decompose into a focus
part and a context part, and how a context found by `locate` computes the
pointer operations `setRedAt`, `rotateLeftAt`, `rotateRightAt`. -/

theorem comp_top (c : Ctx α β) : Ctx.comp c Ctx.top = c := by
  induction c <;> simp [Ctx.comp, *]

theorem headColor_comp (c1 c2 : Ctx α β) (v : Bool) :
    headColor (Ctx.comp c1 c2) v = headColor c2 (headColor c1 v) := by
  induction c1 generalizing v <;> simp [Ctx.comp, headColor, *]

theorem headColor_const {c : Ctx α β} (h : c ≠ Ctx.top) (v v' : Bool) :
    headColor c v = headColor c v' := by
  cases c with
  | top => exact absurd rfl h
  | inl p pr pk pv sib up => rfl
  | inr p pr pk pv sib up => rfl

theorem noRRCtxF_comp (c1 c2 : Ctx α β) (v : Bool) :
    noRRCtxF (Ctx.comp c1 c2) v
      = (noRRCtxF c1 v && noRRCtxF c2 (headColor c1 v)) := by
  induction c1 generalizing v with
  | top => simp [Ctx.comp, noRRCtxF, headColor]
  | inl p pr pk pv sib up ih =>
      simp [Ctx.comp, noRRCtxF, headColor, ih, Bool.and_assoc]
  | inr p pr pk pv sib up ih =>
      simp [Ctx.comp, noRRCtxF, headColor, ih, Bool.and_assoc]

theorem ctxBH_comp (c1 c2 : Ctx α β) (n : Nat) :
    ctxBH (Ctx.comp c1 c2) n = (ctxBH c1 n).bind (ctxBH c2) := by
  induction c1 generalizing n with
  | top => simp [Ctx.comp, ctxBH]
  | inl p pr pk pv sib up ih =>
      rw [show Ctx.comp (Ctx.inl p pr pk pv sib up) c2
          = Ctx.inl p pr pk pv sib (Ctx.comp up c2) from rfl]
      rw [ctxBH, ctxBH]
      cases bhOf sib with
      | none => rfl
      | some m =>
          dsimp only
          by_cases hm : m = n
          · rw [if_pos hm, if_pos hm, ih]
          · rw [if_neg hm, if_neg hm]
            rfl
  | inr p pr pk pv sib up ih =>
      rw [show Ctx.comp (Ctx.inr p pr pk pv sib up) c2
          = Ctx.inr p pr pk pv sib (Ctx.comp up c2) from rfl]
      rw [ctxBH, ctxBH]
      cases bhOf sib with
      | none => rfl
      | some m =>
          dsimp only
          by_cases hm : m = n
          · rw [if_pos hm, if_pos hm, ih]
          · rw [if_neg hm, if_neg hm]
            rfl

theorem isRedT_plug (c : Ctx α β) (f : Tr α β) :
    isRedT (Ctx.plug c f) = headColor c (isRedT f) := by
  induction c generalizing f with
  | top => rfl
  | inl p pr pk pv sib up ih =>
      rw [Ctx.plug, ih, show (Tr.nd p pr pk pv f sib).isRedT = pr from rfl]
      rfl
  | inr p pr pk pv sib up ih =>
      rw [Ctx.plug, ih, show (Tr.nd p pr pk pv sib f).isRedT = pr from rfl]
      rfl

theorem noRedRed_plug (c : Ctx α β) (f : Tr α β) :
    noRedRed (Ctx.plug c f) = true
      ↔ (noRedRed f = true ∧ noRRCtxF c (isRedT f) = true) := by
  induction c generalizing f with
  | top => simp [Ctx.plug, noRRCtxF]
  | inl p pr pk pv sib up ih =>
      rw [Ctx.plug, ih (Tr.nd p pr pk pv f sib),
        show (Tr.nd p pr pk pv f sib).isRedT = pr from rfl]
      cases pr <;> cases hf : isRedT f <;> cases hs : isRedT sib <;>
        simp [noRedRed, noRRCtxF, hf, hs] <;> tauto
  | inr p pr pk pv sib up ih =>
      rw [Ctx.plug, ih (Tr.nd p pr pk pv sib f),
        show (Tr.nd p pr pk pv sib f).isRedT = pr from rfl]
      cases pr <;> cases hf : isRedT f <;> cases hs : isRedT sib <;>
        simp [noRedRed, noRRCtxF, hf, hs] <;> tauto

theorem bhOf_plug (c : Ctx α β) (f : Tr α β) :
    bhOf (Ctx.plug c f) = (bhOf f).bind (ctxBH c) := by
  induction c generalizing f with
  | top =>
      show bhOf f = (bhOf f).bind (ctxBH Ctx.top)
      cases hf : bhOf f <;> rfl
  | inl p pr pk pv sib up ih =>
      rw [Ctx.plug, ih]
      rw [show bhOf (Tr.nd p pr pk pv f sib)
          = (match bhOf f, bhOf sib with
              | some a, some b =>
                  if a = b then some (a + (if pr then 0 else 1)) else none
              | _, _ => none) from rfl]
      cases hf : bhOf f with
      | none => rfl
      | some n =>
          rw [show (some n).bind (ctxBH (Ctx.inl p pr pk pv sib up))
              = ctxBH (Ctx.inl p pr pk pv sib up) n from rfl, ctxBH]
          cases hs : bhOf sib with
          | none => rfl
          | some m =>
              dsimp only
              by_cases hm : n = m
              · subst hm
                rw [if_pos rfl, if_pos rfl]
                rfl
              · rw [if_neg hm, if_neg (fun hx => hm hx.symm)]
                rfl
  | inr p pr pk pv sib up ih =>
      rw [Ctx.plug, ih]
      rw [show bhOf (Tr.nd p pr pk pv sib f)
          = (match bhOf sib, bhOf f with
              | some a, some b =>
                  if a = b then some (a + (if pr then 0 else 1)) else none
              | _, _ => none) from rfl]
      cases hf : bhOf f with
      | none =>
          cases bhOf sib <;> rfl
      | some n =>
          rw [show (some n).bind (ctxBH (Ctx.inr p pr pk pv sib up))
              = ctxBH (Ctx.inr p pr pk pv sib up) n from rfl, ctxBH]
          cases hs : bhOf sib with
          | none => rfl
          | some m =>
              dsimp only
              by_cases hm : m = n
              · subst hm
                rw [if_pos rfl, if_pos rfl]
                rfl
              · rw [if_neg hm, if_neg hm]
                rfl

theorem nodup_infix {γ : Type} {L m R : List γ} (h : (L ++ m ++ R).Nodup) :
    m.Nodup := by
  rw [List.append_assoc, List.nodup_append] at h
  exact (List.nodup_append.mp h.2.1).1

theorem nodup_plug_focus {c : Ctx α β} {f : Tr α β}
    (h : (Ctx.plug c f).ids.Nodup) : f.ids.Nodup := by
  obtain ⟨L, R, hLR⟩ := idsC_decomp c
  rw [ids_plug, hLR] at h
  exact nodup_infix h

theorem ids_length_sizeT (t : Tr α β) : t.ids.length = t.sizeT := by
  induction t with
  | nil => rfl
  | nd i r k v l rt ihl ihr =>
      simp [Tr.ids, Tr.sizeT, ihl, ihr]
      omega

theorem ctxLen_le_idsC (c : Ctx α β) (m : List Nat) :
    ctxLen c + m.length ≤ (Ctx.idsC c m).length := by
  induction c generalizing m with
  | top => simp [ctxLen, Ctx.idsC]
  | inl p pr pk pv sib up ih =>
      have h := ih (m ++ p :: sib.ids)
      simp only [List.length_append, List.length_cons] at h
      rw [show Ctx.idsC (Ctx.inl p pr pk pv sib up) m
          = Ctx.idsC up (m ++ p :: sib.ids) from rfl]
      simp only [ctxLen]
      omega
  | inr p pr pk pv sib up ih =>
      have h := ih (sib.ids ++ p :: m)
      simp only [List.length_append, List.length_cons] at h
      rw [show Ctx.idsC (Ctx.inr p pr pk pv sib up) m
          = Ctx.idsC up (sib.ids ++ p :: m) from rfl]
      simp only [ctxLen]
      omega

theorem locate_isSome {t : Tr α β} {x : Nat} (hx : x ∈ t.ids) :
    ∃ z, locate t x Ctx.top = some z := by
  induction t with
  | nil => exact absurd hx (List.not_mem_nil x)
  | nd i r k v l rt ihl ihr =>
      by_cases hix : i = x
      · exact ⟨(Ctx.top, Tr.nd i r k v l rt), by rw [locate, if_pos hix]⟩
      · rw [show (Tr.nd i r k v l rt).ids = l.ids ++ i :: rt.ids from rfl] at hx
        rcases List.mem_append.1 hx with hxl | hxc
        · obtain ⟨z, hz⟩ := ihl hxl
          refine ⟨(Ctx.comp z.1 (Ctx.inl i r k v rt Ctx.top), z.2), ?_⟩
          rw [locate, if_neg hix, locate_ctx l x (Ctx.inl i r k v rt Ctx.top), hz]
          rfl
        · rcases List.mem_cons.1 hxc with hxc | hxr
          · exact absurd hxc.symm hix
          · obtain ⟨z, hz⟩ := ihr hxr
            cases hl2 : locate l x (Ctx.inl i r k v rt Ctx.top) with
            | some z2 =>
                refine ⟨z2, ?_⟩
                rw [locate, if_neg hix, hl2]
            | none =>
                refine ⟨(Ctx.comp z.1 (Ctx.inr i r k v l Ctx.top), z.2), ?_⟩
                rw [locate, if_neg hix, hl2,
                  locate_ctx rt x (Ctx.inr i r k v l Ctx.top), hz]
                rfl

/-- On a tree with distinct addresses, `locate` inverts `plug`: searching
the address of the focus of any decomposition finds that decomposition. -/
theorem locate_plug (c : Ctx α β) (f : Tr α β) (x : Nat)
    (hx : x ∈ f.ids) (hnd : (Ctx.plug c f).ids.Nodup) :
    locate (Ctx.plug c f) x Ctx.top
      = (locate f x Ctx.top).map (fun z => (Ctx.comp z.1 c, z.2)) := by
  induction c generalizing f with
  | top =>
      show locate f x Ctx.top = _
      cases hz : locate f x Ctx.top with
      | none => rfl
      | some z =>
          show some z = some (Ctx.comp z.1 Ctx.top, z.2)
          rw [comp_top]
  | inl p pr pk pv sib up ih =>
      have hx2 : x ∈ (Tr.nd p pr pk pv f sib).ids := by
        rw [show (Tr.nd p pr pk pv f sib).ids = f.ids ++ p :: sib.ids from rfl]
        exact List.mem_append_left _ hx
      rw [show Ctx.plug (Ctx.inl p pr pk pv sib up) f
          = Ctx.plug up (Tr.nd p pr pk pv f sib) from rfl]
      rw [ih (Tr.nd p pr pk pv f sib) hx2 hnd]
      have hsub : (Tr.nd p pr pk pv f sib).ids.Nodup := nodup_plug_focus hnd
      rw [show (Tr.nd p pr pk pv f sib).ids = f.ids ++ p :: sib.ids from rfl,
        List.nodup_append] at hsub
      have hpx : p ≠ x := by
        rintro rfl
        exact hsub.2.2 hx (List.mem_cons_self _ _)
      obtain ⟨z0, hz0⟩ := locate_isSome hx
      rw [show locate (Tr.nd p pr pk pv f sib) x Ctx.top
          = if p = x then some (Ctx.top, Tr.nd p pr pk pv f sib)
            else
              match locate f x (Ctx.inl p pr pk pv sib Ctx.top) with
              | some z => some z
              | none => locate sib x (Ctx.inr p pr pk pv f Ctx.top) from rfl]
      rw [if_neg hpx, locate_ctx f x (Ctx.inl p pr pk pv sib Ctx.top), hz0]
      show some (Ctx.comp (Ctx.comp z0.1 (Ctx.inl p pr pk pv sib Ctx.top)) up, z0.2)
        = some (Ctx.comp z0.1 (Ctx.inl p pr pk pv sib up), z0.2)
      rw [comp_assoc]
      rfl
  | inr p pr pk pv sib up ih =>
      have hx2 : x ∈ (Tr.nd p pr pk pv sib f).ids := by
        rw [show (Tr.nd p pr pk pv sib f).ids = sib.ids ++ p :: f.ids from rfl]
        exact List.mem_append_right _ (List.mem_cons_of_mem _ hx)
      rw [show Ctx.plug (Ctx.inr p pr pk pv sib up) f
          = Ctx.plug up (Tr.nd p pr pk pv sib f) from rfl]
      rw [ih (Tr.nd p pr pk pv sib f) hx2 hnd]
      have hsub : (Tr.nd p pr pk pv sib f).ids.Nodup := nodup_plug_focus hnd
      rw [show (Tr.nd p pr pk pv sib f).ids = sib.ids ++ p :: f.ids from rfl,
        List.nodup_append] at hsub
      have hpx : p ≠ x := by
        rintro rfl
        have := hsub.2.1
        rw [List.nodup_cons] at this
        exact this.1 hx
      have hxs : locate sib x (Ctx.inl p pr pk pv f Ctx.top) = none := by
        refine locate_not_mem ?_ _
        intro hxm
        exact hsub.2.2 hxm (List.mem_cons_of_mem _ hx)
      obtain ⟨z0, hz0⟩ := locate_isSome hx
      rw [show locate (Tr.nd p pr pk pv sib f) x Ctx.top
          = if p = x then some (Ctx.top, Tr.nd p pr pk pv sib f)
            else
              match locate sib x (Ctx.inl p pr pk pv f Ctx.top) with
              | some z => some z
              | none => locate f x (Ctx.inr p pr pk pv sib Ctx.top) from rfl]
      rw [if_neg hpx, hxs, locate_ctx f x (Ctx.inr p pr pk pv sib Ctx.top), hz0]
      show some (Ctx.comp (Ctx.comp z0.1 (Ctx.inr p pr pk pv sib Ctx.top)) up, z0.2)
        = some (Ctx.comp z0.1 (Ctx.inr p pr pk pv sib up), z0.2)
      rw [comp_assoc]
      rfl

/-- Dereferencing the focus address of a decomposition of a
distinct-address tree. -/
theorem locate_plug_nodup {t : Tr α β} {c : Ctx α β} {x : Nat} {rb : Bool}
    {k : α} {v : β} {l r : Tr α β}
    (hnd : t.ids.Nodup) (ht : t = Ctx.plug c (Tr.nd x rb k v l r)) :
    locate t x Ctx.top = some (c, Tr.nd x rb k v l r) := by
  subst ht
  rw [locate_plug c _ x (by
    rw [show (Tr.nd x rb k v l r).ids = l.ids ++ x :: r.ids from rfl]
    exact List.mem_append_right _ (List.mem_cons_self _ _)) hnd]
  rw [show locate (Tr.nd x rb k v l r) x Ctx.top
      = some (Ctx.top, Tr.nd x rb k v l r) from by rw [locate, if_pos rfl]]
  rfl

/-- `node->isRed = b` on a decomposition. -/
theorem setRedAt_plug {t : Tr α β} {c : Ctx α β} {x : Nat} {rb : Bool}
    {k : α} {v : β} {l r : Tr α β} (b : Bool)
    (hnd : t.ids.Nodup) (ht : t = Ctx.plug c (Tr.nd x rb k v l r)) :
    setRedAt t x b = Ctx.plug c (Tr.nd x b k v l r) := by
  rw [setRedAt, locate_plug_nodup hnd ht]

/-- `RotateLeft` on a decomposition with a real right child. -/
theorem rotateLeftAt_plug {t : Tr α β} {c : Ctx α β} {x y : Nat}
    {rb rb2 : Bool} {k k2 : α} {v v2 : β} {a b d : Tr α β}
    (hnd : t.ids.Nodup)
    (ht : t = Ctx.plug c (Tr.nd x rb k v a (Tr.nd y rb2 k2 v2 b d))) :
    rotateLeftAt t x = Ctx.plug c (Tr.nd y rb2 k2 v2 (Tr.nd x rb k v a b) d) := by
  rw [rotateLeftAt, locate_plug_nodup hnd ht]

/-- `RotateRight` on a decomposition with a real left child. -/
theorem rotateRightAt_plug {t : Tr α β} {c : Ctx α β} {x y : Nat}
    {rb rb2 : Bool} {k k2 : α} {v v2 : β} {a b d : Tr α β}
    (hnd : t.ids.Nodup)
    (ht : t = Ctx.plug c (Tr.nd x rb k v (Tr.nd y rb2 k2 v2 a b) d)) :
    rotateRightAt t x = Ctx.plug c (Tr.nd y rb2 k2 v2 a (Tr.nd x rb k v b d)) := by
  rw [rotateRightAt, locate_plug_nodup hnd ht]

/-- `node->rightNode` read through a decomposition. -/
theorem readRightId_plug {t : Tr α β} {c : Ctx α β} {x : Nat} {rb : Bool}
    {k : α} {v : β} {l r : Tr α β}
    (hnd : t.ids.Nodup) (ht : t = Ctx.plug c (Tr.nd x rb k v l r)) :
    readRightId t x = idT r := by
  rw [readRightId, readNd, locate_plug_nodup hnd ht]
  rfl

/-- `node->leftNode` read through a decomposition. -/
theorem readLeftId_plug {t : Tr α β} {c : Ctx α β} {x : Nat} {rb : Bool}
    {k : α} {v : β} {l r : Tr α β}
    (hnd : t.ids.Nodup) (ht : t = Ctx.plug c (Tr.nd x rb k v l r)) :
    readLeftId t x = idT l := by
  rw [readLeftId, readNd, locate_plug_nodup hnd ht]
  rfl

theorem bhOf_nd_some {l r : Tr α β} {i : Nat} {cb : Bool} {k : α} {v : β} {a : Nat}
    (hl : bhOf l = some a) (hr : bhOf r = some a) :
    bhOf (Tr.nd i cb k v l r) = some (a + (if cb then 0 else 1)) := by
  rw [show bhOf (Tr.nd i cb k v l r)
      = (match bhOf l, bhOf r with
          | some a, some b => if a = b then some (a + (if cb then 0 else 1)) else none
          | _, _ => none) from rfl, hl, hr]
  simp

theorem bhOf_nd_inv {l r : Tr α β} {i : Nat} {cb : Bool} {k : α} {v : β} {m : Nat}
    (h : bhOf (Tr.nd i cb k v l r) = some m) :
    ∃ a, bhOf l = some a ∧ bhOf r = some a ∧ m = a + (if cb then 0 else 1) := by
  rw [show bhOf (Tr.nd i cb k v l r)
      = (match bhOf l, bhOf r with
          | some a, some b => if a = b then some (a + (if cb then 0 else 1)) else none
          | _, _ => none) from rfl] at h
  cases hl : bhOf l with
  | none =>
      rw [hl] at h
      cases h
  | some a =>
      cases hr : bhOf r with
      | none =>
          rw [hl, hr] at h
          cases h
      | some b =>
          rw [hl, hr] at h
          dsimp only at h
          by_cases hab : a = b
          · refine ⟨a, rfl, by rw [hab], ?_⟩
            rw [if_pos hab] at h
            exact (Option.some.inj h).symm
          · rw [if_neg hab] at h
            cases h

theorem isSome_of_bind {γ δ : Type} {x : Option γ} {f : γ → Option δ}
    (h : (x.bind f).isSome = true) : ∃ a, x = some a ∧ (f a).isSome = true := by
  cases hx : x with
  | none =>
      rw [hx] at h
      cases h
  | some a =>
      rw [hx] at h
      exact ⟨a, rfl, h⟩

/-- `InsertRepair` on a black node of a black-rooted tree with distinct
addresses is the identity: every branch returns without writing. -/
theorem insertRepair_black {t : Tr α β} {c : Ctx α β} {x : Nat} {k : α} {v : β}
    {l r : Tr α β} (fuel : Nat)
    (hnd : t.ids.Nodup) (ht : t = Ctx.plug c (Tr.nd x false k v l r))
    (hroot : isRedT t = false) :
    insertRepair fuel t x = t := by
  cases fuel with
  | zero => rfl
  | succ fuel =>
      have hloc := locate_plug_nodup hnd ht
      rw [insertRepair, hloc]
      dsimp only
      cases c with
      | top =>
          dsimp only [frameOf]
          rw [setRedAt_plug false hnd ht]
          exact ht.symm
      | inl p pr pk pv sib up =>
          dsimp only [frameOf]
          cases up with
          | top =>
              dsimp only [frameOf]
              have hpr : pr = false := by
                rw [ht, isRedT_plug] at hroot
                exact hroot
              subst hpr
              rw [setRedAt_plug false hnd
                (show t = Ctx.plug Ctx.top
                  (Tr.nd p false pk pv (Tr.nd x false k v l r) sib) from ht)]
              exact ht.symm
          | inl g gr gk gv uncle up2 =>
              dsimp only [frameOf]
              by_cases hpr : (!pr) = true
              · rw [if_pos hpr]
              · rw [if_neg hpr, if_neg (by simp [isRedT]), if_neg (by simp [isRedT])]
          | inr g gr gk gv uncle up2 =>
              dsimp only [frameOf]
              by_cases hpr : (!pr) = true
              · rw [if_pos hpr]
              · rw [if_neg hpr, if_neg (by simp [isRedT]), if_neg (by simp [isRedT])]
      | inr p pr pk pv sib up =>
          dsimp only [frameOf]
          cases up with
          | top =>
              dsimp only [frameOf]
              have hpr : pr = false := by
                rw [ht, isRedT_plug] at hroot
                exact hroot
              subst hpr
              rw [setRedAt_plug false hnd
                (show t = Ctx.plug Ctx.top
                  (Tr.nd p false pk pv sib (Tr.nd x false k v l r)) from ht)]
              exact ht.symm
          | inl g gr gk gv uncle up2 =>
              dsimp only [frameOf]
              by_cases hpr : (!pr) = true
              · rw [if_pos hpr]
              · rw [if_neg hpr, if_neg (by simp [isRedT]), if_neg (by simp [isRedT])]
          | inr g gr gk gv uncle up2 =>
              dsimp only [frameOf]
              by_cases hpr : (!pr) = true
              · rw [if_pos hpr]
              · rw [if_neg hpr, if_neg (by simp [isRedT]), if_neg (by simp [isRedT])]

/-- `InsertRepair` on the left-left line configuration (red focus, red
parent as left child of a black grandparent, black uncle, focus on the
parent's left): the stale-pointer re-check fires its left branch, the
parent is blackened, the grandparent reddened and rotated right, and the
final recursion on the now-black parent returns unchanged. -/
theorem insertRepair_lineLL {t : Tr α β} {up2 : Ctx α β} {g p x : Nat}
    {gk pk k : α} {gv pv v : β} {sib uncle l r : Tr α β} (fuel : Nat)
    (hnd : t.ids.Nodup)
    (ht : t = Ctx.plug up2
      (Tr.nd g false gk gv
        (Tr.nd p true pk pv (Tr.nd x true k v l r) sib) uncle))
    (hroot : isRedT t = false)
    (hu : isRedT uncle = false) :
    insertRepair (fuel + 1) t x
      = Ctx.plug up2
          (Tr.nd p false pk pv (Tr.nd x true k v l r)
            (Tr.nd g true gk gv sib uncle)) := by
  have hc : t = Ctx.plug
      (Ctx.inl p true pk pv sib (Ctx.inl g false gk gv uncle up2))
      (Tr.nd x true k v l r) := ht
  have hloc := locate_plug_nodup hnd hc
  rw [insertRepair, hloc]
  dsimp only [frameOf]
  have e1 : ¬((!true) = true) := by decide
  rw [if_neg e1]
  have e2 : ¬((isRedT (Tr.nd x true k v l r) && true && isRedT uncle) = true) := by
    simp [show isRedT (Tr.nd x true k v l r) = true from rfl, hu]
  rw [if_neg e2]
  have e3 : (isRedT (Tr.nd x true k v l r) && true && !isRedT uncle) = true := by
    simp [show isRedT (Tr.nd x true k v l r) = true from rfl, hu]
  rw [if_pos e3]
  have e4 : ¬((!true && true) = true) := by decide
  rw [if_neg e4]
  have e5 : ¬((true && !true) = true) := by decide
  rw [if_neg e5]
  have hrr : readRightId t g = idT uncle := readRightId_plug hnd ht
  have hup : idT uncle ≠ some p := by
    have hndF := nodup_plug_focus (ht ▸ hnd)
    cases uncle with
    | nil => simp [idT]
    | nd u ub uk2 uv2 ul ur =>
        intro hx2
        have hu2 : u = p := Option.some.inj hx2
        rw [show (Tr.nd g false gk gv
            (Tr.nd p true pk pv (Tr.nd x true k v l r) sib)
            (Tr.nd u ub uk2 uv2 ul ur)).ids
            = ((Tr.nd x true k v l r).ids ++ p :: sib.ids)
              ++ g :: (ul.ids ++ u :: ur.ids) from rfl,
          List.nodup_append] at hndF
        have hp1 : p ∈ (Tr.nd x true k v l r).ids ++ p :: sib.ids := by simp
        have hp2 : p ∈ g :: (ul.ids ++ u :: ur.ids) := by simp [hu2]
        exact hndF.2.2 hp1 hp2
  have e6 : ¬((readRightId t g = some p && readRightId t p = some x) = true) := by
    simp only [Bool.and_eq_true, decide_eq_true_eq]
    intro hcc
    exact absurd (hrr ▸ hcc.1) hup
  rw [if_neg e6]
  have htp : t = Ctx.plug (Ctx.inl g false gk gv uncle up2)
      (Tr.nd p true pk pv (Tr.nd x true k v l r) sib) := ht
  have hlg : readLeftId t g = some p := by
    rw [readLeftId_plug hnd ht]
    rfl
  have hlp : readLeftId t p = some x := by
    rw [readLeftId_plug hnd htp]
    rfl
  have e7 : ((readLeftId t g = some p && readLeftId t p = some x) = true) := by
    simp [hlg, hlp]
  rw [if_pos e7]
  rw [setRedAt_plug false hnd htp]
  have hnd3 : (Ctx.plug (Ctx.inl g false gk gv uncle up2)
      (Tr.nd p false pk pv (Tr.nd x true k v l r) sib)).ids.Nodup := by
    have hnd2 := hnd
    rw [htp, ids_plug] at hnd2
    rw [ids_plug]
    exact hnd2
  rw [setRedAt_plug true hnd3
    (show Ctx.plug (Ctx.inl g false gk gv uncle up2)
        (Tr.nd p false pk pv (Tr.nd x true k v l r) sib)
      = Ctx.plug up2 (Tr.nd g false gk gv
          (Tr.nd p false pk pv (Tr.nd x true k v l r) sib) uncle) from rfl)]
  have hnd4 : (Ctx.plug up2 (Tr.nd g true gk gv
      (Tr.nd p false pk pv (Tr.nd x true k v l r) sib) uncle)).ids.Nodup := by
    have hnd2 := hnd
    rw [ht, ids_plug] at hnd2
    rw [ids_plug]
    exact hnd2
  rw [rotateRightAt_plug hnd4 rfl]
  have hnd5 : (Ctx.plug up2 (Tr.nd p false pk pv (Tr.nd x true k v l r)
      (Tr.nd g true gk gv sib uncle))).ids.Nodup := by
    have hnd2 := hnd
    rw [ht, ids_plug] at hnd2
    rw [ids_plug]
    rw [show (Tr.nd p false pk pv (Tr.nd x true k v l r)
        (Tr.nd g true gk gv sib uncle)).ids
        = (Tr.nd g false gk gv
            (Tr.nd p true pk pv (Tr.nd x true k v l r) sib) uncle).ids from by
      simp [Tr.ids]]
    exact hnd2
  have hroot5 : isRedT (Ctx.plug up2 (Tr.nd p false pk pv (Tr.nd x true k v l r)
      (Tr.nd g true gk gv sib uncle))) = false := by
    rw [isRedT_plug]
    rw [ht, isRedT_plug] at hroot
    exact hroot
  exact insertRepair_black fuel hnd5 rfl hroot5

/-- Mirror of `insertRepair_lineLL`: the right-right line configuration,
resolved by the first stale-pointer re-check and a left rotation. -/
theorem insertRepair_lineRR {t : Tr α β} {up2 : Ctx α β} {g p x : Nat}
    {gk pk k : α} {gv pv v : β} {sib uncle l r : Tr α β} (fuel : Nat)
    (hnd : t.ids.Nodup)
    (ht : t = Ctx.plug up2
      (Tr.nd g false gk gv uncle
        (Tr.nd p true pk pv sib (Tr.nd x true k v l r))))
    (hroot : isRedT t = false)
    (hu : isRedT uncle = false) :
    insertRepair (fuel + 1) t x
      = Ctx.plug up2
          (Tr.nd p false pk pv (Tr.nd g true gk gv uncle sib)
            (Tr.nd x true k v l r)) := by
  have hc : t = Ctx.plug
      (Ctx.inr p true pk pv sib (Ctx.inr g false gk gv uncle up2))
      (Tr.nd x true k v l r) := ht
  have hloc := locate_plug_nodup hnd hc
  rw [insertRepair, hloc]
  dsimp only [frameOf]
  have e1 : ¬((!true) = true) := by decide
  rw [if_neg e1]
  have e2 : ¬((isRedT (Tr.nd x true k v l r) && true && isRedT uncle) = true) := by
    simp [show isRedT (Tr.nd x true k v l r) = true from rfl, hu]
  rw [if_neg e2]
  have e3 : (isRedT (Tr.nd x true k v l r) && true && !isRedT uncle) = true := by
    simp [show isRedT (Tr.nd x true k v l r) = true from rfl, hu]
  rw [if_pos e3]
  have e4 : ¬((!false && false) = true) := by decide
  rw [if_neg e4]
  have e5 : ¬((false && !false) = true) := by decide
  rw [if_neg e5]
  have htp : t = Ctx.plug (Ctx.inr g false gk gv uncle up2)
      (Tr.nd p true pk pv sib (Tr.nd x true k v l r)) := ht
  have hrg : readRightId t g = some p := by
    rw [readRightId_plug hnd ht]
    rfl
  have hrp : readRightId t p = some x := by
    rw [readRightId_plug hnd htp]
    rfl
  have e6 : ((readRightId t g = some p && readRightId t p = some x) = true) := by
    simp [hrg, hrp]
  rw [if_pos e6]
  rw [setRedAt_plug false hnd htp]
  have hnd3 : (Ctx.plug (Ctx.inr g false gk gv uncle up2)
      (Tr.nd p false pk pv sib (Tr.nd x true k v l r))).ids.Nodup := by
    have hnd2 := hnd
    rw [htp, ids_plug] at hnd2
    rw [ids_plug]
    exact hnd2
  rw [setRedAt_plug true hnd3
    (show Ctx.plug (Ctx.inr g false gk gv uncle up2)
        (Tr.nd p false pk pv sib (Tr.nd x true k v l r))
      = Ctx.plug up2 (Tr.nd g false gk gv uncle
          (Tr.nd p false pk pv sib (Tr.nd x true k v l r))) from rfl)]
  have hnd4 : (Ctx.plug up2 (Tr.nd g true gk gv uncle
      (Tr.nd p false pk pv sib (Tr.nd x true k v l r)))).ids.Nodup := by
    have hnd2 := hnd
    rw [ht, ids_plug] at hnd2
    rw [ids_plug]
    exact hnd2
  rw [rotateLeftAt_plug hnd4 rfl]
  have hnd5 : (Ctx.plug up2 (Tr.nd p false pk pv (Tr.nd g true gk gv uncle sib)
      (Tr.nd x true k v l r))).ids.Nodup := by
    have hnd2 := hnd
    rw [ht, ids_plug] at hnd2
    rw [ids_plug]
    rw [show (Tr.nd p false pk pv (Tr.nd g true gk gv uncle sib)
        (Tr.nd x true k v l r)).ids
        = (Tr.nd g false gk gv uncle
            (Tr.nd p true pk pv sib (Tr.nd x true k v l r))).ids from by
      simp [Tr.ids]]
    exact hnd2
  have hroot5 : isRedT (Ctx.plug up2 (Tr.nd p false pk pv
      (Tr.nd g true gk gv uncle sib) (Tr.nd x true k v l r))) = false := by
    rw [isRedT_plug]
    rw [ht, isRedT_plug] at hroot
    exact hroot
  exact insertRepair_black fuel hnd5 rfl hroot5

/-! One-step characterizations of the remaining `InsertRepair` paths,
generic in the orientation: the focus is the root, the parent is the root,
the parent is black, or the uncle is red. -/

theorem insertRepair_step_root {t : Tr α β} {x : Nat} {ctx : Ctx α β}
    {foc : Tr α β} (fuel : Nat)
    (hloc : locate t x Ctx.top = some (ctx, foc))
    (hfc : frameOf ctx = none) :
    insertRepair (fuel + 1) t x = setRedAt t x false := by
  rw [insertRepair, hloc]
  dsimp only
  rw [hfc]

theorem insertRepair_step_rootparent {t : Tr α β} {x p : Nat} {ctx up : Ctx α β}
    {foc psib : Tr α β} {pr nl : Bool} (fuel : Nat)
    (hloc : locate t x Ctx.top = some (ctx, foc))
    (hfc : frameOf ctx = some (p, pr, psib, nl, up))
    (hfu : frameOf up = none) :
    insertRepair (fuel + 1) t x = setRedAt t p false := by
  rw [insertRepair, hloc]
  dsimp only
  rw [hfc]
  dsimp only
  rw [hfu]

theorem insertRepair_step_parentBlack {t : Tr α β} {x p g : Nat}
    {ctx up up2 : Ctx α β} {foc psib uncle : Tr α β} {nl gr pl : Bool} (fuel : Nat)
    (hloc : locate t x Ctx.top = some (ctx, foc))
    (hfc : frameOf ctx = some (p, false, psib, nl, up))
    (hfu : frameOf up = some (g, gr, uncle, pl, up2)) :
    insertRepair (fuel + 1) t x = t := by
  rw [insertRepair, hloc]
  dsimp only
  rw [hfc]
  dsimp only
  rw [hfu]
  dsimp only
  rw [if_pos (by decide)]

theorem insertRepair_step_uncleRed {t : Tr α β} {x p g u : Nat}
    {ctx up up2 : Ctx α β} {foc psib uncle : Tr α β} {nl gr pl : Bool} (fuel : Nat)
    (hloc : locate t x Ctx.top = some (ctx, foc))
    (hfc : frameOf ctx = some (p, true, psib, nl, up))
    (hfu : frameOf up = some (g, gr, uncle, pl, up2))
    (hfoc : isRedT foc = true) (hured : isRedT uncle = true)
    (hid : idT uncle = some u) :
    insertRepair (fuel + 1) t x
      = insertRepair fuel (setRedAt (setRedAt (setRedAt t p false) u false) g true) g := by
  rw [insertRepair, hloc]
  dsimp only
  rw [hfc]
  dsimp only
  rw [hfu]
  dsimp only
  rw [if_neg (by decide), if_pos (by simp [hfoc, hured]), hid]

theorem nodup_not_mem_of_cons {γ : Type} {a : γ} {L M : List γ}
    (h : (L ++ a :: M).Nodup) : a ∉ M := by
  rw [List.nodup_append] at h
  exact (List.nodup_cons.mp h.2.1).1

theorem idT_ne_of_disj {f : Tr α β} {p : Nat} (h : p ∉ f.ids) :
    idT f ≠ some p := by
  cases f with
  | nil => simp [idT]
  | nd i rb k v l r =>
      intro hx
      have hip : i = p := Option.some.inj hx
      refine h ?_
      rw [← hip]
      simp [Tr.ids]

/-- `InsertRepair` on the left-right triangle: the pre-rotation at the
parent turns it into a left-left line, the recursion on the parent repairs
it, and both stale-pointer re-checks then read the repaired tree and fail,
returning it unchanged. -/
theorem insertRepair_triLR {t : Tr α β} {up2 : Ctx α β} {g p x : Nat}
    {gk pk k : α} {gv pv v : β} {sib uncle l r : Tr α β} (fuel : Nat)
    (hnd : t.ids.Nodup)
    (ht : t = Ctx.plug up2
      (Tr.nd g false gk gv
        (Tr.nd p true pk pv sib (Tr.nd x true k v l r)) uncle))
    (hroot : isRedT t = false)
    (hu : isRedT uncle = false) :
    insertRepair (fuel + 2) t x
      = Ctx.plug up2
          (Tr.nd x false k v (Tr.nd p true pk pv sib l)
            (Tr.nd g true gk gv r uncle)) := by
  have hc : t = Ctx.plug
      (Ctx.inr p true pk pv sib (Ctx.inl g false gk gv uncle up2))
      (Tr.nd x true k v l r) := ht
  have hloc := locate_plug_nodup hnd hc
  rw [show fuel + 2 = (fuel + 1) + 1 from rfl, insertRepair, hloc]
  dsimp only [frameOf]
  have e1 : ¬((!true) = true) := by decide
  rw [if_neg e1]
  have e2 : ¬((isRedT (Tr.nd x true k v l r) && true && isRedT uncle) = true) := by
    simp [show isRedT (Tr.nd x true k v l r) = true from rfl, hu]
  rw [if_neg e2]
  have e3 : (isRedT (Tr.nd x true k v l r) && true && !isRedT uncle) = true := by
    simp [show isRedT (Tr.nd x true k v l r) = true from rfl, hu]
  rw [if_pos e3]
  have e4 : ¬((!true && false) = true) := by decide
  rw [if_neg e4]
  have e5 : ((true && !false) = true) := by decide
  rw [if_pos e5]
  have htp : t = Ctx.plug (Ctx.inl g false gk gv uncle up2)
      (Tr.nd p true pk pv sib (Tr.nd x true k v l r)) := ht
  rw [rotateLeftAt_plug hnd htp]
  have hidT : (Ctx.plug (Ctx.inl g false gk gv uncle up2)
      (Tr.nd x true k v (Tr.nd p true pk pv sib l) r)).ids = t.ids := by
    rw [ht]
    rw [show Ctx.plug (Ctx.inl g false gk gv uncle up2)
        (Tr.nd x true k v (Tr.nd p true pk pv sib l) r)
        = Ctx.plug up2 (Tr.nd g false gk gv
            (Tr.nd x true k v (Tr.nd p true pk pv sib l) r) uncle) from rfl]
    rw [ids_plug, ids_plug]
    exact idsC_congr (by simp [Tr.ids])
  have hndT : (Ctx.plug (Ctx.inl g false gk gv uncle up2)
      (Tr.nd x true k v (Tr.nd p true pk pv sib l) r)).ids.Nodup := by
    rw [hidT]
    exact hnd
  have hrootT : isRedT (Ctx.plug (Ctx.inl g false gk gv uncle up2)
      (Tr.nd x true k v (Tr.nd p true pk pv sib l) r)) = false := by
    rw [isRedT_plug]
    rw [ht, isRedT_plug] at hroot
    exact hroot
  rw [insertRepair_lineLL fuel hndT rfl hrootT hu]
  have hidR : (Ctx.plug up2 (Tr.nd x false k v (Tr.nd p true pk pv sib l)
      (Tr.nd g true gk gv r uncle))).ids = t.ids := by
    rw [ht, ids_plug, ids_plug]
    exact idsC_congr (by simp [Tr.ids])
  have hndR : (Ctx.plug up2 (Tr.nd x false k v (Tr.nd p true pk pv sib l)
      (Tr.nd g true gk gv r uncle))).ids.Nodup := by
    rw [hidR]
    exact hnd
  have hRg : Ctx.plug up2 (Tr.nd x false k v (Tr.nd p true pk pv sib l)
      (Tr.nd g true gk gv r uncle))
      = Ctx.plug (Ctx.inr x false k v (Tr.nd p true pk pv sib l) up2)
          (Tr.nd g true gk gv r uncle) := rfl
  have hfocnd : (Tr.nd g false gk gv
      (Tr.nd p true pk pv sib (Tr.nd x true k v l r)) uncle).ids.Nodup :=
    nodup_plug_focus (ht ▸ hnd)
  have hpM : p ∉ ((l.ids ++ x :: r.ids) ++ g :: uncle.ids) := by
    refine nodup_not_mem_of_cons (L := sib.ids) ?_
    rw [show sib.ids ++ p :: ((l.ids ++ x :: r.ids) ++ g :: uncle.ids)
        = (Tr.nd g false gk gv
            (Tr.nd p true pk pv sib (Tr.nd x true k v l r)) uncle).ids from by
      simp [Tr.ids]]
    exact hfocnd
  have hpu : idT uncle ≠ some p := idT_ne_of_disj (fun hx => hpM (by simp [hx]))
  have hpr2 : idT r ≠ some p := idT_ne_of_disj (fun hx => hpM (by simp [hx]))
  have hrrR : readRightId (Ctx.plug up2 (Tr.nd x false k v
      (Tr.nd p true pk pv sib l) (Tr.nd g true gk gv r uncle))) g = idT uncle :=
    readRightId_plug hndR hRg
  have e6 : ¬((readRightId (Ctx.plug up2 (Tr.nd x false k v
      (Tr.nd p true pk pv sib l) (Tr.nd g true gk gv r uncle))) g = some p
      && readRightId (Ctx.plug up2 (Tr.nd x false k v
      (Tr.nd p true pk pv sib l) (Tr.nd g true gk gv r uncle))) p = some x)
      = true) := by
    simp only [hrrR, Bool.and_eq_true, decide_eq_true_eq]
    intro hcc
    exact hpu hcc.1
  rw [if_neg e6]
  have hlgR : readLeftId (Ctx.plug up2 (Tr.nd x false k v
      (Tr.nd p true pk pv sib l) (Tr.nd g true gk gv r uncle))) g = idT r :=
    readLeftId_plug hndR hRg
  have e7 : ¬((readLeftId (Ctx.plug up2 (Tr.nd x false k v
      (Tr.nd p true pk pv sib l) (Tr.nd g true gk gv r uncle))) g = some p
      && readLeftId (Ctx.plug up2 (Tr.nd x false k v
      (Tr.nd p true pk pv sib l) (Tr.nd g true gk gv r uncle))) p = some x)
      = true) := by
    simp only [hlgR, Bool.and_eq_true, decide_eq_true_eq]
    intro hcc
    exact hpr2 hcc.1
  rw [if_neg e7]

/-- Mirror of `insertRepair_triLR`: the right-left triangle. -/
theorem insertRepair_triRL {t : Tr α β} {up2 : Ctx α β} {g p x : Nat}
    {gk pk k : α} {gv pv v : β} {sib uncle l r : Tr α β} (fuel : Nat)
    (hnd : t.ids.Nodup)
    (ht : t = Ctx.plug up2
      (Tr.nd g false gk gv uncle
        (Tr.nd p true pk pv (Tr.nd x true k v l r) sib)))
    (hroot : isRedT t = false)
    (hu : isRedT uncle = false) :
    insertRepair (fuel + 2) t x
      = Ctx.plug up2
          (Tr.nd x false k v (Tr.nd g true gk gv uncle l)
            (Tr.nd p true pk pv r sib)) := by
  have hc : t = Ctx.plug
      (Ctx.inl p true pk pv sib (Ctx.inr g false gk gv uncle up2))
      (Tr.nd x true k v l r) := ht
  have hloc := locate_plug_nodup hnd hc
  rw [show fuel + 2 = (fuel + 1) + 1 from rfl, insertRepair, hloc]
  dsimp only [frameOf]
  have e1 : ¬((!true) = true) := by decide
  rw [if_neg e1]
  have e2 : ¬((isRedT (Tr.nd x true k v l r) && true && isRedT uncle) = true) := by
    simp [show isRedT (Tr.nd x true k v l r) = true from rfl, hu]
  rw [if_neg e2]
  have e3 : (isRedT (Tr.nd x true k v l r) && true && !isRedT uncle) = true := by
    simp [show isRedT (Tr.nd x true k v l r) = true from rfl, hu]
  rw [if_pos e3]
  have e4 : ((!false && true) = true) := by decide
  rw [if_pos e4]
  have htp : t = Ctx.plug (Ctx.inr g false gk gv uncle up2)
      (Tr.nd p true pk pv (Tr.nd x true k v l r) sib) := ht
  rw [rotateRightAt_plug hnd htp]
  have hidT : (Ctx.plug (Ctx.inr g false gk gv uncle up2)
      (Tr.nd x true k v l (Tr.nd p true pk pv r sib))).ids = t.ids := by
    rw [ht]
    rw [show Ctx.plug (Ctx.inr g false gk gv uncle up2)
        (Tr.nd x true k v l (Tr.nd p true pk pv r sib))
        = Ctx.plug up2 (Tr.nd g false gk gv uncle
            (Tr.nd x true k v l (Tr.nd p true pk pv r sib))) from rfl]
    rw [ids_plug, ids_plug]
    exact idsC_congr (by simp [Tr.ids])
  have hndT : (Ctx.plug (Ctx.inr g false gk gv uncle up2)
      (Tr.nd x true k v l (Tr.nd p true pk pv r sib))).ids.Nodup := by
    rw [hidT]
    exact hnd
  have hrootT : isRedT (Ctx.plug (Ctx.inr g false gk gv uncle up2)
      (Tr.nd x true k v l (Tr.nd p true pk pv r sib))) = false := by
    rw [isRedT_plug]
    rw [ht, isRedT_plug] at hroot
    exact hroot
  rw [insertRepair_lineRR fuel hndT rfl hrootT hu]
  have hidR : (Ctx.plug up2 (Tr.nd x false k v (Tr.nd g true gk gv uncle l)
      (Tr.nd p true pk pv r sib))).ids = t.ids := by
    rw [ht, ids_plug, ids_plug]
    exact idsC_congr (by simp [Tr.ids])
  have hndR : (Ctx.plug up2 (Tr.nd x false k v (Tr.nd g true gk gv uncle l)
      (Tr.nd p true pk pv r sib))).ids.Nodup := by
    rw [hidR]
    exact hnd
  have hRg : Ctx.plug up2 (Tr.nd x false k v (Tr.nd g true gk gv uncle l)
      (Tr.nd p true pk pv r sib))
      = Ctx.plug (Ctx.inl x false k v (Tr.nd p true pk pv r sib) up2)
          (Tr.nd g true gk gv uncle l) := rfl
  have hfocnd : (Tr.nd g false gk gv uncle
      (Tr.nd p true pk pv (Tr.nd x true k v l r) sib)).ids.Nodup :=
    nodup_plug_focus (ht ▸ hnd)
  have hpM : p ∉ (uncle.ids ++ g :: (l.ids ++ x :: r.ids)) := by
    have h2 : ((uncle.ids ++ g :: (l.ids ++ x :: r.ids)) ++ p :: sib.ids).Nodup := by
      rw [show (uncle.ids ++ g :: (l.ids ++ x :: r.ids)) ++ p :: sib.ids
          = (Tr.nd g false gk gv uncle
              (Tr.nd p true pk pv (Tr.nd x true k v l r) sib)).ids from by
        simp [Tr.ids]]
      exact hfocnd
    rw [List.nodup_append] at h2
    intro hpmem
    exact h2.2.2 hpmem (List.mem_cons_self _ _)
  have hpu : idT uncle ≠ some p := idT_ne_of_disj (fun hx => hpM (by simp [hx]))
  have hpl2 : idT l ≠ some p := idT_ne_of_disj (fun hx => hpM (by simp [hx]))
  have hrrR : readRightId (Ctx.plug up2 (Tr.nd x false k v
      (Tr.nd g true gk gv uncle l) (Tr.nd p true pk pv r sib))) g = idT l :=
    readRightId_plug hndR hRg
  have e6 : ¬((readRightId (Ctx.plug up2 (Tr.nd x false k v
      (Tr.nd g true gk gv uncle l) (Tr.nd p true pk pv r sib))) g = some p
      && readRightId (Ctx.plug up2 (Tr.nd x false k v
      (Tr.nd g true gk gv uncle l) (Tr.nd p true pk pv r sib))) p = some x)
      = true) := by
    simp only [hrrR, Bool.and_eq_true, decide_eq_true_eq]
    intro hcc
    exact hpl2 hcc.1
  rw [if_neg e6]
  have hlgR : readLeftId (Ctx.plug up2 (Tr.nd x false k v
      (Tr.nd g true gk gv uncle l) (Tr.nd p true pk pv r sib))) g = idT uncle :=
    readLeftId_plug hndR hRg
  have e7 : ¬((readLeftId (Ctx.plug up2 (Tr.nd x false k v
      (Tr.nd g true gk gv uncle l) (Tr.nd p true pk pv r sib))) g = some p
      && readLeftId (Ctx.plug up2 (Tr.nd x false k v
      (Tr.nd g true gk gv uncle l) (Tr.nd p true pk pv r sib))) p = some x)
      = true) := by
    simp only [hlgR, Bool.and_eq_true, decide_eq_true_eq]
    intro hcc
    exact hpu hcc.1
  rw [if_neg e7]

theorem noRedRed_red_inv {i : Nat} {k : α} {v : β} {l r : Tr α β}
    (h : noRedRed (Tr.nd i true k v l r) = true) :
    isRedT l = false ∧ isRedT r = false ∧ noRedRed l = true ∧ noRedRed r = true := by
  simp only [noRedRed, Bool.and_eq_true, Bool.not_eq_true', Bool.true_and,
    Bool.or_eq_false_iff] at h
  exact ⟨h.1.1.1, h.1.1.2, h.1.2, h.2⟩

theorem noRedRed_nd_inv {i : Nat} {cb : Bool} {k : α} {v : β} {l r : Tr α β}
    (h : noRedRed (Tr.nd i cb k v l r) = true) :
    noRedRed l = true ∧ noRedRed r = true := by
  simp only [noRedRed, Bool.and_eq_true] at h
  exact ⟨h.1.2, h.2⟩

theorem noRedRed_nd_intro {i : Nat} {cb : Bool} {k : α} {v : β} {l r : Tr α β}
    (hl : noRedRed l = true) (hr : noRedRed r = true)
    (hc : cb = true → isRedT l = false ∧ isRedT r = false) :
    noRedRed (Tr.nd i cb k v l r) = true := by
  cases cb with
  | false => simp [noRedRed, hl, hr]
  | true =>
      obtain ⟨h1, h2⟩ := hc rfl
      simp [noRedRed, hl, hr, h1, h2]

theorem noRRCtxF_inl_inv {p : Nat} {pr : Bool} {pk : α} {pv : β} {sib : Tr α β}
    {up : Ctx α β} {fr : Bool}
    (h : noRRCtxF (Ctx.inl p pr pk pv sib up) fr = true) :
    (pr = true → fr = false) ∧ (pr = true → isRedT sib = false)
      ∧ noRedRed sib = true ∧ noRRCtxF up pr = true := by
  cases pr with
  | false =>
      simp only [noRRCtxF, Bool.false_and, Bool.not_false, Bool.true_and,
        Bool.and_eq_true] at h
      exact ⟨fun hx => absurd hx (by decide), fun hx => absurd hx (by decide),
        h.1, h.2⟩
  | true =>
      simp only [noRRCtxF, Bool.true_and, Bool.and_eq_true, Bool.not_eq_true'] at h
      exact ⟨fun _ => h.1.1.1, fun _ => h.1.1.2, h.1.2, h.2⟩

theorem noRRCtxF_inr_inv {p : Nat} {pr : Bool} {pk : α} {pv : β} {sib : Tr α β}
    {up : Ctx α β} {fr : Bool}
    (h : noRRCtxF (Ctx.inr p pr pk pv sib up) fr = true) :
    (pr = true → fr = false) ∧ (pr = true → isRedT sib = false)
      ∧ noRedRed sib = true ∧ noRRCtxF up pr = true := by
  cases pr with
  | false =>
      simp only [noRRCtxF, Bool.false_and, Bool.not_false, Bool.true_and,
        Bool.and_eq_true] at h
      exact ⟨fun hx => absurd hx (by decide), fun hx => absurd hx (by decide),
        h.1, h.2⟩
  | true =>
      simp only [noRRCtxF, Bool.true_and, Bool.and_eq_true, Bool.not_eq_true'] at h
      exact ⟨fun _ => h.1.1.1, fun _ => h.1.1.2, h.1.2, h.2⟩

theorem noRRCtxF_inl_intro {p : Nat} {pr : Bool} {pk : α} {pv : β} {sib : Tr α β}
    {up : Ctx α β} {fr : Bool}
    (h1 : pr = true → fr = false) (h2 : pr = true → isRedT sib = false)
    (h3 : noRedRed sib = true) (h4 : noRRCtxF up pr = true) :
    noRRCtxF (Ctx.inl p pr pk pv sib up) fr = true := by
  cases pr with
  | false => simp [noRRCtxF, h3, h4]
  | true => simp [noRRCtxF, h3, h4, h1 rfl, h2 rfl]

theorem noRRCtxF_inr_intro {p : Nat} {pr : Bool} {pk : α} {pv : β} {sib : Tr α β}
    {up : Ctx α β} {fr : Bool}
    (h1 : pr = true → fr = false) (h2 : pr = true → isRedT sib = false)
    (h3 : noRedRed sib = true) (h4 : noRRCtxF up pr = true) :
    noRRCtxF (Ctx.inr p pr pk pv sib up) fr = true := by
  cases pr with
  | false => simp [noRRCtxF, h3, h4]
  | true => simp [noRRCtxF, h3, h4, h1 rfl, h2 rfl]

theorem bh_decomp {t : Tr α β} {c : Ctx α β} {f : Tr α β}
    (ht : t = Ctx.plug c f) (hbh : (bhOf t).isSome = true) :
    ∃ n, bhOf f = some n ∧ (ctxBH c n).isSome = true := by
  rw [ht, bhOf_plug] at hbh
  obtain ⟨a, ha, hb⟩ := isSome_of_bind hbh
  exact ⟨a, ha, hb⟩

theorem bh_recomp {c : Ctx α β} {f : Tr α β} {n : Nat}
    (hf : bhOf f = some n) (hc : (ctxBH c n).isSome = true) :
    (bhOf (Ctx.plug c f)).isSome = true := by
  rw [bhOf_plug, hf]
  exact hc

theorem ctxBH_inl_inv {p : Nat} {pr : Bool} {pk : α} {pv : β} {sib : Tr α β}
    {up : Ctx α β} {n : Nat}
    (h : (ctxBH (Ctx.inl p pr pk pv sib up) n).isSome = true) :
    bhOf sib = some n ∧ (ctxBH up (n + (if pr then 0 else 1))).isSome = true := by
  rw [ctxBH] at h
  cases hs : bhOf sib with
  | none =>
      rw [hs] at h
      cases h
  | some m =>
      rw [hs] at h
      dsimp only at h
      by_cases hm : m = n
      · subst hm
        rw [if_pos rfl] at h
        exact ⟨rfl, h⟩
      · rw [if_neg hm] at h
        cases h

theorem ctxBH_inr_inv {p : Nat} {pr : Bool} {pk : α} {pv : β} {sib : Tr α β}
    {up : Ctx α β} {n : Nat}
    (h : (ctxBH (Ctx.inr p pr pk pv sib up) n).isSome = true) :
    bhOf sib = some n ∧ (ctxBH up (n + (if pr then 0 else 1))).isSome = true := by
  rw [ctxBH] at h
  cases hs : bhOf sib with
  | none =>
      rw [hs] at h
      cases h
  | some m =>
      rw [hs] at h
      dsimp only at h
      by_cases hm : m = n
      · subst hm
        rw [if_pos rfl] at h
        exact ⟨rfl, h⟩
      · rw [if_neg hm] at h
        cases h

theorem ctxBH_inl_intro {p : Nat} {pr : Bool} {pk : α} {pv : β} {sib : Tr α β}
    {up : Ctx α β} {n : Nat}
    (hs : bhOf sib = some n)
    (hup : (ctxBH up (n + (if pr then 0 else 1))).isSome = true) :
    (ctxBH (Ctx.inl p pr pk pv sib up) n).isSome = true := by
  rw [ctxBH, hs]
  dsimp only
  rw [if_pos rfl]
  exact hup

theorem ctxBH_inr_intro {p : Nat} {pr : Bool} {pk : α} {pv : β} {sib : Tr α β}
    {up : Ctx α β} {n : Nat}
    (hs : bhOf sib = some n)
    (hup : (ctxBH up (n + (if pr then 0 else 1))).isSome = true) :
    (ctxBH (Ctx.inr p pr pk pv sib up) n).isSome = true := by
  rw [ctxBH, hs]
  dsimp only
  rw [if_pos rfl]
  exact hup

theorem isRedT_plug_pres {t t' : Tr α β} {c : Ctx α β} {f f' : Tr α β}
    (ht : t = Ctx.plug c f) (ht' : t' = Ctx.plug c f')
    (hr : isRedT t = false) (hne : c ≠ Ctx.top) : isRedT t' = false := by
  rw [ht', isRedT_plug]
  rw [ht, isRedT_plug] at hr
  rw [headColor_const hne (isRedT f') (isRedT f)]
  exact hr

/-- `InsertRepair` restores the red-black color invariants: called on a red
focus whose subtree and context are internally clean (the only possible
violation is the focus-parent edge), with consistent black heights and a
black root (unless the focus is the root), it returns a red-red free,
black-rooted tree of consistent black heights. -/
theorem insertRepair_valid :
    ∀ (fuel : Nat) (t : Tr α β) (c : Ctx α β) (x : Nat) (k : α) (v : β)
      (l r : Tr α β),
      t = Ctx.plug c (Tr.nd x true k v l r) →
      t.ids.Nodup →
      noRedRed (Tr.nd x true k v l r) = true →
      noRRCtxF c false = true →
      (bhOf t).isSome = true →
      (c = Ctx.top ∨ isRedT t = false) →
      ctxLen c + 2 ≤ fuel →
      (noRedRed (insertRepair fuel t x) = true ∧
        (bhOf (insertRepair fuel t x)).isSome = true ∧
        isRedT (insertRepair fuel t x) = false) := by
  intro fuel
  induction fuel with
  | zero =>
      intro t c x k v l r ht hnd hfoc hctx hbh hrt hfuel
      omega
  | succ fuel ih =>
      intro t c x k v l r ht hnd hfoc hctx hbh hrt hfuel
      have hloc := locate_plug_nodup hnd ht
      obtain ⟨hxl, hxr, hnl, hnr⟩ := noRedRed_red_inv hfoc
      cases c with
      | top =>
          rw [insertRepair_step_root fuel hloc rfl, setRedAt_plug false hnd ht]
          obtain ⟨n, hfn, hcx⟩ := bh_decomp ht hbh
          obtain ⟨a, hla, hra, hna⟩ := bhOf_nd_inv hfn
          refine ⟨?_, ?_, rfl⟩
          · show noRedRed (Tr.nd x false k v l r) = true
            exact noRedRed_nd_intro hnl hnr (fun hx2 => absurd hx2 (by decide))
          · show (bhOf (Tr.nd x false k v l r)).isSome = true
            rw [bhOf_nd_some hla hra]
            rfl
      | inl p pr pk pv sib up =>
          obtain ⟨hj1, hj2, hnsib, hctxup⟩ := noRRCtxF_inl_inv hctx
          cases up with
          | top =>
              rw [insertRepair_step_rootparent fuel hloc rfl rfl]
              have htP : t = Ctx.plug Ctx.top
                  (Tr.nd p pr pk pv (Tr.nd x true k v l r) sib) := ht
              rw [setRedAt_plug false hnd htP]
              obtain ⟨n, hfn, hcx⟩ := bh_decomp ht hbh
              obtain ⟨hsibn, hcx2⟩ := ctxBH_inl_inv hcx
              refine ⟨?_, ?_, rfl⟩
              · show noRedRed (Tr.nd p false pk pv (Tr.nd x true k v l r) sib) = true
                exact noRedRed_nd_intro hfoc hnsib (fun hx2 => absurd hx2 (by decide))
              · show (bhOf (Tr.nd p false pk pv
                    (Tr.nd x true k v l r) sib)).isSome = true
                rw [bhOf_nd_some hfn hsibn]
                rfl
          | inl g gr gk gv uncle up2 =>
              cases pr with
              | false =>
                  rw [insertRepair_step_parentBlack fuel hloc rfl rfl]
                  refine ⟨?_, hbh, ?_⟩
                  · rw [ht]
                    refine (noRedRed_plug _ _).mpr ⟨hfoc, ?_⟩
                    exact noRRCtxF_inl_intro (fun hx2 => absurd hx2 (by decide))
                      (fun hx2 => absurd hx2 (by decide)) hnsib hctxup
                  · rcases hrt with h0 | h0
                    · cases h0
                    · exact h0
              | true =>
                  have hr0 : isRedT t = false := by
                    rcases hrt with h0 | h0
                    · cases h0
                    · exact h0
                  have hgr : gr = false := by
                    cases gr with
                    | false => rfl
                    | true =>
                        exact absurd ((noRRCtxF_inl_inv hctxup).1 rfl) (by decide)
                  subst hgr
                  obtain ⟨hjg1, hjg2, hnuncle, hctxup2⟩ := noRRCtxF_inl_inv hctxup
                  by_cases hured : isRedT uncle = true
                  · cases uncle with
                    | nil => exact absurd hured (by simp [isRedT])
                    | nd u ub uk2 uv2 ul ur =>
                        have hub2 : ub = true := hured
                        subst hub2
                        rw [insertRepair_step_uncleRed fuel hloc rfl rfl rfl hured rfl]
                        have htP : t = Ctx.plug
                            (Ctx.inl g false gk gv (Tr.nd u true uk2 uv2 ul ur) up2)
                            (Tr.nd p true pk pv (Tr.nd x true k v l r) sib) := ht
                        rw [setRedAt_plug false hnd htP]
                        have hnd1 : (Ctx.plug
                            (Ctx.inl g false gk gv (Tr.nd u true uk2 uv2 ul ur) up2)
                            (Tr.nd p false pk pv (Tr.nd x true k v l r) sib)).ids.Nodup := by
                          have h2 := hnd
                          rw [ht, ids_plug] at h2
                          rw [ids_plug]
                          exact h2
                        rw [setRedAt_plug false hnd1
                          (show Ctx.plug
                              (Ctx.inl g false gk gv (Tr.nd u true uk2 uv2 ul ur) up2)
                              (Tr.nd p false pk pv (Tr.nd x true k v l r) sib)
                            = Ctx.plug (Ctx.inr g false gk gv
                                (Tr.nd p false pk pv (Tr.nd x true k v l r) sib) up2)
                              (Tr.nd u true uk2 uv2 ul ur) from rfl)]
                        have hnd2 : (Ctx.plug (Ctx.inr g false gk gv
                            (Tr.nd p false pk pv (Tr.nd x true k v l r) sib) up2)
                            (Tr.nd u false uk2 uv2 ul ur)).ids.Nodup := by
                          have h2 := hnd
                          rw [ht, ids_plug] at h2
                          rw [ids_plug]
                          exact h2
                        rw [setRedAt_plug true hnd2
                          (show Ctx.plug (Ctx.inr g false gk gv
                              (Tr.nd p false pk pv (Tr.nd x true k v l r) sib) up2)
                              (Tr.nd u false uk2 uv2 ul ur)
                            = Ctx.plug up2 (Tr.nd g false gk gv
                                (Tr.nd p false pk pv (Tr.nd x true k v l r) sib)
                                (Tr.nd u false uk2 uv2 ul ur)) from rfl)]
                        have hnd3 : (Ctx.plug up2 (Tr.nd g true gk gv
                            (Tr.nd p false pk pv (Tr.nd x true k v l r) sib)
                            (Tr.nd u false uk2 uv2 ul ur))).ids.Nodup := by
                          have h2 := hnd
                          rw [ht, ids_plug] at h2
                          rw [ids_plug]
                          exact h2
                        obtain ⟨hulr, hurr, hnul, hnur⟩ := noRedRed_red_inv hnuncle
                        have hfoc3 : noRedRed (Tr.nd g true gk gv
                            (Tr.nd p false pk pv (Tr.nd x true k v l r) sib)
                            (Tr.nd u false uk2 uv2 ul ur)) = true := by
                          refine noRedRed_nd_intro ?_ ?_ (fun _ => ⟨rfl, rfl⟩)
                          · exact noRedRed_nd_intro hfoc hnsib
                              (fun hx2 => absurd hx2 (by decide))
                          · exact noRedRed_nd_intro hnul hnur
                              (fun hx2 => absurd hx2 (by decide))
                        have hbh3 : (bhOf (Ctx.plug up2 (Tr.nd g true gk gv
                            (Tr.nd p false pk pv (Tr.nd x true k v l r) sib)
                            (Tr.nd u false uk2 uv2 ul ur)))).isSome = true := by
                          obtain ⟨n, hfn, hcx⟩ := bh_decomp ht hbh
                          obtain ⟨hsibn, hcx2⟩ := ctxBH_inl_inv hcx
                          obtain ⟨hun, hcx3⟩ := ctxBH_inl_inv hcx2
                          obtain ⟨a, hul2, hur2, hna⟩ := bhOf_nd_inv hun
                          have ha : a = n := by
                            simp at hna
                            omega
                          subst ha
                          exact bh_recomp
                            (bhOf_nd_some (bhOf_nd_some hfn hsibn)
                              (bhOf_nd_some hul2 hur2)) hcx3
                        have hrt3 : up2 = Ctx.top ∨ isRedT (Ctx.plug up2
                            (Tr.nd g true gk gv
                              (Tr.nd p false pk pv (Tr.nd x true k v l r) sib)
                              (Tr.nd u false uk2 uv2 ul ur))) = false := by
                          by_cases hup2 : up2 = Ctx.top
                          · exact Or.inl hup2
                          · exact Or.inr (isRedT_plug_pres
                              (show t = Ctx.plug up2 (Tr.nd g false gk gv
                                (Tr.nd p true pk pv (Tr.nd x true k v l r) sib)
                                (Tr.nd u true uk2 uv2 ul ur)) from ht) rfl hr0 hup2)
                        have hfl3 : ctxLen up2 + 2 ≤ fuel := by
                          simp only [ctxLen] at hfuel
                          omega
                        exact ih _ up2 g gk gv _ _ rfl hnd3 hfoc3 hctxup2 hbh3 hrt3 hfl3
                  · have hub : isRedT uncle = false := by
                      cases hx2 : isRedT uncle with
                      | false => rfl
                      | true => exact absurd hx2 hured
                    rw [insertRepair_lineLL fuel hnd
                      (show t = Ctx.plug up2 (Tr.nd g false gk gv
                        (Tr.nd p true pk pv (Tr.nd x true k v l r) sib) uncle) from ht)
                      hr0 hub]
                    obtain ⟨n, hfn, hcx⟩ := bh_decomp ht hbh
                    obtain ⟨hsibn, hcx2⟩ := ctxBH_inl_inv hcx
                    obtain ⟨hun, hcx3⟩ := ctxBH_inl_inv hcx2
                    refine ⟨?_, ?_, ?_⟩
                    · refine (noRedRed_plug _ _).mpr ⟨?_, hctxup2⟩
                      refine noRedRed_nd_intro hfoc ?_
                        (fun hx2 => absurd hx2 (by decide))
                      exact noRedRed_nd_intro hnsib hnuncle
                        (fun _ => ⟨hj2 rfl, hub⟩)
                    · exact bh_recomp (bhOf_nd_some hfn (bhOf_nd_some hsibn hun)) hcx3
                    · rw [isRedT_plug]
                      rw [ht, isRedT_plug] at hr0
                      exact hr0
          | inr g gr gk gv uncle up2 =>
              cases pr with
              | false =>
                  rw [insertRepair_step_parentBlack fuel hloc rfl rfl]
                  refine ⟨?_, hbh, ?_⟩
                  · rw [ht]
                    refine (noRedRed_plug _ _).mpr ⟨hfoc, ?_⟩
                    exact noRRCtxF_inl_intro (fun hx2 => absurd hx2 (by decide))
                      (fun hx2 => absurd hx2 (by decide)) hnsib hctxup
                  · rcases hrt with h0 | h0
                    · cases h0
                    · exact h0
              | true =>
                  have hr0 : isRedT t = false := by
                    rcases hrt with h0 | h0
                    · cases h0
                    · exact h0
                  have hgr : gr = false := by
                    cases gr with
                    | false => rfl
                    | true =>
                        exact absurd ((noRRCtxF_inr_inv hctxup).1 rfl) (by decide)
                  subst hgr
                  obtain ⟨hjg1, hjg2, hnuncle, hctxup2⟩ := noRRCtxF_inr_inv hctxup
                  by_cases hured : isRedT uncle = true
                  · cases uncle with
                    | nil => exact absurd hured (by simp [isRedT])
                    | nd u ub uk2 uv2 ul ur =>
                        have hub2 : ub = true := hured
                        subst hub2
                        rw [insertRepair_step_uncleRed fuel hloc rfl rfl rfl hured rfl]
                        have htP : t = Ctx.plug
                            (Ctx.inr g false gk gv (Tr.nd u true uk2 uv2 ul ur) up2)
                            (Tr.nd p true pk pv (Tr.nd x true k v l r) sib) := ht
                        rw [setRedAt_plug false hnd htP]
                        have hnd1 : (Ctx.plug
                            (Ctx.inr g false gk gv (Tr.nd u true uk2 uv2 ul ur) up2)
                            (Tr.nd p false pk pv (Tr.nd x true k v l r) sib)).ids.Nodup := by
                          have h2 := hnd
                          rw [ht, ids_plug] at h2
                          rw [ids_plug]
                          exact h2
                        rw [setRedAt_plug false hnd1
                          (show Ctx.plug
                              (Ctx.inr g false gk gv (Tr.nd u true uk2 uv2 ul ur) up2)
                              (Tr.nd p false pk pv (Tr.nd x true k v l r) sib)
                            = Ctx.plug (Ctx.inl g false gk gv
                                (Tr.nd p false pk pv (Tr.nd x true k v l r) sib) up2)
                              (Tr.nd u true uk2 uv2 ul ur) from rfl)]
                        have hnd2 : (Ctx.plug (Ctx.inl g false gk gv
                            (Tr.nd p false pk pv (Tr.nd x true k v l r) sib) up2)
                            (Tr.nd u false uk2 uv2 ul ur)).ids.Nodup := by
                          have h2 := hnd
                          rw [ht, ids_plug] at h2
                          rw [ids_plug]
                          exact h2
                        rw [setRedAt_plug true hnd2
                          (show Ctx.plug (Ctx.inl g false gk gv
                              (Tr.nd p false pk pv (Tr.nd x true k v l r) sib) up2)
                              (Tr.nd u false uk2 uv2 ul ur)
                            = Ctx.plug up2 (Tr.nd g false gk gv
                                (Tr.nd u false uk2 uv2 ul ur)
                                (Tr.nd p false pk pv (Tr.nd x true k v l r) sib)) from rfl)]
                        have hnd3 : (Ctx.plug up2 (Tr.nd g true gk gv
                            (Tr.nd u false uk2 uv2 ul ur)
                            (Tr.nd p false pk pv (Tr.nd x true k v l r) sib))).ids.Nodup := by
                          have h2 := hnd
                          rw [ht, ids_plug] at h2
                          rw [ids_plug]
                          exact h2
                        obtain ⟨hulr, hurr, hnul, hnur⟩ := noRedRed_red_inv hnuncle
                        have hfoc3 : noRedRed (Tr.nd g true gk gv
                            (Tr.nd u false uk2 uv2 ul ur)
                            (Tr.nd p false pk pv (Tr.nd x true k v l r) sib)) = true := by
                          refine noRedRed_nd_intro ?_ ?_ (fun _ => ⟨rfl, rfl⟩)
                          · exact noRedRed_nd_intro hnul hnur
                              (fun hx2 => absurd hx2 (by decide))
                          · exact noRedRed_nd_intro hfoc hnsib
                              (fun hx2 => absurd hx2 (by decide))
                        have hbh3 : (bhOf (Ctx.plug up2 (Tr.nd g true gk gv
                            (Tr.nd u false uk2 uv2 ul ur)
                            (Tr.nd p false pk pv (Tr.nd x true k v l r) sib)))).isSome
                            = true := by
                          obtain ⟨n, hfn, hcx⟩ := bh_decomp ht hbh
                          obtain ⟨hsibn, hcx2⟩ := ctxBH_inl_inv hcx
                          obtain ⟨hun, hcx3⟩ := ctxBH_inr_inv hcx2
                          obtain ⟨a, hul2, hur2, hna⟩ := bhOf_nd_inv hun
                          have ha : a = n := by
                            simp at hna
                            omega
                          subst ha
                          exact bh_recomp
                            (bhOf_nd_some (bhOf_nd_some hul2 hur2)
                              (bhOf_nd_some hfn hsibn)) hcx3
                        have hrt3 : up2 = Ctx.top ∨ isRedT (Ctx.plug up2
                            (Tr.nd g true gk gv
                              (Tr.nd u false uk2 uv2 ul ur)
                              (Tr.nd p false pk pv (Tr.nd x true k v l r) sib))) = false := by
                          by_cases hup2 : up2 = Ctx.top
                          · exact Or.inl hup2
                          · exact Or.inr (isRedT_plug_pres
                              (show t = Ctx.plug up2 (Tr.nd g false gk gv
                                (Tr.nd u true uk2 uv2 ul ur)
                                (Tr.nd p true pk pv (Tr.nd x true k v l r) sib)) from ht)
                              rfl hr0 hup2)
                        have hfl3 : ctxLen up2 + 2 ≤ fuel := by
                          simp only [ctxLen] at hfuel
                          omega
                        exact ih _ up2 g gk gv _ _ rfl hnd3 hfoc3 hctxup2 hbh3 hrt3 hfl3
                  · have hub : isRedT uncle = false := by
                      cases hx2 : isRedT uncle with
                      | false => rfl
                      | true => exact absurd hx2 hured
                    obtain ⟨f2, rfl⟩ : ∃ f2, fuel = f2 + 1 := by
                      refine ⟨fuel - 1, ?_⟩
                      simp only [ctxLen] at hfuel
                      omega
                    rw [show f2 + 1 + 1 = f2 + 2 from rfl]
                    rw [insertRepair_triRL f2 hnd
                      (show t = Ctx.plug up2 (Tr.nd g false gk gv uncle
                        (Tr.nd p true pk pv (Tr.nd x true k v l r) sib)) from ht)
                      hr0 hub]
                    obtain ⟨n, hfn, hcx⟩ := bh_decomp ht hbh
                    obtain ⟨hsibn, hcx2⟩ := ctxBH_inl_inv hcx
                    obtain ⟨hun, hcx3⟩ := ctxBH_inr_inv hcx2
                    obtain ⟨a, hl2, hr2, hna⟩ := bhOf_nd_inv hfn
                    have ha : a = n := by
                      simp at hna
                      omega
                    subst ha
                    refine ⟨?_, ?_, ?_⟩
                    · refine (noRedRed_plug _ _).mpr ⟨?_, hctxup2⟩
                      refine noRedRed_nd_intro ?_ ?_
                        (fun hx2 => absurd hx2 (by decide))
                      · exact noRedRed_nd_intro hnuncle hnl
                          (fun _ => ⟨hub, hxl⟩)
                      · exact noRedRed_nd_intro hnr hnsib
                          (fun _ => ⟨hxr, hj2 rfl⟩)
                    · exact bh_recomp
                        (bhOf_nd_some (bhOf_nd_some hun hl2)
                          (bhOf_nd_some hr2 hsibn)) hcx3
                    · rw [isRedT_plug]
                      rw [ht, isRedT_plug] at hr0
                      exact hr0
      | inr p pr pk pv sib up =>
          obtain ⟨hj1, hj2, hnsib, hctxup⟩ := noRRCtxF_inr_inv hctx
          cases up with
          | top =>
              rw [insertRepair_step_rootparent fuel hloc rfl rfl]
              have htP : t = Ctx.plug Ctx.top
                  (Tr.nd p pr pk pv sib (Tr.nd x true k v l r)) := ht
              rw [setRedAt_plug false hnd htP]
              obtain ⟨n, hfn, hcx⟩ := bh_decomp ht hbh
              obtain ⟨hsibn, hcx2⟩ := ctxBH_inr_inv hcx
              refine ⟨?_, ?_, rfl⟩
              · show noRedRed (Tr.nd p false pk pv sib (Tr.nd x true k v l r)) = true
                exact noRedRed_nd_intro hnsib hfoc (fun hx2 => absurd hx2 (by decide))
              · show (bhOf (Tr.nd p false pk pv sib
                    (Tr.nd x true k v l r))).isSome = true
                rw [bhOf_nd_some hsibn hfn]
                rfl
          | inl g gr gk gv uncle up2 =>
              cases pr with
              | false =>
                  rw [insertRepair_step_parentBlack fuel hloc rfl rfl]
                  refine ⟨?_, hbh, ?_⟩
                  · rw [ht]
                    refine (noRedRed_plug _ _).mpr ⟨hfoc, ?_⟩
                    exact noRRCtxF_inr_intro (fun hx2 => absurd hx2 (by decide))
                      (fun hx2 => absurd hx2 (by decide)) hnsib hctxup
                  · rcases hrt with h0 | h0
                    · cases h0
                    · exact h0
              | true =>
                  have hr0 : isRedT t = false := by
                    rcases hrt with h0 | h0
                    · cases h0
                    · exact h0
                  have hgr : gr = false := by
                    cases gr with
                    | false => rfl
                    | true =>
                        exact absurd ((noRRCtxF_inl_inv hctxup).1 rfl) (by decide)
                  subst hgr
                  obtain ⟨hjg1, hjg2, hnuncle, hctxup2⟩ := noRRCtxF_inl_inv hctxup
                  by_cases hured : isRedT uncle = true
                  · cases uncle with
                    | nil => exact absurd hured (by simp [isRedT])
                    | nd u ub uk2 uv2 ul ur =>
                        have hub2 : ub = true := hured
                        subst hub2
                        rw [insertRepair_step_uncleRed fuel hloc rfl rfl rfl hured rfl]
                        have htP : t = Ctx.plug
                            (Ctx.inl g false gk gv (Tr.nd u true uk2 uv2 ul ur) up2)
                            (Tr.nd p true pk pv sib (Tr.nd x true k v l r)) := ht
                        rw [setRedAt_plug false hnd htP]
                        have hnd1 : (Ctx.plug
                            (Ctx.inl g false gk gv (Tr.nd u true uk2 uv2 ul ur) up2)
                            (Tr.nd p false pk pv sib (Tr.nd x true k v l r))).ids.Nodup := by
                          have h2 := hnd
                          rw [ht, ids_plug] at h2
                          rw [ids_plug]
                          exact h2
                        rw [setRedAt_plug false hnd1
                          (show Ctx.plug
                              (Ctx.inl g false gk gv (Tr.nd u true uk2 uv2 ul ur) up2)
                              (Tr.nd p false pk pv sib (Tr.nd x true k v l r))
                            = Ctx.plug (Ctx.inr g false gk gv
                                (Tr.nd p false pk pv sib (Tr.nd x true k v l r)) up2)
                              (Tr.nd u true uk2 uv2 ul ur) from rfl)]
                        have hnd2 : (Ctx.plug (Ctx.inr g false gk gv
                            (Tr.nd p false pk pv sib (Tr.nd x true k v l r)) up2)
                            (Tr.nd u false uk2 uv2 ul ur)).ids.Nodup := by
                          have h2 := hnd
                          rw [ht, ids_plug] at h2
                          rw [ids_plug]
                          exact h2
                        rw [setRedAt_plug true hnd2
                          (show Ctx.plug (Ctx.inr g false gk gv
                              (Tr.nd p false pk pv sib (Tr.nd x true k v l r)) up2)
                              (Tr.nd u false uk2 uv2 ul ur)
                            = Ctx.plug up2 (Tr.nd g false gk gv
                                (Tr.nd p false pk pv sib (Tr.nd x true k v l r))
                                (Tr.nd u false uk2 uv2 ul ur)) from rfl)]
                        have hnd3 : (Ctx.plug up2 (Tr.nd g true gk gv
                            (Tr.nd p false pk pv sib (Tr.nd x true k v l r))
                            (Tr.nd u false uk2 uv2 ul ur))).ids.Nodup := by
                          have h2 := hnd
                          rw [ht, ids_plug] at h2
                          rw [ids_plug]
                          exact h2
                        obtain ⟨hulr, hurr, hnul, hnur⟩ := noRedRed_red_inv hnuncle
                        have hfoc3 : noRedRed (Tr.nd g true gk gv
                            (Tr.nd p false pk pv sib (Tr.nd x true k v l r))
                            (Tr.nd u false uk2 uv2 ul ur)) = true := by
                          refine noRedRed_nd_intro ?_ ?_ (fun _ => ⟨rfl, rfl⟩)
                          · exact noRedRed_nd_intro hnsib hfoc
                              (fun hx2 => absurd hx2 (by decide))
                          · exact noRedRed_nd_intro hnul hnur
                              (fun hx2 => absurd hx2 (by decide))
                        have hbh3 : (bhOf (Ctx.plug up2 (Tr.nd g true gk gv
                            (Tr.nd p false pk pv sib (Tr.nd x true k v l r))
                            (Tr.nd u false uk2 uv2 ul ur)))).isSome = true := by
                          obtain ⟨n, hfn, hcx⟩ := bh_decomp ht hbh
                          obtain ⟨hsibn, hcx2⟩ := ctxBH_inr_inv hcx
                          obtain ⟨hun, hcx3⟩ := ctxBH_inl_inv hcx2
                          obtain ⟨a, hul2, hur2, hna⟩ := bhOf_nd_inv hun
                          have ha : a = n := by
                            simp at hna
                            omega
                          subst ha
                          exact bh_recomp
                            (bhOf_nd_some (bhOf_nd_some hsibn hfn)
                              (bhOf_nd_some hul2 hur2)) hcx3
                        have hrt3 : up2 = Ctx.top ∨ isRedT (Ctx.plug up2
                            (Tr.nd g true gk gv
                              (Tr.nd p false pk pv sib (Tr.nd x true k v l r))
                              (Tr.nd u false uk2 uv2 ul ur))) = false := by
                          by_cases hup2 : up2 = Ctx.top
                          · exact Or.inl hup2
                          · exact Or.inr (isRedT_plug_pres
                              (show t = Ctx.plug up2 (Tr.nd g false gk gv
                                (Tr.nd p true pk pv sib (Tr.nd x true k v l r))
                                (Tr.nd u true uk2 uv2 ul ur)) from ht) rfl hr0 hup2)
                        have hfl3 : ctxLen up2 + 2 ≤ fuel := by
                          simp only [ctxLen] at hfuel
                          omega
                        exact ih _ up2 g gk gv _ _ rfl hnd3 hfoc3 hctxup2 hbh3 hrt3 hfl3
                  · have hub : isRedT uncle = false := by
                      cases hx2 : isRedT uncle with
                      | false => rfl
                      | true => exact absurd hx2 hured
                    obtain ⟨f2, rfl⟩ : ∃ f2, fuel = f2 + 1 := by
                      refine ⟨fuel - 1, ?_⟩
                      simp only [ctxLen] at hfuel
                      omega
                    rw [show f2 + 1 + 1 = f2 + 2 from rfl]
                    rw [insertRepair_triLR f2 hnd
                      (show t = Ctx.plug up2 (Tr.nd g false gk gv
                        (Tr.nd p true pk pv sib (Tr.nd x true k v l r)) uncle) from ht)
                      hr0 hub]
                    obtain ⟨n, hfn, hcx⟩ := bh_decomp ht hbh
                    obtain ⟨hsibn, hcx2⟩ := ctxBH_inr_inv hcx
                    obtain ⟨hun, hcx3⟩ := ctxBH_inl_inv hcx2
                    obtain ⟨a, hl2, hr2, hna⟩ := bhOf_nd_inv hfn
                    have ha : a = n := by
                      simp at hna
                      omega
                    subst ha
                    refine ⟨?_, ?_, ?_⟩
                    · refine (noRedRed_plug _ _).mpr ⟨?_, hctxup2⟩
                      refine noRedRed_nd_intro ?_ ?_
                        (fun hx2 => absurd hx2 (by decide))
                      · exact noRedRed_nd_intro hnsib hnl
                          (fun _ => ⟨hj2 rfl, hxl⟩)
                      · exact noRedRed_nd_intro hnr hnuncle
                          (fun _ => ⟨hxr, hub⟩)
                    · exact bh_recomp
                        (bhOf_nd_some (bhOf_nd_some hsibn hl2)
                          (bhOf_nd_some hr2 hun)) hcx3
                    · rw [isRedT_plug]
                      rw [ht, isRedT_plug] at hr0
                      exact hr0
          | inr g gr gk gv uncle up2 =>
              cases pr with
              | false =>
                  rw [insertRepair_step_parentBlack fuel hloc rfl rfl]
                  refine ⟨?_, hbh, ?_⟩
                  · rw [ht]
                    refine (noRedRed_plug _ _).mpr ⟨hfoc, ?_⟩
                    exact noRRCtxF_inr_intro (fun hx2 => absurd hx2 (by decide))
                      (fun hx2 => absurd hx2 (by decide)) hnsib hctxup
                  · rcases hrt with h0 | h0
                    · cases h0
                    · exact h0
              | true =>
                  have hr0 : isRedT t = false := by
                    rcases hrt with h0 | h0
                    · cases h0
                    · exact h0
                  have hgr : gr = false := by
                    cases gr with
                    | false => rfl
                    | true =>
                        exact absurd ((noRRCtxF_inr_inv hctxup).1 rfl) (by decide)
                  subst hgr
                  obtain ⟨hjg1, hjg2, hnuncle, hctxup2⟩ := noRRCtxF_inr_inv hctxup
                  by_cases hured : isRedT uncle = true
                  · cases uncle with
                    | nil => exact absurd hured (by simp [isRedT])
                    | nd u ub uk2 uv2 ul ur =>
                        have hub2 : ub = true := hured
                        subst hub2
                        rw [insertRepair_step_uncleRed fuel hloc rfl rfl rfl hured rfl]
                        have htP : t = Ctx.plug
                            (Ctx.inr g false gk gv (Tr.nd u true uk2 uv2 ul ur) up2)
                            (Tr.nd p true pk pv sib (Tr.nd x true k v l r)) := ht
                        rw [setRedAt_plug false hnd htP]
                        have hnd1 : (Ctx.plug
                            (Ctx.inr g false gk gv (Tr.nd u true uk2 uv2 ul ur) up2)
                            (Tr.nd p false pk pv sib (Tr.nd x true k v l r))).ids.Nodup := by
                          have h2 := hnd
                          rw [ht, ids_plug] at h2
                          rw [ids_plug]
                          exact h2
                        rw [setRedAt_plug false hnd1
                          (show Ctx.plug
                              (Ctx.inr g false gk gv (Tr.nd u true uk2 uv2 ul ur) up2)
                              (Tr.nd p false pk pv sib (Tr.nd x true k v l r))
                            = Ctx.plug (Ctx.inl g false gk gv
                                (Tr.nd p false pk pv sib (Tr.nd x true k v l r)) up2)
                              (Tr.nd u true uk2 uv2 ul ur) from rfl)]
                        have hnd2 : (Ctx.plug (Ctx.inl g false gk gv
                            (Tr.nd p false pk pv sib (Tr.nd x true k v l r)) up2)
                            (Tr.nd u false uk2 uv2 ul ur)).ids.Nodup := by
                          have h2 := hnd
                          rw [ht, ids_plug] at h2
                          rw [ids_plug]
                          exact h2
                        rw [setRedAt_plug true hnd2
                          (show Ctx.plug (Ctx.inl g false gk gv
                              (Tr.nd p false pk pv sib (Tr.nd x true k v l r)) up2)
                              (Tr.nd u false uk2 uv2 ul ur)
                            = Ctx.plug up2 (Tr.nd g false gk gv
                                (Tr.nd u false uk2 uv2 ul ur)
                                (Tr.nd p false pk pv sib (Tr.nd x true k v l r))) from rfl)]
                        have hnd3 : (Ctx.plug up2 (Tr.nd g true gk gv
                            (Tr.nd u false uk2 uv2 ul ur)
                            (Tr.nd p false pk pv sib (Tr.nd x true k v l r)))).ids.Nodup := by
                          have h2 := hnd
                          rw [ht, ids_plug] at h2
                          rw [ids_plug]
                          exact h2
                        obtain ⟨hulr, hurr, hnul, hnur⟩ := noRedRed_red_inv hnuncle
                        have hfoc3 : noRedRed (Tr.nd g true gk gv
                            (Tr.nd u false uk2 uv2 ul ur)
                            (Tr.nd p false pk pv sib (Tr.nd x true k v l r))) = true := by
                          refine noRedRed_nd_intro ?_ ?_ (fun _ => ⟨rfl, rfl⟩)
                          · exact noRedRed_nd_intro hnul hnur
                              (fun hx2 => absurd hx2 (by decide))
                          · exact noRedRed_nd_intro hnsib hfoc
                              (fun hx2 => absurd hx2 (by decide))
                        have hbh3 : (bhOf (Ctx.plug up2 (Tr.nd g true gk gv
                            (Tr.nd u false uk2 uv2 ul ur)
                            (Tr.nd p false pk pv sib (Tr.nd x true k v l r))))).isSome
                            = true := by
                          obtain ⟨n, hfn, hcx⟩ := bh_decomp ht hbh
                          obtain ⟨hsibn, hcx2⟩ := ctxBH_inr_inv hcx
                          obtain ⟨hun, hcx3⟩ := ctxBH_inr_inv hcx2
                          obtain ⟨a, hul2, hur2, hna⟩ := bhOf_nd_inv hun
                          have ha : a = n := by
                            simp at hna
                            omega
                          subst ha
                          exact bh_recomp
                            (bhOf_nd_some (bhOf_nd_some hul2 hur2)
                              (bhOf_nd_some hsibn hfn)) hcx3
                        have hrt3 : up2 = Ctx.top ∨ isRedT (Ctx.plug up2
                            (Tr.nd g true gk gv
                              (Tr.nd u false uk2 uv2 ul ur)
                              (Tr.nd p false pk pv sib (Tr.nd x true k v l r)))) = false := by
                          by_cases hup2 : up2 = Ctx.top
                          · exact Or.inl hup2
                          · exact Or.inr (isRedT_plug_pres
                              (show t = Ctx.plug up2 (Tr.nd g false gk gv
                                (Tr.nd u true uk2 uv2 ul ur)
                                (Tr.nd p true pk pv sib (Tr.nd x true k v l r))) from ht)
                              rfl hr0 hup2)
                        have hfl3 : ctxLen up2 + 2 ≤ fuel := by
                          simp only [ctxLen] at hfuel
                          omega
                        exact ih _ up2 g gk gv _ _ rfl hnd3 hfoc3 hctxup2 hbh3 hrt3 hfl3
                  · have hub : isRedT uncle = false := by
                      cases hx2 : isRedT uncle with
                      | false => rfl
                      | true => exact absurd hx2 hured
                    rw [insertRepair_lineRR fuel hnd
                      (show t = Ctx.plug up2 (Tr.nd g false gk gv uncle
                        (Tr.nd p true pk pv sib (Tr.nd x true k v l r))) from ht)
                      hr0 hub]
                    obtain ⟨n, hfn, hcx⟩ := bh_decomp ht hbh
                    obtain ⟨hsibn, hcx2⟩ := ctxBH_inr_inv hcx
                    obtain ⟨hun, hcx3⟩ := ctxBH_inr_inv hcx2
                    refine ⟨?_, ?_, ?_⟩
                    · refine (noRedRed_plug _ _).mpr ⟨?_, hctxup2⟩
                      refine noRedRed_nd_intro ?_ hfoc
                        (fun hx2 => absurd hx2 (by decide))
                      exact noRedRed_nd_intro hnuncle hnsib
                        (fun _ => ⟨hub, hj2 rfl⟩)
                    · exact bh_recomp (bhOf_nd_some (bhOf_nd_some hun hsibn) hfn) hcx3
                    · rw [isRedT_plug]
                      rw [ht, isRedT_plug] at hr0
                      exact hr0

theorem strictChain_of_pairwise {lt : α → α → Bool} :
    ∀ {ks : List α}, ks.Pairwise (fun a b => lt a b = true) →
      strictChain lt ks = true := by
  intro ks
  induction ks with
  | nil => intro _; rfl
  | cons a ks ih =>
      intro h
      rw [List.pairwise_cons] at h
      cases ks with
      | nil => rfl
      | cons b r =>
          rw [show strictChain lt (a :: b :: r)
              = (lt a b && strictChain lt (b :: r)) from rfl]
          rw [h.1 b (List.mem_cons_self _ _), ih h.2]
          rfl

theorem nd_shape_congr_r {i : Nat} {r : Bool} {k : α} {v : β} {l rt rt2 : Tr α β}
    (h1 : noRedRed rt2 = noRedRed rt) (h2 : bhOf rt2 = bhOf rt)
    (h3 : isRedT rt2 = isRedT rt) :
    noRedRed (Tr.nd i r k v l rt2) = noRedRed (Tr.nd i r k v l rt) ∧
    bhOf (Tr.nd i r k v l rt2) = bhOf (Tr.nd i r k v l rt) ∧
    isRedT (Tr.nd i r k v l rt2) = isRedT (Tr.nd i r k v l rt) := by
  refine ⟨?_, ?_, rfl⟩
  · show ((!(r && (isRedT l || isRedT rt2))) && noRedRed l && noRedRed rt2) = _
    rw [h1, h3]
    rfl
  · rw [show bhOf (Tr.nd i r k v l rt2)
        = (match bhOf l, bhOf rt2 with
            | some a, some b => if a = b then some (a + (if r then 0 else 1)) else none
            | _, _ => none) from rfl, h2]
    rfl

theorem nd_shape_congr_l {i : Nat} {r : Bool} {k : α} {v : β} {l l2 rt : Tr α β}
    (h1 : noRedRed l2 = noRedRed l) (h2 : bhOf l2 = bhOf l)
    (h3 : isRedT l2 = isRedT l) :
    noRedRed (Tr.nd i r k v l2 rt) = noRedRed (Tr.nd i r k v l rt) ∧
    bhOf (Tr.nd i r k v l2 rt) = bhOf (Tr.nd i r k v l rt) ∧
    isRedT (Tr.nd i r k v l2 rt) = isRedT (Tr.nd i r k v l rt) := by
  refine ⟨?_, ?_, rfl⟩
  · show ((!(r && (isRedT l2 || isRedT rt))) && noRedRed l2 && noRedRed rt) = _
    rw [h1, h3]
    rfl
  · rw [show bhOf (Tr.nd i r k v l2 rt)
        = (match bhOf l2, bhOf rt with
            | some a, some b => if a = b then some (a + (if r then 0 else 1)) else none
            | _, _ => none) from rfl, h2]
    rfl

/-- The insert descent that finds the key in place (attaches nothing)
only rewrites one value: all colors and the shape are untouched. -/
theorem insGo_none_shape (lt : α → α → Bool) [DecidableEq α] (nx : Nat)
    (kv : α × β) :
    ∀ t : Tr α β, (insGo lt nx kv t).2 = none →
      noRedRed (insGo lt nx kv t).1 = noRedRed t ∧
      bhOf (insGo lt nx kv t).1 = bhOf t ∧
      isRedT (insGo lt nx kv t).1 = isRedT t := by
  intro t
  induction t with
  | nil => intro _; exact ⟨rfl, rfl, rfl⟩
  | nd i r k v l rt ihl ihr =>
      intro hz
      rw [insGo.eq_def] at hz ⊢
      dsimp only at hz ⊢
      by_cases hk : kv.1 = k
      · rw [if_pos hk] at hz ⊢
        exact ⟨rfl, rfl, rfl⟩
      · rw [if_neg hk] at hz ⊢
        by_cases hcmp : lt k kv.1 = true
        · rw [if_pos hcmp] at hz ⊢
          cases rt with
          | nil => exact absurd hz (by simp)
          | nd j jr jk jv jl jrt =>
              dsimp only at hz ⊢
              obtain ⟨h1, h2, h3⟩ := ihr hz
              exact nd_shape_congr_r h1 h2 h3
        · rw [if_neg hcmp] at hz ⊢
          cases l with
          | nil => exact absurd hz (by simp)
          | nd j jr jk jv jl jrt =>
              dsimp only at hz ⊢
              obtain ⟨h1, h2, h3⟩ := ihl hz
              exact nd_shape_congr_l h1 h2 h3

/-- The insert descent that attaches a node replaces one sentinel of the
original tree with a fresh red leaf carrying the pair. -/
theorem insGo_some_plug (lt : α → α → Bool) [DecidableEq α] (nx : Nat)
    (kv : α × β) :
    ∀ t : Tr α β, ∀ x, (insGo lt nx kv t).2 = some x →
      x = nx ∧ ∃ c : Ctx α β, t = Ctx.plug c Tr.nil ∧
        (insGo lt nx kv t).1
          = Ctx.plug c (Tr.nd nx true kv.1 kv.2 Tr.nil Tr.nil) := by
  intro t
  induction t with
  | nil =>
      intro x hz
      cases hz
  | nd i r k v l rt ihl ihr =>
      intro x hz
      rw [insGo.eq_def] at hz ⊢
      dsimp only at hz ⊢
      by_cases hk : kv.1 = k
      · rw [if_pos hk] at hz
        cases hz
      · rw [if_neg hk] at hz ⊢
        by_cases hcmp : lt k kv.1 = true
        · rw [if_pos hcmp] at hz ⊢
          cases rt with
          | nil =>
              dsimp only at hz ⊢
              refine ⟨(Option.some.inj hz).symm, Ctx.inr i r k v l Ctx.top, rfl, rfl⟩
          | nd j jr jk jv jl jrt =>
              dsimp only at hz ⊢
              obtain ⟨hx, c2, hc1, hc2⟩ := ihr x hz
              refine ⟨hx, Ctx.comp c2 (Ctx.inr i r k v l Ctx.top), ?_, ?_⟩
              · rw [plug_comp, ← hc1]
                rfl
              · rw [plug_comp, ← hc2]
                rfl
        · rw [if_neg hcmp] at hz ⊢
          cases l with
          | nil =>
              dsimp only at hz ⊢
              refine ⟨(Option.some.inj hz).symm, Ctx.inl i r k v rt Ctx.top, rfl, rfl⟩
          | nd j jr jk jv jl jrt =>
              dsimp only at hz ⊢
              obtain ⟨hx, c2, hc1, hc2⟩ := ihl x hz
              refine ⟨hx, Ctx.comp c2 (Ctx.inl i r k v rt Ctx.top), ?_, ?_⟩
              · rw [plug_comp, ← hc1]
                rfl
              · rw [plug_comp, ← hc2]
                rfl

/-- The color part of the red-black invariant: black root, no red-red
edge, consistent black heights. -/
def RBInv (s : St α β) : Prop :=
  isRedT s.root = false ∧ noRedRed s.root = true ∧ (bhOf s.root).isSome = true

/-- `RBT::insert` preserves the color invariants. -/
theorem insertS_RBInv (lt : α → α → Bool) [DecidableEq α] (s : St α β)
    (kv : α × β) (hnd : s.root.ids.Nodup)
    (hbound : ∀ i ∈ s.root.ids, i < s.next) (hrb : RBInv s) :
    RBInv (insertS lt s kv) := by
  obtain ⟨hroot, hnrr, hbh⟩ := hrb
  cases hroot2 : s.root with
  | nil =>
      rw [insertS, hroot2]
      refine ⟨rfl, rfl, rfl⟩
  | nd i0 r0 k0 v0 l0 rt0 =>
      rw [insertS, hroot2]
      dsimp only
      rw [hroot2] at hnd hbound hroot hnrr hbh
      cases hz : insGo lt s.next kv (Tr.nd i0 r0 k0 v0 l0 rt0) with
      | mk t2 att =>
          cases att with
          | none =>
              dsimp only
              have hsh := insGo_none_shape lt s.next kv
                (Tr.nd i0 r0 k0 v0 l0 rt0) (by rw [hz])
              rw [hz] at hsh
              dsimp only at hsh
              exact ⟨by rw [hsh.2.2]; exact hroot,
                by rw [hsh.1]; exact hnrr,
                by rw [hsh.2.1]; exact hbh⟩
          | some x =>
              dsimp only
              have hip := insGo_some_plug lt s.next kv
                (Tr.nd i0 r0 k0 v0 l0 rt0) x (by rw [hz])
              rw [hz] at hip
              dsimp only at hip
              obtain ⟨hx, c, hc1, hc2⟩ := hip
              obtain ⟨L, R, hLR⟩ := idsC_decomp c
              have hids : (Tr.nd i0 r0 k0 v0 l0 rt0).ids = L ++ R := by
                rw [hc1, ids_plug, hLR]
                simp [Tr.ids]
              have hids2 : t2.ids = L ++ x :: R := by
                rw [hc2, ids_plug, hx, hLR]
                simp [Tr.ids, hx]
              have hxfresh : x ∉ (Tr.nd i0 r0 k0 v0 l0 rt0).ids := by
                intro hm
                have h3 := hbound x hm
                rw [hx] at h3
                omega
              have hnd2 : t2.ids.Nodup := by
                rw [hids2, List.nodup_middle, List.nodup_cons]
                rw [hids] at hnd hxfresh
                exact ⟨hxfresh, hnd⟩
              have hctx : noRRCtxF c false = true := by
                have h2 := hnrr
                rw [hc1] at h2
                exact ((noRedRed_plug c Tr.nil).mp h2).2
              have hbh2 : (bhOf t2).isSome = true := by
                rw [hc2, bhOf_plug]
                rw [hc1, bhOf_plug] at hbh
                exact hbh
              have hrt2 : c = Ctx.top ∨ isRedT t2 = false := by
                cases hcc : c with
                | top =>
                    rw [hcc] at hc1
                    cases hc1
                | inl a1 b1 c1 d1 e1 f1 =>
                    refine Or.inr ?_
                    rw [hc2, hcc, isRedT_plug]
                    rw [hc1, hcc, isRedT_plug] at hroot
                    exact hroot
                | inr a1 b1 c1 d1 e1 f1 =>
                    refine Or.inr ?_
                    rw [hc2, hcc, isRedT_plug]
                    rw [hc1, hcc, isRedT_plug] at hroot
                    exact hroot
              have hfl : ctxLen c + 2 ≤ t2.sizeT + 1 := by
                have hle := ctxLen_le_idsC c [x]
                have hlen : (Ctx.idsC c [x]).length = t2.sizeT := by
                  rw [← ids_length_sizeT t2, hc2, ids_plug]
                  exact congrArg List.length (idsC_congr (by simp [Tr.ids, hx]))
                rw [hlen] at hle
                simp only [List.length_cons, List.length_nil] at hle
                omega
              obtain ⟨hA, hB, hC⟩ := insertRepair_valid (t2.sizeT + 1) t2 c x
                kv.1 kv.2 Tr.nil Tr.nil (by rw [hc2, hx]) hnd2 rfl hctx hbh2 hrt2 hfl
              exact ⟨hC, hA, hB⟩

theorem isRedT_blacken (f : Tr α β) : isRedT (blacken f) = false := by
  cases f <;> rfl

theorem blacken_black {f : Tr α β} (h : isRedT f = false) : blacken f = f := by
  cases f with
  | nil => rfl
  | nd i r k v l rt =>
      have hr : r = false := h
      rw [show blacken (Tr.nd i r k v l rt) = Tr.nd i false k v l rt from rfl, hr]

theorem noRedRed_blacken {f : Tr α β} (h : noRedRed f = true) :
    noRedRed (blacken f) = true := by
  cases f with
  | nil => rfl
  | nd i r k v l rt =>
      obtain ⟨h1, h2⟩ := noRedRed_nd_inv h
      exact noRedRed_nd_intro h1 h2 (fun hx => absurd hx (by decide))

theorem bhOf_blacken_isSome {f : Tr α β} (h : (bhOf f).isSome = true) :
    (bhOf (blacken f)).isSome = true := by
  cases f with
  | nil => rfl
  | nd i r k v l rt =>
      obtain ⟨m, hm⟩ := Option.isSome_iff_exists.mp h
      obtain ⟨a, ha1, ha2,ha3⟩ := bhOf_nd_inv hm
      rw [show blacken (Tr.nd i r k v l rt) = Tr.nd i false k v l rt from rfl,
        bhOf_nd_some ha1 ha2]
      rfl

theorem bhOf_blacken_red {f : Tr α β} {n : Nat} (hr : isRedT f = true)
    (h : bhOf f = some n) : bhOf (blacken f) = some (n + 1) := by
  cases f with
  | nil => cases hr
  | nd i r k v l rt =>
      have hrr : r = true := hr
      subst hrr
      obtain ⟨a, ha1, ha2, ha3⟩ := bhOf_nd_inv h
      have ha : a = n := by
        simp at ha3
        omega
      subst ha
      rw [show blacken (Tr.nd i true k v l rt) = Tr.nd i false k v l rt from rfl,
        bhOf_nd_some ha1 ha2]
      rfl

theorem bh_black_children {S : Nat} {cb : Bool} {sk : α} {sv : β}
    {sa sb : Tr α β} {n : Nat}
    (h : bhOf (Tr.nd S cb sk sv sa sb) = some (n + (if cb then 0 else 1))) :
    bhOf sa = some n ∧ bhOf sb = some n := by
  obtain ⟨a, h1, h2, h3⟩ := bhOf_nd_inv h
  have ha : a = n := by
    cases cb <;> simp at h3 <;> omega
  subst ha
  exact ⟨h1, h2⟩

theorem bh_red_children {S : Nat} {sk : α} {sv : β}
    {sa sb : Tr α β} {n : Nat}
    (h : bhOf (Tr.nd S true sk sv sa sb) = some n) :
    bhOf sa = some n ∧ bhOf sb = some n :=
  bh_black_children (show _ = some (n + (if Bool.true then 0 else 1)) from h)

theorem bh_blk_children {S : Nat} {sk : α} {sv : β}
    {sa sb : Tr α β} {n : Nat}
    (h : bhOf (Tr.nd S false sk sv sa sb) = some (n + 1)) :
    bhOf sa = some n ∧ bhOf sb = some n :=
  bh_black_children (show _ = some (n + (if Bool.false then 0 else 1)) from h)

theorem ctxLen_comp (c1 c2 : Ctx α β) :
    ctxLen (Ctx.comp c1 c2) = ctxLen c1 + ctxLen c2 := by
  induction c1 with
  | top => simp [Ctx.comp, ctxLen]
  | inl p pr pk pv sib up ih =>
      simp [Ctx.comp, ctxLen, ih]
      omega
  | inr p pr pk pv sib up ih =>
      simp [Ctx.comp, ctxLen, ih]
      omega

theorem valid_blacken_plug {up : Ctx α β} {Y : Tr α β} {m : Nat}
    (hY : noRedRed Y = true) (hbhY : bhOf Y = some m)
    (hctx : (ctxBH up m).isSome = true)
    (hctxRR : noRRCtxF up (isRedT Y) = true) :
    noRedRed (blacken (Ctx.plug up Y)) = true ∧
      (bhOf (blacken (Ctx.plug up Y))).isSome = true ∧
      isRedT (blacken (Ctx.plug up Y)) = false :=
  ⟨noRedRed_blacken ((noRedRed_plug up Y).mpr ⟨hY, hctxRR⟩),
    bhOf_blacken_isSome (bh_recomp hbhY hctx), isRedT_blacken _⟩

theorem valid_plug {up : Ctx α β} {Y : Tr α β} {m : Nat}
    (hY : noRedRed Y = true) (hbhY : bhOf Y = some m)
    (hctx : (ctxBH up m).isSome = true)
    (hctxRR : noRRCtxF up (isRedT Y) = true)
    (hroot : isRedT (Ctx.plug up Y) = false) :
    noRedRed (Ctx.plug up Y) = true ∧ (bhOf (Ctx.plug up Y)).isSome = true ∧
      isRedT (Ctx.plug up Y) = false :=
  ⟨(noRedRed_plug up Y).mpr ⟨hY, hctxRR⟩, bh_recomp hbhY hctx, hroot⟩

theorem noRRCtxF_false_of {c : Ctx α β} {v : Bool} (h : noRRCtxF c v = true) :
    noRRCtxF c false = true := by
  cases c with
  | top => rfl
  | inl q qr qk qv s u =>
      obtain ⟨h1, h2, h3, h4⟩ := noRRCtxF_inl_inv h
      exact noRRCtxF_inl_intro (fun _ => rfl) h2 h3 h4
  | inr q qr qk qv s u =>
      obtain ⟨h1, h2, h3, h4⟩ := noRRCtxF_inr_inv h
      exact noRRCtxF_inr_intro (fun _ => rfl) h2 h3 h4

/-- `EraseRepair` absorbs a one-unit black-height deficit: called on a
clean focus whose context expects one more unit of black height, with a
clean context and black root, it returns a red-red free, black-rooted tree
of consistent black heights. -/
theorem eraseRepair_valid :
    ∀ (fuel : Nat) (ctx : Ctx α β) (foc : Tr α β) (n : Nat),
      noRedRed (blacken foc) = true →
      bhOf foc = some n →
      (ctxBH ctx (n + 1)).isSome = true →
      noRRCtxF ctx false = true →
      (ctx = Ctx.top ∨ headColor ctx false = false) →
      ctxLen ctx + 4 ≤ fuel →
      (noRedRed (eraseRepair fuel ctx foc) = true ∧
        (bhOf (eraseRepair fuel ctx foc)).isSome = true ∧
        isRedT (eraseRepair fuel ctx foc) = false) := by
  intro fuel
  induction fuel with
  | zero =>
      intro ctx foc n hA hB hC hD hE hfuel
      omega
  | succ fuel ih =>
      intro ctx foc n hA hB hC hD hE hfuel
      cases ctx with
      | top =>
          rw [eraseRepair.eq_def]
          exact ⟨hA, bhOf_blacken_isSome (by rw [hB]; rfl), isRedT_blacken foc⟩
      | inl p pr pk pv sib up =>
          have hE0 : headColor up pr = false := by
            rcases hE with h0 | h0
            · cases h0
            · exact h0
          obtain ⟨hDj1, hDj2, hDsib, hDup⟩ := noRRCtxF_inl_inv hD
          obtain ⟨hsb, hCup⟩ := ctxBH_inl_inv hC
          rw [eraseRepair.eq_def]
          dsimp only
          by_cases hfr : isRedT foc = true
          · rw [if_pos hfr]
            refine valid_plug (m := n + 1) hA (bhOf_blacken_red hfr hB)
              (ctxBH_inl_intro hsb hCup) ?_ ?_
            · rw [isRedT_blacken]
              exact noRRCtxF_inl_intro (fun _ => rfl) hDj2 hDsib hDup
            · rw [isRedT_plug, headColor_const (by intro hx; cases hx)
                (isRedT (blacken foc)) false]
              show headColor up pr = false
              exact hE0
          · rw [if_neg hfr]
            have hfrf : isRedT foc = false := by
              cases hx : isRedT foc with
              | false => rfl
              | true => exact absurd hx hfr
            have hfocC : noRedRed foc = true := by
              rw [← blacken_black hfrf]
              exact hA
            cases sib with
            | nil =>
                exfalso
                rw [show bhOf (Tr.nil : Tr α β) = some 0 from rfl] at hsb
                have := Option.some.inj hsb
                omega
            | nd S scol sk sv sa sb =>
                by_cases hsr : isRedT (Tr.nd S scol sk sv sa sb) = true
                · -- case 1: red sibling
                  have hscol : scol = true := hsr
                  subst hscol
                  have hpr : pr = false := by
                    cases pr with
                    | false => rfl
                    | true =>
                        have h2 := hDj2 rfl
                        rw [h2] at hsr
                        cases hsr
                  subst hpr
                  obtain ⟨hsaR, hsbR, hsaC, hsbC⟩ := noRedRed_red_inv hDsib
                  obtain ⟨hsa, hsb2⟩ := bh_red_children hsb
                  rw [if_pos hsr]
                  dsimp only
                  cases sa with
                  | nil =>
                      exfalso
                      rw [show bhOf (Tr.nil : Tr α β) = some 0 from rfl] at hsa
                      have := Option.some.inj hsa
                      omega
                  | nd A0 acol ak av aa ab =>
                      have hacol : acol = false := hsaR
                      subst hacol
                      obtain ⟨haaC, habC⟩ := noRedRed_nd_inv hsaC
                      obtain ⟨haa, hab⟩ := bh_blk_children hsa
                      cases fuel with
                      | zero =>
                          simp only [ctxLen] at hfuel
                          omega
                      | succ f2 =>
                          rw [eraseRepair.eq_def]
                          dsimp only
                          rw [if_neg hfr]
                          rw [if_neg (by
                            show ¬(isRedT (Tr.nd A0 false ak av aa ab) = true)
                            simp [isRedT])]
                          rw [show leftT (Tr.nd A0 false ak av aa ab) = aa from rfl,
                            show rightT (Tr.nd A0 false ak av aa ab) = ab from rfl]
                          by_cases hc2 : (!isRedT aa && !isRedT ab) = true
                          · -- the next sibling has two black children: case 2 then exit
                            rw [if_pos hc2]
                            rw [Bool.and_eq_true, Bool.not_eq_true',
                              Bool.not_eq_true'] at hc2
                            cases f2 with
                            | zero =>
                                simp only [ctxLen] at hfuel
                                omega
                            | succ f3 =>
                                rw [eraseRepair.eq_def]
                                dsimp only
                                rw [if_pos (show isRedT (Tr.nd p true pk pv foc
                                  (redden (Tr.nd A0 false ak av aa ab))) = true from rfl)]
                                refine valid_plug (m := n + 1) ?_ ?_ ?_ ?_ ?_
                                · show noRedRed (Tr.nd p false pk pv foc
                                    (redden (Tr.nd A0 false ak av aa ab))) = true
                                  refine noRedRed_nd_intro hfocC ?_
                                    (fun hx => absurd hx (by decide))
                                  exact noRedRed_nd_intro haaC habC
                                    (fun _ => ⟨hc2.1, hc2.2⟩)
                                · show bhOf (Tr.nd p false pk pv foc
                                    (redden (Tr.nd A0 false ak av aa ab))) = some (n + 1)
                                  exact bhOf_nd_some hB
                                    (show bhOf (redden (Tr.nd A0 false ak av aa ab))
                                        = some n from bhOf_nd_some haa hab)
                                · exact ctxBH_inl_intro hsb2 hCup
                                · rw [isRedT_blacken]
                                  exact noRRCtxF_inl_intro (fun hx => absurd hx (by decide))
                                    (fun hx => absurd hx (by decide)) hsbC hDup
                                · rw [isRedT_plug, headColor_const
                                    (by intro hx; cases hx) _ false]
                                  show headColor up false = false
                                  exact hE0
                          · rw [if_neg hc2]
                            by_cases hright : isRedT ab = true
                            · -- case 4 after case 1
                              rw [if_neg (by simp [hright])]
                              cases ab with
                              | nil => exact absurd hright (by simp [isRedT])
                              | nd AB0 abr abk abv aba abb =>
                                  have habr : abr = true := hright
                                  subst habr
                                  dsimp only
                                  obtain ⟨habaR, habbR, habaC, habbC⟩ :=
                                    noRedRed_red_inv habC
                                  obtain ⟨haba, habb⟩ :=
                                    bh_red_children hab
                                  refine valid_blacken_plug (m := n + 1) ?_ ?_
                                    (ctxBH_inl_intro hsb2 hCup) ?_
                                  · refine noRedRed_nd_intro ?_ ?_ (fun _ => ⟨rfl, rfl⟩)
                                    · exact noRedRed_nd_intro hfocC haaC
                                        (fun hx => absurd hx (by decide))
                                    · exact noRedRed_nd_intro habaC habbC
                                        (fun hx => absurd hx (by decide))
                                  · exact bhOf_nd_some (bhOf_nd_some hB haa)
                                      (bhOf_nd_some haba habb)
                                  · exact noRRCtxF_inl_intro (fun hx => absurd hx (by decide))
                                      (fun hx => absurd hx (by decide)) hsbC hDup
                            · -- case 3 then case 4 after case 1
                              have hrightF : isRedT ab = false := by
                                cases hx : isRedT ab with
                                | false => rfl
                                | true => exact absurd hx hright
                              have hleft : isRedT aa = true := by
                                cases hx : isRedT aa with
                                | true => rfl
                                | false =>
                                    exfalso
                                    refine hc2 ?_
                                    rw [hx, hrightF]
                                    rfl
                              rw [if_pos (by simp [hrightF])]
                              cases aa with
                              | nil => exact absurd hleft (by simp [isRedT])
                              | nd AA0 aar aak aav aaa aab =>
                                  have haar : aar = true := hleft
                                  subst haar
                                  dsimp only
                                  obtain ⟨haaaR, haabR, haaaC, haabC⟩ :=
                                    noRedRed_red_inv haaC
                                  obtain ⟨haaa, haab⟩ :=
                                    bh_red_children haa
                                  cases f2 with
                                  | zero =>
                                      simp only [ctxLen] at hfuel
                                      omega
                                  | succ f3 =>
                                      rw [eraseRepair.eq_def]
                                      dsimp only
                                      rw [if_neg hfr]
                                      rw [if_neg (by
                                        show ¬(isRedT (Tr.nd AA0 false aak aav aaa
                                          (Tr.nd A0 true ak av aab ab)) = true)
                                        simp [isRedT])]
                                      rw [if_neg (by
                                        show ¬((!isRedT aaa
                                          && !isRedT (Tr.nd A0 true ak av aab ab)) = true)
                                        simp [isRedT])]
                                      rw [if_neg (by
                                        show ¬((!isRedT (Tr.nd A0 true ak av aab ab)) = true)
                                        simp [isRedT])]
                                      refine valid_blacken_plug (m := n + 1) ?_ ?_
                                        (ctxBH_inl_intro hsb2 hCup) ?_
                                      · refine noRedRed_nd_intro ?_ ?_ (fun _ => ⟨rfl, rfl⟩)
                                        · exact noRedRed_nd_intro hfocC haaaC
                                            (fun hx => absurd hx (by decide))
                                        · exact noRedRed_nd_intro haabC habC
                                            (fun _ => ⟨haabR, hrightF⟩)
                                      · exact bhOf_nd_some (bhOf_nd_some hB haaa)
                                          (bhOf_nd_some haab hab)
                                      · exact noRRCtxF_inl_intro
                                          (fun hx => absurd hx (by decide))
                                          (fun hx => absurd hx (by decide)) hsbC hDup
                · -- black sibling
                  have hscol : scol = false := by
                    cases hx : scol with
                    | false => rfl
                    | true => exact absurd (show isRedT (Tr.nd S scol sk sv sa sb) = true
                        from by rw [hx]; rfl) hsr
                  subst hscol
                  obtain ⟨hsaC, hsbC⟩ := noRedRed_nd_inv hDsib
                  obtain ⟨hsa, hsb2⟩ := bh_blk_children hsb
                  rw [if_neg hsr]
                  by_cases hc2 : (!isRedT (leftT (Tr.nd S false sk sv sa sb))
                      && !isRedT (rightT (Tr.nd S false sk sv sa sb))) = true
                  · -- case 2: recolor the sibling and move up
                    rw [if_pos hc2]
                    rw [show leftT (Tr.nd S false sk sv sa sb) = sa from rfl,
                      show rightT (Tr.nd S false sk sv sa sb) = sb from rfl,
                      Bool.and_eq_true, Bool.not_eq_true', Bool.not_eq_true'] at hc2
                    have harg : (n + 1) + (if pr then 0 else 1)
                        = (n + (if pr then 0 else 1)) + 1 := by
                      cases pr <;> simp
                    rw [harg] at hCup
                    refine ih up (Tr.nd p pr pk pv foc
                      (redden (Tr.nd S false sk sv sa sb)))
                      (n + (if pr then 0 else 1)) ?_ ?_ hCup
                      (noRRCtxF_false_of hDup) ?_ ?_
                    · show noRedRed (Tr.nd p false pk pv foc
                        (redden (Tr.nd S false sk sv sa sb))) = true
                      refine noRedRed_nd_intro hfocC ?_
                        (fun hx => absurd hx (by decide))
                      exact noRedRed_nd_intro hsaC hsbC (fun _ => ⟨hc2.1, hc2.2⟩)
                    · exact bhOf_nd_some hB
                        (show bhOf (redden (Tr.nd S false sk sv sa sb))
                            = some n from bhOf_nd_some hsa hsb2)
                    · by_cases hup : up = Ctx.top
                      · exact Or.inl hup
                      · exact Or.inr (by
                          rw [headColor_const hup false pr]
                          exact hE0)
                    · simp only [ctxLen] at hfuel
                      omega
                  · rw [if_neg hc2]
                    by_cases hc4 : isRedT sb = true
                    · -- case 4 directly
                      rw [if_neg (by
                        show ¬((!isRedT (rightT (Tr.nd S false sk sv sa sb))) = true)
                        show ¬((!isRedT sb) = true)
                        simp [hc4])]
                      cases sb with
                      | nil => exact absurd hc4 (by simp [isRedT])
                      | nd SR srr srk srv sra srb =>
                          have hsrr : srr = true := hc4
                          subst hsrr
                          dsimp only
                          obtain ⟨hsraR, hsrbR, hsraC, hsrbC⟩ := noRedRed_red_inv hsbC
                          obtain ⟨hsra, hsrb⟩ := bh_red_children hsb2
                          refine valid_blacken_plug (m := (n + 1) + (if pr then 0 else 1))
                            ?_ ?_ hCup ?_
                          · refine noRedRed_nd_intro ?_ ?_ (fun _ => ⟨rfl, rfl⟩)
                            · exact noRedRed_nd_intro hfocC hsaC
                                (fun hx => absurd hx (by decide))
                            · exact noRedRed_nd_intro hsraC hsrbC
                                (fun hx => absurd hx (by decide))
                          · exact bhOf_nd_some (bhOf_nd_some hB hsa)
                              (bhOf_nd_some hsra hsrb)
                          · exact hDup
                    · -- case 3 then case 4
                      have hsbF : isRedT sb = false := by
                        cases hx : isRedT sb with
                        | false => rfl
                        | true => exact absurd hx hc4
                      have hsaT : isRedT sa = true := by
                        cases hx : isRedT sa with
                        | true => rfl
                        | false =>
                            exfalso
                            refine hc2 ?_
                            show (!isRedT sa && !isRedT sb) = true
                            rw [hx, hsbF]
                            rfl
                      rw [if_pos (by
                        show ((!isRedT (rightT (Tr.nd S false sk sv sa sb))) = true)
                        show ((!isRedT sb) = true)
                        simp [hsbF])]
                      cases sa with
                      | nil => exact absurd hsaT (by simp [isRedT])
                      | nd SL slr slk slv sla slb =>
                          have hslr : slr = true := hsaT
                          subst hslr
                          dsimp only
                          obtain ⟨hslaR, hslbR, hslaC, hslbC⟩ := noRedRed_red_inv hsaC
                          obtain ⟨hsla, hslb⟩ := bh_red_children hsa
                          cases fuel with
                          | zero =>
                              simp only [ctxLen] at hfuel
                              omega
                          | succ f2 =>
                              rw [eraseRepair.eq_def]
                              dsimp only
                              rw [if_neg hfr]
                              rw [if_neg (by
                                show ¬(isRedT (Tr.nd SL false slk slv sla
                                  (Tr.nd S true sk sv slb sb)) = true)
                                simp [isRedT])]
                              rw [if_neg (by
                                show ¬((!isRedT sla
                                  && !isRedT (Tr.nd S true sk sv slb sb)) = true)
                                simp [isRedT])]
                              rw [if_neg (by
                                show ¬((!isRedT (Tr.nd S true sk sv slb sb)) = true)
                                simp [isRedT])]
                              refine valid_blacken_plug
                                (m := (n + 1) + (if pr then 0 else 1)) ?_ ?_ hCup ?_
                              · refine noRedRed_nd_intro ?_ ?_ (fun _ => ⟨rfl, rfl⟩)
                                · exact noRedRed_nd_intro hfocC hslaC
                                    (fun hx => absurd hx (by decide))
                                · exact noRedRed_nd_intro hslbC hsbC
                                    (fun _ => ⟨hslbR, hsbF⟩)
                              · exact bhOf_nd_some (bhOf_nd_some hB hsla)
                                  (bhOf_nd_some hslb hsb2)
                              · exact hDup
      | inr p pr pk pv sib up =>
          have hE0 : headColor up pr = false := by
            rcases hE with h0 | h0
            · cases h0
            · exact h0
          obtain ⟨hDj1, hDj2, hDsib, hDup⟩ := noRRCtxF_inr_inv hD
          obtain ⟨hsb, hCup⟩ := ctxBH_inr_inv hC
          rw [eraseRepair.eq_def]
          dsimp only
          by_cases hfr : isRedT foc = true
          · rw [if_pos hfr]
            refine valid_plug (m := n + 1) hA (bhOf_blacken_red hfr hB)
              (ctxBH_inr_intro hsb hCup) ?_ ?_
            · rw [isRedT_blacken]
              exact noRRCtxF_inr_intro (fun _ => rfl) hDj2 hDsib hDup
            · rw [isRedT_plug, headColor_const (by intro hx; cases hx)
                (isRedT (blacken foc)) false]
              show headColor up pr = false
              exact hE0
          · rw [if_neg hfr]
            have hfrf : isRedT foc = false := by
              cases hx : isRedT foc with
              | false => rfl
              | true => exact absurd hx hfr
            have hfocC : noRedRed foc = true := by
              rw [← blacken_black hfrf]
              exact hA
            cases sib with
            | nil =>
                exfalso
                rw [show bhOf (Tr.nil : Tr α β) = some 0 from rfl] at hsb
                have := Option.some.inj hsb
                omega
            | nd S scol sk sv sa sb =>
                by_cases hsr : isRedT (Tr.nd S scol sk sv sa sb) = true
                · -- case 1: red sibling
                  have hscol : scol = true := hsr
                  subst hscol
                  have hpr : pr = false := by
                    cases pr with
                    | false => rfl
                    | true =>
                        have h2 := hDj2 rfl
                        rw [h2] at hsr
                        cases hsr
                  subst hpr
                  obtain ⟨hsaR, hsbR, hsaC, hsbC⟩ := noRedRed_red_inv hDsib
                  obtain ⟨hsa, hsb2⟩ := bh_red_children hsb
                  rw [if_pos hsr]
                  dsimp only
                  cases sb with
                  | nil =>
                      exfalso
                      rw [show bhOf (Tr.nil : Tr α β) = some 0 from rfl] at hsb2
                      have := Option.some.inj hsb2
                      omega
                  | nd B0 bcol bk bv ba bb =>
                      have hbcol : bcol = false := hsbR
                      subst hbcol
                      obtain ⟨hbaC, hbbC⟩ := noRedRed_nd_inv hsbC
                      obtain ⟨hba, hbb⟩ := bh_blk_children hsb2
                      cases fuel with
                      | zero =>
                          simp only [ctxLen] at hfuel
                          omega
                      | succ f2 =>
                          rw [eraseRepair.eq_def]
                          dsimp only
                          rw [if_neg hfr]
                          rw [if_neg (by
                            show ¬(isRedT (Tr.nd B0 false bk bv ba bb) = true)
                            simp [isRedT])]
                          rw [show rightT (Tr.nd B0 false bk bv ba bb) = bb from rfl,
                            show leftT (Tr.nd B0 false bk bv ba bb) = ba from rfl]
                          by_cases hc2 : (!isRedT bb && !isRedT ba) = true
                          · -- the next sibling has two black children: case 2 then exit
                            rw [if_pos hc2]
                            rw [Bool.and_eq_true, Bool.not_eq_true',
                              Bool.not_eq_true'] at hc2
                            cases f2 with
                            | zero =>
                                simp only [ctxLen] at hfuel
                                omega
                            | succ f3 =>
                                rw [eraseRepair.eq_def]
                                dsimp only
                                rw [if_pos (show isRedT (Tr.nd p true pk pv
                                  (redden (Tr.nd B0 false bk bv ba bb)) foc) = true from rfl)]
                                refine valid_plug (m := n + 1) ?_ ?_ ?_ ?_ ?_
                                · show noRedRed (Tr.nd p false pk pv
                                    (redden (Tr.nd B0 false bk bv ba bb)) foc) = true
                                  refine noRedRed_nd_intro ?_ hfocC
                                    (fun hx => absurd hx (by decide))
                                  exact noRedRed_nd_intro hbaC hbbC
                                    (fun _ => ⟨hc2.2, hc2.1⟩)
                                · show bhOf (Tr.nd p false pk pv
                                    (redden (Tr.nd B0 false bk bv ba bb)) foc) = some (n + 1)
                                  exact bhOf_nd_some
                                    (show bhOf (redden (Tr.nd B0 false bk bv ba bb))
                                        = some n from bhOf_nd_some hba hbb) hB
                                · exact ctxBH_inr_intro hsa hCup
                                · rw [isRedT_blacken]
                                  exact noRRCtxF_inr_intro (fun hx => absurd hx (by decide))
                                    (fun hx => absurd hx (by decide)) hsaC hDup
                                · rw [isRedT_plug, headColor_const
                                    (by intro hx; cases hx) _ false]
                                  show headColor up false = false
                                  exact hE0
                          · rw [if_neg hc2]
                            by_cases hleft : isRedT ba = true
                            · -- case 4 after case 1
                              rw [if_neg (by simp [hleft])]
                              cases ba with
                              | nil => exact absurd hleft (by simp [isRedT])
                              | nd BA0 bar bak bav baa bab =>
                                  have hbar : bar = true := hleft
                                  subst hbar
                                  dsimp only
                                  obtain ⟨hbaaR, hbabR, hbaaC, hbabC⟩ :=
                                    noRedRed_red_inv hbaC
                                  obtain ⟨hbaa, hbab⟩ :=
                                    bh_red_children hba
                                  refine valid_blacken_plug (m := n + 1) ?_ ?_
                                    (ctxBH_inr_intro hsa hCup) ?_
                                  · refine noRedRed_nd_intro ?_ ?_ (fun _ => ⟨rfl, rfl⟩)
                                    · exact noRedRed_nd_intro hbaaC hbabC
                                        (fun hx => absurd hx (by decide))
                                    · exact noRedRed_nd_intro hbbC hfocC
                                        (fun hx => absurd hx (by decide))
                                  · exact bhOf_nd_some (bhOf_nd_some hbaa hbab)
                                      (bhOf_nd_some hbb hB)
                                  · exact noRRCtxF_inr_intro (fun hx => absurd hx (by decide))
                                      (fun hx => absurd hx (by decide)) hsaC hDup
                            · -- case 3 then case 4 after case 1
                              have hleftF : isRedT ba = false := by
                                cases hx : isRedT ba with
                                | false => rfl
                                | true => exact absurd hx hleft
                              have hright : isRedT bb = true := by
                                cases hx : isRedT bb with
                                | true => rfl
                                | false =>
                                    exfalso
                                    refine hc2 ?_
                                    rw [hx, hleftF]
                                    rfl
                              rw [if_pos (by simp [hleftF])]
                              cases bb with
                              | nil => exact absurd hright (by simp [isRedT])
                              | nd BB0 bbr bbk bbv bba bbb =>
                                  have hbbr : bbr = true := hright
                                  subst hbbr
                                  dsimp only
                                  obtain ⟨hbbaR, hbbbR, hbbaC, hbbbC⟩ :=
                                    noRedRed_red_inv hbbC
                                  obtain ⟨hbba, hbbb⟩ :=
                                    bh_red_children hbb
                                  cases f2 with
                                  | zero =>
                                      simp only [ctxLen] at hfuel
                                      omega
                                  | succ f3 =>
                                      rw [eraseRepair.eq_def]
                                      dsimp only
                                      rw [if_neg hfr]
                                      rw [if_neg (by
                                        show ¬(isRedT (Tr.nd BB0 false bbk bbv
                                          (Tr.nd B0 true bk bv ba bba) bbb) = true)
                                        simp [isRedT])]
                                      rw [if_neg (by
                                        show ¬((!isRedT bbb
                                          && !isRedT (Tr.nd B0 true bk bv ba bba)) = true)
                                        simp [isRedT])]
                                      rw [if_neg (by
                                        show ¬((!isRedT (Tr.nd B0 true bk bv ba bba)) = true)
                                        simp [isRedT])]
                                      refine valid_blacken_plug (m := n + 1) ?_ ?_
                                        (ctxBH_inr_intro hsa hCup) ?_
                                      · refine noRedRed_nd_intro ?_ ?_ (fun _ => ⟨rfl, rfl⟩)
                                        · exact noRedRed_nd_intro hbaC hbbaC
                                            (fun _ => ⟨hleftF, hbbaR⟩)
                                        · exact noRedRed_nd_intro hbbbC hfocC
                                            (fun hx => absurd hx (by decide))
                                      · exact bhOf_nd_some (bhOf_nd_some hba hbba)
                                          (bhOf_nd_some hbbb hB)
                                      · exact noRRCtxF_inr_intro
                                          (fun hx => absurd hx (by decide))
                                          (fun hx => absurd hx (by decide)) hsaC hDup
                · -- black sibling
                  have hscol : scol = false := by
                    cases hx : scol with
                    | false => rfl
                    | true => exact absurd (show isRedT (Tr.nd S scol sk sv sa sb) = true
                        from by rw [hx]; rfl) hsr
                  subst hscol
                  obtain ⟨hsaC, hsbC⟩ := noRedRed_nd_inv hDsib
                  obtain ⟨hsa, hsb2⟩ := bh_blk_children hsb
                  rw [if_neg hsr]
                  by_cases hc2 : (!isRedT (rightT (Tr.nd S false sk sv sa sb))
                      && !isRedT (leftT (Tr.nd S false sk sv sa sb))) = true
                  · -- case 2: recolor the sibling and move up
                    rw [if_pos hc2]
                    rw [show rightT (Tr.nd S false sk sv sa sb) = sb from rfl,
                      show leftT (Tr.nd S false sk sv sa sb) = sa from rfl,
                      Bool.and_eq_true, Bool.not_eq_true', Bool.not_eq_true'] at hc2
                    have harg : (n + 1) + (if pr then 0 else 1)
                        = (n + (if pr then 0 else 1)) + 1 := by
                      cases pr <;> simp
                    rw [harg] at hCup
                    refine ih up (Tr.nd p pr pk pv
                      (redden (Tr.nd S false sk sv sa sb)) foc)
                      (n + (if pr then 0 else 1)) ?_ ?_ hCup
                      (noRRCtxF_false_of hDup) ?_ ?_
                    · show noRedRed (Tr.nd p false pk pv
                        (redden (Tr.nd S false sk sv sa sb)) foc) = true
                      refine noRedRed_nd_intro ?_ hfocC
                        (fun hx => absurd hx (by decide))
                      exact noRedRed_nd_intro hsaC hsbC (fun _ => ⟨hc2.2, hc2.1⟩)
                    · exact bhOf_nd_some
                        (show bhOf (redden (Tr.nd S false sk sv sa sb))
                            = some n from bhOf_nd_some hsa hsb2) hB
                    · by_cases hup : up = Ctx.top
                      · exact Or.inl hup
                      · exact Or.inr (by
                          rw [headColor_const hup false pr]
                          exact hE0)
                    · simp only [ctxLen] at hfuel
                      omega
                  · rw [if_neg hc2]
                    by_cases hc4 : isRedT sa = true
                    · -- case 4 directly
                      rw [if_neg (by
                        show ¬((!isRedT (leftT (Tr.nd S false sk sv sa sb))) = true)
                        show ¬((!isRedT sa) = true)
                        simp [hc4])]
                      cases sa with
                      | nil => exact absurd hc4 (by simp [isRedT])
                      | nd SL slr slk slv sla slb =>
                          have hslr : slr = true := hc4
                          subst hslr
                          dsimp only
                          obtain ⟨hslaR, hslbR, hslaC, hslbC⟩ := noRedRed_red_inv hsaC
                          obtain ⟨hsla, hslb⟩ := bh_red_children hsa
                          refine valid_blacken_plug (m := (n + 1) + (if pr then 0 else 1))
                            ?_ ?_ hCup ?_
                          · refine noRedRed_nd_intro ?_ ?_ (fun _ => ⟨rfl, rfl⟩)
                            · exact noRedRed_nd_intro hslaC hslbC
                                (fun hx => absurd hx (by decide))
                            · exact noRedRed_nd_intro hsbC hfocC
                                (fun hx => absurd hx (by decide))
                          · exact bhOf_nd_some (bhOf_nd_some hsla hslb)
                              (bhOf_nd_some hsb2 hB)
                          · exact hDup
                    · -- case 3 then case 4
                      have hsaF : isRedT sa = false := by
                        cases hx : isRedT sa with
                        | false => rfl
                        | true => exact absurd hx hc4
                      have hsbT : isRedT sb = true := by
                        cases hx : isRedT sb with
                        | true => rfl
                        | false =>
                            exfalso
                            refine hc2 ?_
                            show (!isRedT sb && !isRedT sa) = true
                            rw [hx, hsaF]
                            rfl
                      rw [if_pos (by
                        show ((!isRedT (leftT (Tr.nd S false sk sv sa sb))) = true)
                        show ((!isRedT sa) = true)
                        simp [hsaF])]
                      cases sb with
                      | nil => exact absurd hsbT (by simp [isRedT])
                      | nd SR srr srk srv sra srb =>
                          have hsrr : srr = true := hsbT
                          subst hsrr
                          dsimp only
                          obtain ⟨hsraR, hsrbR, hsraC, hsrbC⟩ := noRedRed_red_inv hsbC
                          obtain ⟨hsra, hsrb⟩ := bh_red_children hsb2
                          cases fuel with
                          | zero =>
                              simp only [ctxLen] at hfuel
                              omega
                          | succ f2 =>
                              rw [eraseRepair.eq_def]
                              dsimp only
                              rw [if_neg hfr]
                              rw [if_neg (by
                                show ¬(isRedT (Tr.nd SR false srk srv
                                  (Tr.nd S true sk sv sa sra) srb) = true)
                                simp [isRedT])]
                              rw [if_neg (by
                                show ¬((!isRedT srb
                                  && !isRedT (Tr.nd S true sk sv sa sra)) = true)
                                simp [isRedT])]
                              rw [if_neg (by
                                show ¬((!isRedT (Tr.nd S true sk sv sa sra)) = true)
                                simp [isRedT])]
                              refine valid_blacken_plug
                                (m := (n + 1) + (if pr then 0 else 1)) ?_ ?_ hCup ?_
                              · refine noRedRed_nd_intro ?_ ?_ (fun _ => ⟨rfl, rfl⟩)
                                · exact noRedRed_nd_intro hsaC hsraC
                                    (fun _ => ⟨hsaF, hsraR⟩)
                                · exact noRedRed_nd_intro hsrbC hfocC
                                    (fun hx => absurd hx (by decide))
                              · exact bhOf_nd_some (bhOf_nd_some hsa hsra)
                                  (bhOf_nd_some hsrb hB)
                              · exact hDup

theorem headColor_of_root {c : Ctx α β} {v w : Bool}
    (h : headColor c v = false) (hw : c = Ctx.top → w = false) :
    headColor c w = false := by
  cases c with
  | top => exact hw rfl
  | inl p pr pk pv sib up => exact h
  | inr p pr pk pv sib up => exact h

theorem minZip_eq_plug : ∀ {t : Tr α β} {c : Ctx α β} {f : Tr α β},
    minZip t Ctx.top = some (c, f) → Ctx.plug c f = t := by
  intro t
  induction t with
  | nil =>
      intro c f h
      cases h
  | nd i r k v l rt ihl ihr =>
      intro c f h
      cases l with
      | nil =>
          rw [show minZip (Tr.nd i r k v Tr.nil rt) Ctx.top
              = some (Ctx.top, Tr.nd i r k v Tr.nil rt) from rfl] at h
          have h2 := Option.some.inj h
          injection h2 with h3 h4
          subst h3
          subst h4
          rfl
      | nd li lr lk lv ll lrt =>
          rw [show minZip (Tr.nd i r k v (Tr.nd li lr lk lv ll lrt) rt) Ctx.top
              = minZip (Tr.nd li lr lk lv ll lrt) (Ctx.inl i r k v rt Ctx.top) from rfl,
            minZip_ctx] at h
          cases hl : minZip (Tr.nd li lr lk lv ll lrt) Ctx.top with
          | none =>
              rw [hl] at h
              cases h
          | some z =>
              rw [hl] at h
              have h2 := Option.some.inj h
              injection h2 with h3 h4
              subst h3
              subst h4
              rw [plug_comp]
              rw [ihl (show minZip (Tr.nd li lr lk lv ll lrt) Ctx.top
                  = some (z.1, z.2) from by rw [hl])]
              rfl

theorem findZ_shape (lt : α → α → Bool) [DecidableEq α] :
    ∀ (t : Tr α β) (key : α) (c0 : Ctx α β) {c : Ctx α β} {f : Tr α β},
      findZ lt t key c0 = some (c, f) →
      ∃ j dr dk dv a b, f = Tr.nd j dr dk dv a b := by
  intro t
  induction t with
  | nil =>
      intro key c0 c f h
      cases h
  | nd i r k v l rt ihl ihr =>
      intro key c0 c f h
      rw [findZ] at h
      by_cases hk : key = k
      · rw [if_pos hk] at h
        have h2 := Option.some.inj h
        injection h2 with h3 h4
        exact ⟨i, r, k, v, l, rt, h4.symm⟩
      · rw [if_neg hk] at h
        by_cases hlt : lt k key = true
        · rw [if_pos hlt] at h
          exact ihr key _ h
        · rw [if_neg hlt] at h
          exact ihl key _ h

/-- Validity of the successor-splice step of `erase` on a node with two real
children: the detached successor's color decides whether the repair loop
runs, and either way the result keeps the color and black-height
invariants. -/
theorem splice_repair_valid (d : Ctx α β) {fuel : Nat} {ctx : Ctx α β}
    {j s : Nat} {dr scol : Bool} {dk sk : α} {dv sv : β} {a b sr : Tr α β}
    (hb : b = Ctx.plug d (Tr.nd s scol sk sv Tr.nil sr))
    (hnr : noRedRed (Ctx.plug ctx (Tr.nd j dr dk dv a b)) = true)
    (hbh : (bhOf (Ctx.plug ctx (Tr.nd j dr dk dv a b))).isSome = true)
    (hroot : isRedT (Ctx.plug ctx (Tr.nd j dr dk dv a b)) = false)
    (hfuel : ctxLen (Ctx.comp d (Ctx.inr s dr sk sv a ctx)) + 4 ≤ fuel) :
    noRedRed (if (!scol) = true
        then eraseRepair fuel (Ctx.comp d (Ctx.inr s dr sk sv a ctx)) sr
        else Ctx.plug (Ctx.comp d (Ctx.inr s dr sk sv a ctx)) sr) = true ∧
      (bhOf (if (!scol) = true
        then eraseRepair fuel (Ctx.comp d (Ctx.inr s dr sk sv a ctx)) sr
        else Ctx.plug (Ctx.comp d (Ctx.inr s dr sk sv a ctx)) sr)).isSome = true ∧
      isRedT (if (!scol) = true
        then eraseRepair fuel (Ctx.comp d (Ctx.inr s dr sk sv a ctx)) sr
        else Ctx.plug (Ctx.comp d (Ctx.inr s dr sk sv a ctx)) sr) = false := by
  obtain ⟨hfC, hctxRR⟩ := (noRedRed_plug ctx (Tr.nd j dr dk dv a b)).mp hnr
  obtain ⟨m, hfm, hctxm⟩ := bh_decomp rfl hbh
  obtain ⟨q, hqa, hqb, hm⟩ := bhOf_nd_inv hfm
  obtain ⟨haC, hbC⟩ := noRedRed_nd_inv hfC
  have hrootc : headColor ctx dr = false := by
    have h0 := isRedT_plug ctx (Tr.nd j dr dk dv a b)
    rw [hroot] at h0
    exact h0.symm
  have hbC2 : noRedRed (Ctx.plug d (Tr.nd s scol sk sv Tr.nil sr)) = true := by
    rw [← hb]
    exact hbC
  obtain ⟨hfBC, hdRR⟩ :=
    (noRedRed_plug d (Tr.nd s scol sk sv Tr.nil sr)).mp hbC2
  obtain ⟨hsrC0, hsrC⟩ := noRedRed_nd_inv hfBC
  have hqb2 : (bhOf (Tr.nd s scol sk sv Tr.nil sr)).bind (ctxBH d) = some q := by
    rw [← bhOf_plug, ← hb]
    exact hqb
  cases hfb : bhOf (Tr.nd s scol sk sv Tr.nil sr) with
  | none =>
      rw [hfb] at hqb2
      cases hqb2
  | some qB =>
      rw [hfb] at hqb2
      have hdq : ctxBH d qB = some q := hqb2
      obtain ⟨e, he1, he2, he3⟩ := bhOf_nd_inv hfb
      have he0 : (0 : Nat) = e := Option.some.inj he1
      subst he0
      have hbcol : isRedT b = headColor d scol := by
        rw [hb, isRedT_plug]
        rfl
      have hhc2 : ∀ v, headColor (Ctx.comp d (Ctx.inr s dr sk sv a ctx)) v
          = false := by
        intro v
        rw [headColor_comp]
        show headColor ctx dr = false
        exact hrootc
      have hframe : ∀ v, (dr = true → v = false) →
          noRRCtxF (Ctx.inr s dr sk sv a ctx) v = true := by
        intro v hv
        cases dr with
        | false =>
            exact noRRCtxF_inr_intro (fun hx => absurd hx (by decide))
              (fun hx => absurd hx (by decide)) haC hctxRR
        | true =>
            obtain ⟨haR, hbR, h5, h6⟩ := noRedRed_red_inv hfC
            exact noRRCtxF_inr_intro (fun hx => hv rfl) (fun hx => haR)
              haC hctxRR
      have hD2 : noRRCtxF (Ctx.comp d (Ctx.inr s dr sk sv a ctx)) false = true := by
        rw [noRRCtxF_comp, Bool.and_eq_true]
        constructor
        · exact noRRCtxF_false_of (show noRRCtxF d scol = true from hdRR)
        · refine hframe (headColor d false) ?_
          intro hdr
          have hbR : isRedT b = false :=
            (noRedRed_red_inv
              (show noRedRed (Tr.nd j true dk dv a b) = true from hdr ▸ hfC)).2.1
          rw [hbcol] at hbR
          cases d with
          | top => rfl
          | inl p2 pr2 pk2 pv2 sib2 up2 => exact hbR
          | inr p2 pr2 pk2 pv2 sib2 up2 => exact hbR
      rw [hm] at hctxm
      have hframeBH : (ctxBH (Ctx.inr s dr sk sv a ctx) q).isSome = true :=
        ctxBH_inr_intro hqa hctxm
      have hC2 : (ctxBH (Ctx.comp d (Ctx.inr s dr sk sv a ctx)) qB).isSome
          = true := by
        rw [ctxBH_comp, hdq]
        exact hframeBH
      cases scol with
      | false =>
          rw [if_pos (show (!(false : Bool)) = true from rfl)]
          rw [he3] at hC2
          refine eraseRepair_valid fuel (Ctx.comp d (Ctx.inr s dr sk sv a ctx))
            sr 0 (noRedRed_blacken hsrC) he2 hC2 hD2 (Or.inr (hhc2 false)) hfuel
      | true =>
          rw [if_neg (show ¬((!(true : Bool)) = true) from by decide)]
          obtain ⟨h1, hsrR, h3, h4⟩ := noRedRed_red_inv hfBC
          rw [he3] at hC2
          refine valid_plug hsrC he2 hC2 ?_ ?_
          · rw [hsrR]
            exact hD2
          · rw [isRedT_plug]
            exact hhc2 _

/-- `RBT::erase` of any real node in a tree satisfying the color and
black-height invariants yields a tree satisfying them again. -/
theorem erase_valid {fuel : Nat} {ctx : Ctx α β} {j : Nat} {dr : Bool}
    {dk : α} {dv : β} {a b : Tr α β}
    (hnr : noRedRed (Ctx.plug ctx (Tr.nd j dr dk dv a b)) = true)
    (hbh : (bhOf (Ctx.plug ctx (Tr.nd j dr dk dv a b))).isSome = true)
    (hroot : isRedT (Ctx.plug ctx (Tr.nd j dr dk dv a b)) = false)
    (hfuel : ctxLen ctx + Tr.sizeT b + 4 ≤ fuel) :
    noRedRed (erase fuel ctx (Tr.nd j dr dk dv a b)) = true ∧
      (bhOf (erase fuel ctx (Tr.nd j dr dk dv a b))).isSome = true ∧
      isRedT (erase fuel ctx (Tr.nd j dr dk dv a b)) = false := by
  obtain ⟨hfC, hctxRR⟩ := (noRedRed_plug ctx (Tr.nd j dr dk dv a b)).mp hnr
  obtain ⟨m, hfm, hctxm⟩ := bh_decomp rfl hbh
  obtain ⟨q, hqa, hqb, hm⟩ := bhOf_nd_inv hfm
  obtain ⟨haC, hbC⟩ := noRedRed_nd_inv hfC
  have hrootc : headColor ctx dr = false := by
    have h0 := isRedT_plug ctx (Tr.nd j dr dk dv a b)
    rw [hroot] at h0
    exact h0.symm
  cases a with
  | nil =>
      rw [erase.eq_def]
      dsimp only
      cases dr with
      | true =>
          rw [if_neg (by decide)]
          obtain ⟨h1, hbR, h3, h4⟩ := noRedRed_red_inv hfC
          rw [hm] at hctxm
          refine valid_plug hbC hqb hctxm ?_ ?_
          · rw [hbR]
            exact noRRCtxF_false_of
              (show noRRCtxF ctx true = true from hctxRR)
          · rw [isRedT_plug]
            exact headColor_of_root hrootc (fun h5 => hbR)
      | false =>
          rw [if_pos (by decide)]
          rw [hm] at hctxm
          exact eraseRepair_valid fuel ctx b q (noRedRed_blacken hbC) hqb
            hctxm hctxRR (Or.inr hrootc) (by omega)
  | nd a0 ar ak2 av2 aa ab2 =>
      cases b with
      | nil =>
          rw [erase.eq_def]
          dsimp only
          cases dr with
          | true =>
              rw [if_neg (by decide)]
              obtain ⟨haR, h2, h3, h4⟩ := noRedRed_red_inv hfC
              rw [hm] at hctxm
              refine valid_plug haC hqa hctxm ?_ ?_
              · rw [haR]
                exact noRRCtxF_false_of
                  (show noRRCtxF ctx true = true from hctxRR)
              · rw [isRedT_plug]
                exact headColor_of_root hrootc (fun h5 => haR)
          | false =>
              rw [if_pos (by decide)]
              rw [hm] at hctxm
              exact eraseRepair_valid fuel ctx (Tr.nd a0 ar ak2 av2 aa ab2) q
                (noRedRed_blacken haC) hqa hctxm hctxRR (Or.inr hrootc) (by omega)
      | nd b0 br bk2 bv2 ba bb =>
          obtain ⟨c2, i2, r2, k2, v2, sr2, R, Ri, hmz, hpi, hpd, hio, hid⟩ :=
            minZip_spec (Tr.nd b0 br bk2 bv2 ba bb) (by simp)
          rw [erase.eq_def]
          dsimp only
          rw [hmz]
          dsimp only
          have hplug := minZip_eq_plug hmz
          have hfuel2 : ctxLen (Ctx.comp c2
              (Ctx.inr i2 dr k2 v2 (Tr.nd a0 ar ak2 av2 aa ab2) ctx)) + 4
              ≤ fuel := by
            have h1 := ctxLen_le_idsC c2 (Tr.nd i2 r2 k2 v2 Tr.nil sr2).ids
            rw [← ids_plug, hplug] at h1
            have h3 := ids_length_sizeT (Tr.nd b0 br bk2 bv2 ba bb)
            have h2 : 1 ≤ (Tr.nd i2 r2 k2 v2 Tr.nil sr2).ids.length := by
              simp [Tr.ids]
            rw [ctxLen_comp]
            simp only [ctxLen]
            simp only [Tr.sizeT] at hfuel h3
            omega
          cases c2 with
          | top =>
              exact splice_repair_valid Ctx.top hplug.symm hnr hbh hroot hfuel2
          | inl q1 q2 q3 q4 q5 q6 =>
              exact splice_repair_valid (Ctx.inl q1 q2 q3 q4 q5 q6) hplug.symm
                hnr hbh hroot hfuel2
          | inr q1 q2 q3 q4 q5 q6 =>
              exact splice_repair_valid (Ctx.inr q1 q2 q3 q4 q5 q6) hplug.symm
                hnr hbh hroot hfuel2

/-- `RBT::deleteKey` preserves the color and black-height invariants. -/
theorem deleteKey_RBInv (lt : α → α → Bool) [DecidableEq α] (s : St α β)
    (key : α) (hrb : RBInv s) : RBInv (deleteKey lt s key) := by
  obtain ⟨hr, hnr, hbh⟩ := hrb
  cases hf : findZ lt s.root key Ctx.top with
  | none =>
      rw [deleteKey, hf]
      exact ⟨hr, hnr, hbh⟩
  | some z =>
      obtain ⟨c, f⟩ := z
      obtain ⟨j, dr, dk2, dv2, a, b, rfl⟩ := findZ_shape lt s.root key Ctx.top hf
      have hplug := findZ_eq_plug lt hf
      rw [deleteKey, hf]
      dsimp only
      have hfuel : ctxLen c + Tr.sizeT b + 4 ≤ s.root.sizeT * 3 + 3 := by
        have h1 := ctxLen_le_idsC c (Tr.nd j dr dk2 dv2 a b).ids
        rw [← ids_plug, hplug] at h1
        have h2 := ids_length_sizeT (Tr.nd j dr dk2 dv2 a b)
        have h4 := ids_length_sizeT s.root
        simp only [Tr.sizeT] at h2
        omega
      have h := erase_valid
        (show noRedRed (Ctx.plug c (Tr.nd j dr dk2 dv2 a b)) = true from by
          rw [hplug]; exact hnr)
        (show (bhOf (Ctx.plug c (Tr.nd j dr dk2 dv2 a b))).isSome = true from by
          rw [hplug]; exact hbh)
        (show isRedT (Ctx.plug c (Tr.nd j dr dk2 dv2 a b)) = false from by
          rw [hplug]; exact hr)
        hfuel
      exact ⟨h.2.2, h.1, h.2.1⟩

/-- Both well-formedness and the color invariants pass through any sequence
of inserts and deletes. -/
theorem foldApply_WF_RBInv (lt : α → α → Bool) [DecidableEq α]
    (hl : LawfulLt lt) :
    ∀ (ops : List (Op α β)) (s : St α β), WFSt lt s → RBInv s →
      WFSt lt (ops.foldl (applyOp lt) s) ∧
        RBInv (ops.foldl (applyOp lt) s) := by
  intro ops
  induction ops with
  | nil =>
      intro s hw hr
      exact ⟨hw, hr⟩
  | cons op rest ih =>
      intro s hw hr
      rw [List.foldl_cons]
      cases op with
      | ins k v =>
          exact ih (insertS lt s (k, v)) (insertS_WF lt hl s k v hw)
            (insertS_RBInv lt s (k, v) hw.1 hw.2.1 hr)
      | del k =>
          exact ih (deleteKey lt s k) (deleteKey_WF lt hl s k hw)
            (deleteKey_RBInv lt s k hr)

end MapSpec

open MapSpec

/-- The concrete comparator is a strict total order. -/
theorem lawful_ltN : LawfulLt ltN := by
  refine ⟨fun a => ?_, fun a b c h1 h2 => ?_, fun a b h => ?_⟩ <;>
    simp [ltN] at * <;> omega

/-- The concrete three-key map is well-formed. -/
theorem mapABC_WF : WFSt ltN mapABC.st := by
  refine ⟨by decide, by decide, ?_, by decide⟩
  show (keysList mapABC.st.root).Pairwise (fun a b => ltN a b = true)
  decide

/-- C3: counterexample — on the map with keys 10, 20, 30, the `Map.h`
revision's `lower_bound(15)` returns the end iterator although the entry
with key 20 is not ordered before 15, and `lower_bound(25)` returns the
entry with key 10, which is ordered before 25; so `lower_bound` does not
return the first entry whose key is not ordered before the given key. -/
theorem c3Counterexample :
    lowerBoundHdr ltN mapABC 15 = endIt mapABC ∧
    lowerBoundHdr ltN mapABC 25 = ⟨Pos.real 0, 0⟩ ∧
    readNd mapABC.st.root 0 = some (Tr.nd 0 true 10 1 Tr.nil Tr.nil) ∧
    keysList mapABC.st.root = [10, 20, 30] := by decide

/-- C3 (amended): the module revision (`part_001`) of `lower_bound` is
correct on every well-formed map: scanning the in-order id/key pairs, if no
key fails to be ordered before the target the result is the end iterator;
otherwise the result is the iterator on the address of the first in-order
pair whose key is not ordered before the target, that key is indeed not
below the target, and dereferencing the address reads a node carrying
exactly that key. The header revision (`Map.h`) breaks the claim
(`c3Counterexample`). -/
theorem c3Amended (lt : α → α → Bool) [DecidableEq α] (hl : LawfulLt lt)
    (M : Mp α β) (key : α) (hw : WFSt lt M.st) :
    match (pairsIK M.st.root).find? (fun p => !(lt p.2 key)) with
    | none => lowerBoundMod lt M key = endIt M
    | some p =>
        lowerBoundMod lt M key = ⟨Pos.real p.1, M.mid⟩ ∧
          lt p.2 key = false ∧
          ∃ rb v li rt, readNd M.st.root p.1 = some (Tr.nd p.1 rb p.2 v li rt) := by
  have hb : bstB lt M.st.root = true := (bstB_iff_sorted lt hl M.st.root).mpr hw.2.2.1
  have hspec := lowerBoundModGo_spec lt hl key M.st.root hb none
  cases hf : (pairsIK M.st.root).find? (fun p => !(lt p.2 key)) with
  | none =>
      rw [hf] at hspec
      rw [lowerBoundMod, hspec]
      rfl
  | some p =>
      obtain ⟨pi, pk⟩ := p
      rw [hf] at hspec
      refine ⟨?_, ?_, ?_⟩
      · rw [lowerBoundMod, hspec]
        rfl
      · have hp := List.find?_some hf
        simpa using hp
      · have hmem := List.mem_of_find?_eq_some hf
        obtain ⟨c, rb, v2, li, rt2, hc⟩ := locate_pairs hw.1 hmem
        refine ⟨rb, v2, li, rt2, ?_⟩
        rw [readNd, hc]
        rfl

/-- C3 witness: the concrete map with keys 10, 20, 30 and the target 15;
the first qualifying pair is the key 20 at its node address. -/
theorem c3AmendedWitness :
    LawfulLt ltN ∧ WFSt ltN mapABC.st ∧
      (match (pairsIK mapABC.st.root).find? (fun p => !(ltN p.2 15)) with
        | none => lowerBoundMod ltN mapABC 15 = endIt mapABC
        | some p =>
            lowerBoundMod ltN mapABC 15 = ⟨Pos.real p.1, mapABC.mid⟩ ∧
              ltN p.2 15 = false ∧
              ∃ rb v li rt,
                readNd mapABC.st.root p.1 = some (Tr.nd p.1 rb p.2 v li rt)) :=
  ⟨lawful_ltN, mapABC_WF, c3Amended ltN lawful_ltN mapABC 15 mapABC_WF⟩

/-- C4: evaluation at the failing input — two maps each built from the
single pair (1, 10), living at distinct addresses 0 and 1, have identical
in-order contents and equal sizes, yet `Map::operator==` of `Map.h` returns
`false`, because its loop compares the iterators themselves (node address
and map address) instead of the pointed-to entries. -/
theorem c4CodeBugEval :
    mapEqHdr (⟨fromVector ltN [(1, 10)], 0⟩ : Mp Nat Nat) ⟨fromVector ltN [(1, 10)], 1⟩ = false ∧
    (fromVector ltN [(1, 10)] : St Nat Nat).root.inorder = [(1, 10)] ∧
    (fromVector ltN [(1, 10)] : St Nat Nat).count = 1 := by decide

/-- C5: counterexample — merging the one-entry map B (address 1) into the
empty map A (address 0) with the `Map.h` revision of `mergeMaps` does copy
B's entry into A, but leaves B with its entry and size 1: B is not left
empty. -/
theorem c5Counterexample :
    ((mergeMapsHdr ltN (⟨emptySt, 0⟩ : Mp Nat Nat) ⟨fromVector ltN [(1, 10)], 1⟩).1).st.root.inorder
      = [(1, 10)] ∧
    ((mergeMapsHdr ltN (⟨emptySt, 0⟩ : Mp Nat Nat) ⟨fromVector ltN [(1, 10)], 1⟩).2).st.count = 1 ∧
    ((mergeMapsHdr ltN (⟨emptySt, 0⟩ : Mp Nat Nat) ⟨fromVector ltN [(1, 10)], 1⟩).2).st.root.inorder
      = [(1, 10)] := by decide

/-- C5 (amended): only the module revision (`part_001`) of `mergeMaps`
drains the source: after it, the source map is empty (root sentinel, size
0), the destination is exactly the fold of `insert` over the source's
in-order entries, so it contains every entry of the source (the source's
value winning on key collision) and keeps every destination entry whose key
the source does not carry. The `Map.h` revision leaves the source intact
(`c5Counterexample`). -/
theorem c5Amended (lt : α → α → Bool) [DecidableEq α] (hl : LawfulLt lt)
    (A B : Mp α β) (hwA : WFSt lt A.st) (hwB : WFSt lt B.st) :
    (mergeMapsMod lt A B).2.st.root = Tr.nil ∧
      (mergeMapsMod lt A B).2.st.count = 0 ∧
      (mergeMapsMod lt A B).1.st = B.st.root.inorder.foldl (insertS lt) A.st ∧
      (∀ k v, (k, v) ∈ B.st.root.inorder →
        (k, v) ∈ (mergeMapsMod lt A B).1.st.root.inorder) ∧
      (∀ k v, (k, v) ∈ A.st.root.inorder → k ∉ keysList B.st.root →
        (k, v) ∈ (mergeMapsMod lt A B).1.st.root.inorder) := by
  have hfold : (mergeMapsMod lt A B).1.st
      = B.st.root.inorder.foldl (insertS lt) A.st :=
    mergeGo_inorder lt B hwB.1 A.st
  have hndB : (B.st.root.inorder.map Prod.fst).Nodup :=
    sorted_keys_nodup hl hwB.2.2.1
  obtain ⟨_, _, hmem⟩ := foldl_insert_model lt hl B.st.root.inorder A.st hwA
  refine ⟨rfl, rfl, hfold, ?_, ?_⟩
  · intro k v hkv
    rw [hfold]
    refine (hmem k v).mpr ?_
    rw [find?_reverse_key hndB hkv]
  · intro k v hkv hkB
    rw [hfold]
    refine (hmem k v).mpr ?_
    have hfn : B.st.root.inorder.reverse.find? (fun p => decide (p.1 = k))
        = none := by
      rw [List.find?_eq_none]
      intro p hp
      have hpk : p.1 ∈ keysList B.st.root :=
        List.mem_map_of_mem Prod.fst (List.mem_reverse.mp hp)
      simp only [decide_eq_true_eq]
      intro hpe
      exact hkB (hpe ▸ hpk)
    rw [hfn]
    exact hkv

/-- C5 witness: merging the two-key map with keys 20, 40 (key 20 colliding
with the destination) into the concrete map with keys 10, 20, 30. -/
theorem c5AmendedWitness :
    LawfulLt ltN ∧ WFSt ltN mapABC.st ∧
      WFSt ltN (⟨fromVector ltN [(20, 5), (40, 9)], 1⟩ : Mp Nat Nat).st ∧
      ((mergeMapsMod ltN mapABC ⟨fromVector ltN [(20, 5), (40, 9)], 1⟩).2.st.root
          = Tr.nil ∧
        (mergeMapsMod ltN mapABC ⟨fromVector ltN [(20, 5), (40, 9)], 1⟩).2.st.count
          = 0 ∧
        (mergeMapsMod ltN mapABC ⟨fromVector ltN [(20, 5), (40, 9)], 1⟩).1.st
          = (⟨fromVector ltN [(20, 5), (40, 9)], 1⟩ :
              Mp Nat Nat).st.root.inorder.foldl (insertS ltN) mapABC.st ∧
        (∀ k v, (k, v) ∈ (⟨fromVector ltN [(20, 5), (40, 9)], 1⟩ :
              Mp Nat Nat).st.root.inorder →
          (k, v) ∈ (mergeMapsMod ltN mapABC
              ⟨fromVector ltN [(20, 5), (40, 9)], 1⟩).1.st.root.inorder) ∧
        (∀ k v, (k, v) ∈ mapABC.st.root.inorder →
          k ∉ keysList (⟨fromVector ltN [(20, 5), (40, 9)], 1⟩ :
              Mp Nat Nat).st.root →
          (k, v) ∈ (mergeMapsMod ltN mapABC
              ⟨fromVector ltN [(20, 5), (40, 9)], 1⟩).1.st.root.inorder)) :=
  ⟨lawful_ltN, mapABC_WF,
    ⟨by decide, by decide,
      (by decide :
        (keysList (⟨fromVector ltN [(20, 5), (40, 9)], 1⟩ :
            Mp Nat Nat).st.root).Pairwise (fun a b => ltN a b = true)),
      by decide⟩,
    c5Amended ltN lawful_ltN mapABC ⟨fromVector ltN [(20, 5), (40, 9)], 1⟩
      mapABC_WF
      ⟨by decide, by decide,
        (by decide :
          (keysList (⟨fromVector ltN [(20, 5), (40, 9)], 1⟩ :
              Mp Nat Nat).st.root).Pairwise (fun a b => ltN a b = true)),
        by decide⟩⟩

/-- C6: counterexample — on the non-empty map with the single key 10 (a
subtree of `mapABC` would do as well), incrementing the end iterator returns
it unchanged and reports nothing: `Iterator::operator++` checks
`*this == map->end()` and silently returns, so advancing past end is a
silent clamp, not a reported error. -/
theorem c6Counterexample :
    iterInc (⟨fromVector ltN [(10, 1)], 0⟩ : Mp Nat Nat)
        (endIt ⟨fromVector ltN [(10, 1)], 0⟩)
      = endIt (⟨fromVector ltN [(10, 1)], 0⟩ : Mp Nat Nat) := by decide

/-- C6 (amended): for every map, decrementing the begin iterator throws
`out_of_range`, `prev()` at begin throws, `next()` at end throws, but
`operator++` at end is a silent no-op that leaves the iterator at end. -/
theorem c6Amended (M : Mp α β) :
    iterDec M (beginIt M) = Except.error ("Cannot decrement iterator past the beginning.") ∧
    iterPrev M (beginIt M)
      = Except.error ("Cannot access previous element from the first element.") ∧
    iterNext M (endIt M) = Except.error ("Cannot access next element from end().") ∧
    iterInc M (endIt M) = endIt M := by
  refine ⟨?_, ?_, ?_, ?_⟩ <;> simp [iterDec, iterPrev, iterNext, iterInc]

/-- C7: evaluation at the failing input — `operator[]` with key 0 on an
empty map stores exactly one entry (so `count(0) == 1`), but the running
element count becomes 2, not 1: `RBT::operator[]` calls `insert`, which
already increments the count, and then increments it again. -/
theorem c7CodeBugEval :
    (opIndex ltN (emptySt : St Nat Nat) 0).count = 2 ∧
    countKey ltN (opIndex ltN (emptySt : St Nat Nat) 0) 0 = 1 ∧
    (opIndex ltN (emptySt : St Nat Nat) 0).root.inorder = [(0, 0)] := by decide

/-- C8: counterexample — `find` on the absent key 15 of the map with keys
10, 20, 30 returns a null pointer in the header revision (`RBT.h`, reached
through `Map::find` of `Map.h`), which is a not-found signal but not the
end sentinel; the module revision returns the sentinel.  `erase` of the
same absent key is indeed a silent no-op. -/
theorem c8Counterexample :
    findHdrP ltN mapABC.st.root 15 = Pos.pnull ∧
    Pos.pnull ≠ Pos.sent ∧
    findModP ltN mapABC.st.root 15 = Pos.sent ∧
    deleteKey ltN mapABC.st 15 = mapABC.st := by decide

/-- C8 (amended): erasing an absent key is a silent no-op that leaves the
state unchanged, and find of an absent key returns a non-error not-found
signal: the null pointer in the header revision (`RBT.h`, surfaced by
`Map::find` of `Map.h`), the sentinel — and the end iterator at map level —
in the module revision. -/
theorem c8Amended (lt : α → α → Bool) [DecidableEq α] (s : St α β) (mid : Nat)
    (key : α) (h : key ∉ keysList s.root) :
    deleteKey lt s key = s ∧
      findHdrP lt s.root key = Pos.pnull ∧
      findModP lt s.root key = Pos.sent ∧
      mapFindModIt lt ⟨s, mid⟩ key = endIt ⟨s, mid⟩ := by
  have hnone := findZ_not_mem lt (by rwa [keysList] at h) (t := s.root) Ctx.top
  refine ⟨?_, ?_, ?_, ?_⟩
  · rw [deleteKey.eq_def, hnone]
  · rw [findHdrP, hnone]
  · rw [findModP, hnone]
  · rw [mapFindModIt, findModP, hnone]

/-- C8 witness: the absent key 15 on the concrete map with keys 10, 20, 30. -/
theorem c8AmendedWitness :
    (15 ∉ keysList mapABC.st.root) ∧
      (deleteKey ltN mapABC.st 15 = mapABC.st ∧
        findHdrP ltN mapABC.st.root 15 = Pos.pnull ∧
        findModP ltN mapABC.st.root 15 = Pos.sent ∧
        mapFindModIt ltN ⟨mapABC.st, 0⟩ 15 = endIt ⟨mapABC.st, 0⟩) :=
  ⟨by decide, c8Amended ltN mapABC.st 0 15 (by decide)⟩

/-- C2: inserting `N` pairwise-distinct keys into an empty map makes
`size()` equal `N`; inserting a key already present keeps `size()` and
stores the new value for it; erasing a present key decrements `size()` by
exactly one; erasing an absent key leaves the state unchanged. -/
theorem c2RoundTripSize (lt : α → α → Bool) [DecidableEq α] (hl : LawfulLt lt)
    (s : St α β) (key : α) (v : β) (l : List (α × β))
    (hw : WFSt lt s) (hld : (l.map Prod.fst).Nodup) :
    (l.foldl (insertS lt) emptySt).count = l.length ∧
      (key ∈ keysList s.root →
        (insertS lt s (key, v)).count = s.count ∧
          (key, v) ∈ (insertS lt s (key, v)).root.inorder) ∧
      (key ∈ keysList s.root → (deleteKey lt s key).count + 1 = s.count) ∧
      (key ∉ keysList s.root → deleteKey lt s key = s) := by
  have hb := (bstB_iff_sorted lt hl s.root).mpr hw.2.2.1
  refine ⟨?_, ?_, ?_, ?_⟩
  · have h0 : ∀ k ∈ l.map Prod.fst, k ∉ keysList (emptySt : St α β).root := by
      intro k _
      simp [emptySt, keysList, Tr.inorder]
    rw [foldl_insert_count lt hl l emptySt (emptySt_WF lt) hld h0]
    simp [emptySt]
  · intro hm
    refine ⟨by rw [(insertS_spec lt hl s key v hb).2.1, if_pos hm], ?_⟩
    rw [(insertS_spec lt hl s key v hb).1]
    exact (mem_sortedUpsert hl key v _ key v).mpr (Or.inl ⟨rfl, rfl⟩)
  · intro hm
    rw [(deleteKey_spec lt hl s key hw).2.1, if_pos hm]
    have hpos : 0 < s.count := by
      rw [hw.2.2.2]
      obtain ⟨p, hp, _⟩ := List.mem_map.mp (by rwa [keysList] at hm)
      exact List.length_pos.mpr (List.ne_nil_of_mem hp)
    omega
  · intro hm
    rw [deleteKey.eq_def, findZ_not_mem lt (by rwa [keysList] at hm) Ctx.top]

/-- C2 witness: the concrete map, the present key 20 and the absent key
handled by the last conjunct through the distinct list [(1,5),(2,6)]. -/
theorem c2RoundTripSizeWitness :
    LawfulLt ltN ∧ WFSt ltN mapABC.st ∧
      ((([(1, 5), (2, 6)] : List (Nat × Nat)).map Prod.fst).Nodup) ∧
      ((([(1, 5), (2, 6)] : List (Nat × Nat)).foldl (insertS ltN) emptySt).count
          = ([(1, 5), (2, 6)] : List (Nat × Nat)).length ∧
        (20 ∈ keysList mapABC.st.root →
          (insertS ltN mapABC.st (20, 99)).count = mapABC.st.count ∧
            (20, 99) ∈ (insertS ltN mapABC.st (20, 99)).root.inorder) ∧
        (20 ∈ keysList mapABC.st.root →
          (deleteKey ltN mapABC.st 20).count + 1 = mapABC.st.count) ∧
        (20 ∉ keysList mapABC.st.root → deleteKey ltN mapABC.st 20 = mapABC.st)) :=
  ⟨lawful_ltN, mapABC_WF, by decide,
    c2RoundTripSize ltN lawful_ltN mapABC.st 20 99 [(1, 5), (2, 6)]
      mapABC_WF (by decide)⟩

/-- C9: the claim that constructing from a vector equals inserting each
pair in order into an empty map fails for the cited constructor: its body
starts by clearing through and deleting the never-initialized members
`root` and `sentinelNode`, undefined behavior on every call that precedes
the insertion loop.  The faithful model therefore faults on the concrete
vector [(1,5),(2,6),(1,7)], while the defined remainder of the body alone
(the fold of `insert`) would produce exactly the claimed contents: later
duplicate key 1 overwrites (value 7 wins) and the count is the number of
distinct keys, 2. -/
theorem c9CodeBugEval :
    fromVectorCtor ltN [(1, 5), (2, 6), (1, 7)]
        = Except.error CtorFault.uninitRead ∧
      (fromVector ltN [(1, 5), (2, 6), (1, 7)]).root.inorder
        = [(1, 7), (2, 6)] ∧
      (fromVector ltN [(1, 5), (2, 6), (1, 7)]).count = 2 :=
  ⟨rfl, by decide, by decide⟩

/-- C10: copy-constructing from a tree whose root is its sentinel runs
`operator=`, whose `clear()` resets the count to 0 and the root to the new
tree's sentinel, and the empty-source guard then returns immediately: the
copy is empty with `size() == 0`. -/
theorem c10CopyOfEmpty (src : St α β) (h : src.root = Tr.nil) :
    (copyCtorHdr src).root = Tr.nil ∧ (copyCtorHdr src).count = 0 := by
  simp [copyCtorHdr, assignHdr, h, emptySt]

/-- C10 witness: the copy constructor applied to a concrete empty tree. -/
theorem c10CopyOfEmptyWitness :
    (⟨Tr.nil, 3, 7⟩ : St Nat Nat).root = Tr.nil ∧
    ((copyCtorHdr (⟨Tr.nil, 3, 7⟩ : St Nat Nat)).root = Tr.nil ∧
      (copyCtorHdr (⟨Tr.nil, 3, 7⟩ : St Nat Nat)).count = 0) :=
  ⟨rfl, c10CopyOfEmpty (⟨Tr.nil, 3, 7⟩ : St Nat Nat) rfl⟩

/-- C1: for every sequence of insert and erase operations starting from the
empty map, after each operation completes (that is, after the part of the
sequence already executed) the tree passes the full recursive red-black
checker: black root, no red node with a red child, the same number of black
nodes on every path from the root to a sentinel leaf, and strictly
increasing in-order keys under the supplied comparator — binary-search-tree
order with no duplicate keys. -/
theorem c1RedBlackInvariants (lt : α → α → Bool) [DecidableEq α]
    (hl : LawfulLt lt) (ops pre rest : List (Op α β))
    (hsplit : ops = pre ++ rest) :
    rbValid lt ((pre.foldl (applyOp lt) emptySt).root) = true := by
  obtain ⟨hw, hrb⟩ := foldApply_WF_RBInv lt hl pre emptySt (emptySt_WF lt)
    ⟨rfl, rfl, rfl⟩
  obtain ⟨hr, hnr, hbh⟩ := hrb
  rw [rbValid, hr, hnr, hbh]
  simp only [Bool.not_false, Bool.true_and, Bool.and_true]
  exact strictChain_of_pairwise hw.2.2.1

/-- C1 witness: the checker passes midway through a concrete
insert/insert/erase/insert sequence. -/
theorem c1RedBlackInvariantsWitness :
    LawfulLt ltN ∧
      ([Op.ins 2 20, Op.ins 1 10, Op.del 2, Op.ins 3 30] : List (Op Nat Nat))
        = [Op.ins 2 20, Op.ins 1 10] ++ [Op.del 2, Op.ins 3 30] ∧
      rbValid ltN ((([Op.ins 2 20, Op.ins 1 10] : List (Op Nat Nat)).foldl
        (applyOp ltN) emptySt).root) = true :=
  ⟨lawful_ltN, rfl,
    c1RedBlackInvariants ltN lawful_ltN
      [Op.ins 2 20, Op.ins 1 10, Op.del 2, Op.ins 3 30]
      [Op.ins 2 20, Op.ins 1 10] [Op.del 2, Op.ins 3 30] rfl⟩
